import Mathlib

/-!
Verification development for `winbak_extract.py`, a Windows 7 backup ZIP
extractor.  The Python source is shallowly embedded: pure helpers become Lean
functions, the filesystem becomes an explicit map from component paths to
nodes (files with byte lists, or directories), and Python exceptions become
an explicit `Option PyExc` outcome that is threaded together with the mutated
state (Python exceptions preserve prior mutations, so state is always
returned alongside the outcome).

Python strings are modelled through their character lists (`String.data`),
with the handful of `str` methods the script uses re-implemented as plain
recursions over `List Char`; this matches Python's per-character semantics
(slicing, code-point comparison, ASCII case folding) and keeps every
definition executable by the kernel.

Machine integers: Python integers are unbounded, so `Int`/`Nat` are used
directly; `sys.maxsize` is the literal `2^63 - 1` of a 64-bit CPython build.

External effects the script cannot determine by itself (the `cmd /c copy /b`
subprocess, and the physical success of the byte stream written by the
Python fallback concatenation) are oracles carried in `Env`; a healthy disk
instantiates `concatWrite` with the identity, a faulty one with a
truncating function.  Text codecs (`cp437` and the user-supplied fallback)
are likewise abstract codec functions in `Env`, since their byte tables are
irrelevant to every claim.
-/

/-! ## Python `str` operations on character lists -/

/-- ASCII lower-casing of one character (`str.lower` on the characters the
script compares). -/
def lowerChar (c : Char) : Char :=
  if 'A' ≤ c ∧ c ≤ 'Z' then Char.ofNat (c.toNat + 32) else c

/-- `s.lower()` (ASCII fragment). -/
def pyLower (s : String) : String := String.mk (s.data.map lowerChar)

/-- `s.startswith(pre)`. -/
def pyStartsWith (s pre : String) : Bool := pre.data.isPrefixOf s.data

/-- `s.endswith(suf)`. -/
def pyEndsWith (s suf : String) : Bool := suf.data.isSuffixOf s.data

/-- `s[n:]` (character slicing). -/
def pyDrop (s : String) (n : Nat) : String := String.mk (s.data.drop n)

/-- Code-point lexicographic `≤` on character lists, Python's `str`
comparison. -/
def lexLE : List Char → List Char → Bool
  | [], _ => true
  | _ :: _, [] => false
  | a :: as, b :: bs => if a < b then true else if a = b then lexLE as bs else false

def pyStrLE (a b : String) : Bool := lexLE a.data b.data

/-- `s.split("/")`. -/
def splitSlash : List Char → List (List Char)
  | [] => [[]]
  | c :: t =>
    match splitSlash t with
    | [] => [[c]]
    | h :: r => if c = '/' then [] :: h :: r else (c :: h) :: r

/-! ## Decimal digit rendering (models Python `f"{idx:04d}"`) -/

def digitChar (n : Nat) : Char := Char.ofNat (48 + n)

def natDigitsAux : Nat → Nat → List Char → List Char
  | 0, _, acc => acc
  | fuel + 1, n, acc =>
    if n < 10 then digitChar n :: acc
    else natDigitsAux fuel (n / 10) (digitChar (n % 10) :: acc)

def natDigits (n : Nat) : List Char := natDigitsAux (n + 1) n []

def digitsToNat (l : List Char) : Nat :=
  l.foldl (fun a c => a * 10 + (c.toNat - 48)) 0

/-- Zero padding to width 4, as `"%04d"` does (wider numbers are not
truncated). -/
def pad4 (n : Nat) : List Char :=
  List.replicate (4 - (natDigits n).length) '0' ++ natDigits n

/-- Decimal rendering of a `Nat` as a string (Python `str(n)` for the
counters interpolated into the report). -/
def natStr (n : Nat) : String := String.mk (natDigits n)

/-! ## Python `int()` (ASCII fragment: whitespace strip, sign, digits with
single underscores between digits) -/

def isPySpace (c : Char) : Bool :=
  c = ' ' || c = '\t' || c = '\n' || c = '\r' || c = Char.ofNat 11 || c = Char.ofNat 12

def pyStrip (l : List Char) : List Char :=
  ((l.dropWhile isPySpace).reverse.dropWhile isPySpace).reverse

def parseDigitsGo : Nat → List Char → Option Nat
  | acc, [] => some acc
  | acc, c :: rest =>
    if c.isDigit then parseDigitsGo (acc * 10 + (c.toNat - 48)) rest
    else if c = '_' then
      match rest with
      | [] => none
      | d :: rest2 =>
        if d.isDigit then parseDigitsGo (acc * 10 + (d.toNat - 48)) rest2 else none
    else none

def parseDigits : List Char → Option Nat
  | [] => none
  | c :: rest => if c.isDigit then parseDigitsGo (c.toNat - 48) rest else none

def pyInt? (s : String) : Option Int :=
  match pyStrip s.data with
  | '+' :: rest => (parseDigits rest).map Int.ofNat
  | '-' :: rest => (parseDigits rest).map (fun n => -(Int.ofNat n))
  | l => (parseDigits l).map Int.ofNat

/-! ## Pure path helpers (POSIX `pathlib` fragment used by the script) -/

/-- Paths are lists of components; `Path("a/b")` is `["a", "b"]`. -/
abbrev FPath := List String

/-- Bytes of a file, one `Nat` per byte. -/
abbrev Bytes := List Nat

/-- Components of `Path(s)`: split on `/`, dropping empty and `"."`
components, as `pathlib` normalization does for relative paths. -/
def normComps (s : String) : FPath :=
  ((splitSlash s.data).map String.mk).filter (fun c => c ≠ "" && c ≠ ".")

/-- Concatenation of components with `/` separators. -/
def joinRaw : FPath → String
  | [] => ""
  | [c] => c
  | c :: rest => c ++ "/" ++ joinRaw rest

/-- The string `str(p)` of a relative path (empty path prints as `"."`). -/
def joinComps (p : FPath) : String :=
  match p with
  | [] => "."
  | _ => joinRaw p

/-- Display form of an (absolute) path, used in log messages. -/
def pathStr (p : FPath) : String := joinRaw p

/-- `Path.name`: the final component (empty for the empty path). -/
def relNameOf (p : FPath) : String := p.getLastD ""

/-- `Path.parent` as components (drops the final component). -/
def relParentOf (p : FPath) : FPath := p.dropLast

/-- Python `path / s`: appending an empty name leaves the path unchanged. -/
def pathJoin1 (p : FPath) (s : String) : FPath :=
  if s = "" then p else p ++ [s]

/-- Index of the last occurrence of `x`, if any. -/
def lastIdxOf (x : Char) : List Char → Option Nat
  | [] => none
  | c :: t =>
    match lastIdxOf x t with
    | some i => some (i + 1)
    | none => if c = x then some 0 else none

/-- `PurePath.stem` on a single name: cut at the last dot when that dot is
neither the first nor the last character. -/
def stemChars (nm : List Char) : List Char :=
  match lastIdxOf '.' nm with
  | some i => if 0 < i ∧ i + 1 < nm.length then nm.take i else nm
  | none => nm

/-- `PurePath.suffix` on a single name (the extension, dot included). -/
def suffixChars (nm : List Char) : List Char :=
  match lastIdxOf '.' nm with
  | some i => if 0 < i ∧ i + 1 < nm.length then nm.drop i else []
  | none => []

def pathSuffixOf (nm : String) : String :=
  String.mk (suffixChars nm.data)

/-! ## Archive ordering (`zip_sort_key`, line 71) -/

def ZIP_NAME_PREFIX : String := "Backup files "

def PY_MAXSIZE : Int := 9223372036854775807

/-- The integer `int(Path(name[13:]).stem)` that `zip_sort_key` tries to
parse; `none` when the name does not carry the prefix or parsing raises. -/
def zipNum? (name : String) : Option Int :=
  if pyStartsWith (pyLower name) "backup files " then
    pyInt? (String.mk (stemChars ((normComps (pyDrop name 13)).getLastD "").data))
  else none

/-- `zip_sort_key` (source line 71): `(num, name)` when the trailing integer
parses, `(sys.maxsize, name)` otherwise. -/
def zipSortKey (name : String) : Int × String :=
  match zipNum? name with
  | some n => (n, name)
  | none => (PY_MAXSIZE, name)

/-- The comparison Python's tuple sort performs on the keys. -/
def keyLE (a b : String) : Bool :=
  (zipSortKey a).1 < (zipSortKey b).1 ||
    ((zipSortKey a).1 = (zipSortKey b).1 && pyStrLE (zipSortKey a).2 (zipSortKey b).2)

/-- `zips.sort(key=zip_sort_key)` (source line 109). -/
def sortZips (names : List String) : List String :=
  names.mergeSort keyLE

/-- Claim C5's required ordering, read off the claim's words: numeric names
ascend, every non-numeric name follows every numeric one, ties break by full
filename. -/
def c5PairB (a b : String) : Bool :=
  match zipNum? a, zipNum? b with
  | some va, some vb => decide (va ≤ vb) && (if va = vb then pyStrLE a b else true)
  | none, some _ => false
  | none, none => pyStrLE a b
  | some _, none => true

def c5PairOK (a b : String) : Prop := c5PairB a b = true

instance instDecC5Pair : DecidableRel c5PairOK := fun a b =>
  inferInstanceAs (Decidable (c5PairB a b = true))

def c5ClaimHolds (names : List String) : Prop :=
  (sortZips names).Pairwise c5PairOK

instance (names : List String) : Decidable (c5ClaimHolds names) :=
  inferInstanceAs (Decidable ((sortZips names).Pairwise c5PairOK))

/-- The ordering the code actually guarantees: ascending numerically with
filename tie-breaks, but a non-numeric name only precedes numeric values at
least `sys.maxsize` instead of following all numeric ones. -/
def c5AmendedPairOK (a b : String) : Prop :=
  match zipNum? a, zipNum? b with
  | some va, some vb => va ≤ vb ∧ (va = vb → pyStrLE a b = true)
  | none, some vb => PY_MAXSIZE ≤ vb
  | none, none => pyStrLE a b = true
  | some _, none => True

/-! ## Environment: codec and external-effect oracles -/

/-- Abstract environment for effects the script delegates: the external
`cmd /c copy /b` call (given the fragment contents found on disk, it yields a
return code and optionally the bytes it managed to write to the temporary
file), the physical outcome of the Python fallback's stream of writes
(`concatWrite`, identity on a healthy disk), the text codecs used by
`_decode_zip_name`, and the wall-clock timestamp used by the report. -/
structure Env where
  copyB : List (Option Bytes) → Int × Option Bytes
  concatWrite : Bytes → Bytes
  userEncodingGiven : Bool
  userDecode : Bytes → Option String
  cp437Encode : String → Option Bytes
  cp437Decode : Bytes → Option String
  now : String

/-- One member of a ZIP archive's listing: the stored (already
zipfile-decoded) name, the general-purpose flag bits, and the entry bytes. -/
structure ZipEntryInfo where
  origFilename : String
  flagBits : Nat
  data : Bytes
  deriving DecidableEq

/-- `ZipInfo.is_dir()`: the name ends with a slash. -/
def entryIsDir (info : ZipEntryInfo) : Bool := pyEndsWith info.origFilename "/"

/-- `_decode_zip_name` (source lines 116-131). -/
def decodeZipName (env : Env) (info : ZipEntryInfo) : String :=
  if info.flagBits &&& 0x800 ≠ 0 then info.origFilename
  else
    match env.cp437Encode info.origFilename with
    | none => info.origFilename
    | some raw =>
      match (if env.userEncodingGiven then env.userDecode raw else none) with
      | some s => s
      | none =>
        match env.cp437Decode raw with
        | some s => s
        | none => info.origFilename

/-- Normalized relative path of an entry (Python `Path(fixed_name)`). -/
def entryRel (env : Env) (info : ZipEntryInfo) : FPath :=
  normComps (decodeZipName env info)

/-- The LogicalFile key: `str(rel).lower()` (source line 148). -/
def entryKey (env : Env) (info : ZipEntryInfo) : String :=
  pyLower (joinComps (entryRel env info))

/-! ## Filesystem model

A node is a regular file (with its bytes) or a directory; the filesystem is
a partial map from component paths to nodes.  Operations mirror the POSIX
behavior of the `pathlib`/`os` calls the script performs, with Python
exceptions surfaced as `Option PyExc` values; a failed operation returns the
filesystem unchanged (except `mkdir(parents=True)`, which keeps the
ancestors it already created, as the real call does). -/

inductive FNode where
  | file (b : Bytes)
  | dir
  deriving DecidableEq

abbrev FS := FPath → Option FNode

def fsSet (fs : FS) (p : FPath) (v : FNode) : FS :=
  fun q => if q = p then some v else fs q

def fsDel (fs : FS) (p : FPath) : FS :=
  fun q => if q = p then none else fs q

inductive PyExc where
  | indexError
  | valueError (msg : String)
  | fileNotFound (p : FPath)
  | fileExists (p : FPath)
  | isADir (p : FPath)
  deriving DecidableEq

/-- Rendering of `f"{exc}"` used inside recorded error strings (the exact
wording of OS errors is platform text; the path is what matters). -/
def pyExcMsg : PyExc → String
  | .indexError => "list index out of range"
  | .valueError m => m
  | .fileNotFound p => "No such file or directory: " ++ pathStr p
  | .fileExists p => "File exists: " ++ pathStr p
  | .isADir p => "Is a directory: " ++ pathStr p

/-- `Path.exists()`: true for files and directories alike. -/
def fsExists (fs : FS) (p : FPath) : Bool := (fs p).isSome

/-- `p.stat().st_size`: the byte count of a file (directories report a
platform-defined size, modelled as 0 — never relevant under the claims),
`none` when the path is absent (`FileNotFoundError`). -/
def statSize (fs : FS) (p : FPath) : Option Nat :=
  match fs p with
  | some (.file b) => some b.length
  | some .dir => some 0
  | none => none

/-- `open(p, "wb")` + write + close, as one step: fails on a directory or a
missing parent directory, otherwise creates or truncates the file. -/
def writeFile (fs : FS) (p : FPath) (b : Bytes) : FS × Option PyExc :=
  match fs p with
  | some .dir => (fs, some (.isADir p))
  | _ =>
    if p = [] then (fs, some (.fileNotFound p))
    else if p.dropLast = [] ∨ fs p.dropLast = some .dir then (fsSet fs p (.file b), none)
    else (fs, some (.fileNotFound p))

/-- `Path(p).unlink(missing_ok=True)` under a swallowing `except`: removes a
file, leaves directories and missing paths alone (every unlink in the script
is wrapped so that its exceptions are discarded, or uses `missing_ok`). -/
def unlinkBE (fs : FS) (p : FPath) : FS :=
  match fs p with
  | some (.file _) => fsDel fs p
  | _ => fs

/-- `os.replace(src, dst)`: atomic rename of a file, overwriting a file at
`dst`; fails when `src` is missing or a directory, when `dst` is a
directory, or when the parent of `dst` does not exist. -/
def replaceFile (fs : FS) (src dst : FPath) : FS × Option PyExc :=
  match fs src with
  | some (.file b) =>
    match fs dst with
    | some .dir => (fs, some (.isADir dst))
    | _ =>
      if dst = [] then (fs, some (.fileNotFound dst))
      else if dst.dropLast = [] ∨ fs dst.dropLast = some .dir then
        (fsSet (fsDel fs src) dst (.file b), none)
      else (fs, some (.fileNotFound dst))
  | some .dir => (fs, some (.isADir src))
  | none => (fs, some (.fileNotFound src))

/-- `Path(p).mkdir(parents=True, exist_ok=True)`: walk the components from
the root, creating missing directories; an existing regular file anywhere on
the chain raises, and the directories created so far remain. -/
def mkdirAux (fs : FS) (base : FPath) : List String → FS × Option PyExc
  | [] => (fs, none)
  | c :: rest =>
    match fs (base ++ [c]) with
    | some (.file _) => (fs, some (.fileExists (base ++ [c])))
    | some .dir => mkdirAux fs (base ++ [c]) rest
    | none => mkdirAux (fsSet fs (base ++ [c]) .dir) (base ++ [c]) rest

def mkdirP (fs : FS) (p : FPath) : FS × Option PyExc := mkdirAux fs [] p

/-! ## The run summary (`SummaryLog`, lines 16-51) -/

structure SummaryLog where
  merged : List (String × Nat)
  skippedExisting : List String
  errors : List String
  extractedPartsCount : Nat
  zipsProcessed : Nat
  deriving DecidableEq

def joinLines : List String → String
  | [] => ""
  | [l] => l
  | l :: rest => l ++ "\n" ++ joinLines rest

/-- The report body rendered by `SummaryLog.write` (lines 26-45). -/
def summaryLines (log : SummaryLog) : List String :=
  ["Windows 7 Backup Extract Summary",
   "ZIPs processed: " ++ natStr log.zipsProcessed,
   "Part files extracted: " ++ natStr log.extractedPartsCount,
   "",
   "Merged outputs:"]
  ++ ((log.merged.filter (fun m => 1 < m.2)).map
        (fun m => "- " ++ m.1 ++ " (parts=" ++ natStr m.2 ++ ")"))
  ++ [""]
  ++ (if log.skippedExisting ≠ [] then
        ["Skipped (final already exists):"] ++ log.skippedExisting.map (fun p => "- " ++ p) ++ [""]
      else [])
  ++ (if log.errors ≠ [] then
        ["Errors:"] ++ log.errors.map (fun e => "- " ++ e) ++ [""]
      else [])

/-- UTF-8 bytes of the report text. -/
def strBytes (s : String) : Bytes := s.toUTF8.toList.map (fun b => b.toNat)

/-- `ts.replace("-", "").replace(":", "")` (line 47) removes every dash and
colon from the timestamp. -/
def tsStd (now : String) : String :=
  String.mk (now.data.filter (fun c => c ≠ '-' && c ≠ ':'))

def reportFileName (env : Env) : String := "winbak_extract_" ++ tsStd env.now ++ ".txt"

/-- `SummaryLog.write(dest)` (lines 24-51): best effort, any failure is
swallowed (printed to stderr only). -/
def logWrite (env : Env) (log : SummaryLog) (dest : FPath) (fs : FS) : FS :=
  (writeFile fs (pathJoin1 dest (reportFileName env)) (strBytes (joinLines (summaryLines log)))).1

/-! ## Extraction staging (`stage_extract`, lines 135-161) -/

def TMP_DIR_NAME : String := ".winbak_tmp"

/-- The staged fragment file name `rel.name + f".part_{idx:04d}"`. -/
def partFileName (base : String) (idx : Nat) : String :=
  base ++ ".part_" ++ String.mk (pad4 idx)

/-- The ordered association list behind `parts_map` (Python dicts preserve
insertion order, which `merge_parts` then iterates). -/
abbrev PartsMap := List (String × List FPath)

def pmLookup : PartsMap → String → Option (List FPath)
  | [], _ => none
  | (k, l) :: t, key => if k = key then some l else pmLookup t key

/-- `parts_map.setdefault(key, [])`: inserts an empty list at the end when
the key is new (this mutation persists even if the entry later fails). -/
def pmEnsure : PartsMap → String → PartsMap
  | [], key => [(key, [])]
  | (k, l) :: t, key => if k = key then (k, l) :: t else (k, l) :: pmEnsure t key

/-- `part_list.append(part_path)` on the list `setdefault` returned. -/
def pmAppend : PartsMap → String → FPath → PartsMap
  | [], key, p => [(key, [p])]
  | (k, l) :: t, key, p => if k = key then (k, l ++ [p]) :: t else (k, l) :: pmAppend t key p

structure StageSt where
  pm : PartsMap
  fs : FS
  log : SummaryLog

/-- One loop iteration of lines 143-158 (inside the per-archive `try`). -/
def stageEntry (env : Env) (tmpRoot : FPath) (st : StageSt) (info : ZipEntryInfo) :
    StageSt × Option PyExc :=
  if entryIsDir info then (st, none)
  else
    let rel := entryRel env info
    let key := entryKey env info
    let pm0 := pmEnsure st.pm key
    let partList := (pmLookup pm0 key).getD []
    let idx := partList.length + 1
    let pname := partFileName (relNameOf rel) idx
    let partDir := tmpRoot ++ relParentOf rel
    match mkdirP st.fs partDir with
    | (fs1, some e) => ({ st with pm := pm0, fs := fs1 }, some e)
    | (fs1, none) =>
      let partPath := pathJoin1 partDir pname
      match writeFile fs1 partPath info.data with
      | (fs2, some e) => ({ st with pm := pm0, fs := fs2 }, some e)
      | (fs2, none) =>
        ({ pm := pmAppend pm0 key partPath, fs := fs2,
           log := { st.log with extractedPartsCount := st.log.extractedPartsCount + 1 } }, none)

/-- The entry loop of one archive; the first exception aborts the archive,
keeping the state mutated so far. -/
def stageZip (env : Env) (tmpRoot : FPath) (st : StageSt) :
    List ZipEntryInfo → StageSt × Option PyExc
  | [] => (st, none)
  | info :: rest =>
    match stageEntry env tmpRoot st info with
    | (st', some e) => (st', some e)
    | (st', none) => stageZip env tmpRoot st' rest

/-- A ZIP archive as the script sees it: its filesystem path, whether it is
a regular file, and its entry listing (`infolist()` order). -/
structure ZipFile where
  path : FPath
  isFile : Bool
  entries : List ZipEntryInfo

/-- The archive loop of lines 140-160: an archive whose processing raises is
recorded as an extraction error and skipped, the run continues. -/
def stageZips (env : Env) (tmpRoot : FPath) : List ZipFile → StageSt → StageSt
  | [], st => st
  | z :: rest, st =>
    match stageZip env tmpRoot st z.entries with
    | (st', none) => stageZips env tmpRoot rest st'
    | (st', some e) =>
      stageZips env tmpRoot rest
        { st' with log := { st'.log with errors := st'.log.errors ++
            ["Failed to extract from " ++ pathStr z.path ++ ": " ++ pyExcMsg e] } }

/-- `stage_extract` (lines 135-161).  The `tmp_root.mkdir` of line 138 is
outside every `try` inside the function, so its failure escapes to the
caller (`Option PyExc` in the result). -/
def stageExtract (env : Env) (zips : List ZipFile) (destRoot : FPath) (fs : FS)
    (log : SummaryLog) : StageSt × Option PyExc :=
  let tmpRoot := destRoot ++ [TMP_DIR_NAME]
  match mkdirP fs tmpRoot with
  | (fs1, some e) => (⟨[], fs1, log⟩, some e)
  | (fs1, none) => (stageZips env tmpRoot zips ⟨[], fs1, log⟩, none)

/-! ## Merging (`concat_parts_python` lines 165-170, `merge_parts` lines 174-240) -/

/-- Split before the last occurrence of `sep`, with the remainder after it:
`rsplit(sep, 1)` when an occurrence exists. -/
def lastOccSplit (sep : List Char) : List Char → Option (List Char × List Char)
  | [] => if sep.isEmpty then some ([], []) else none
  | c :: t =>
    match lastOccSplit sep t with
    | some (a, b) => some (c :: a, b)
    | none => if sep.isPrefixOf (c :: t) then some ([], (c :: t).drop sep.length) else none

/-- `first_part.name.rsplit(".part_", 1)[0]` (line 178). -/
def originalNameOf (fileName : String) : String :=
  match lastOccSplit ".part_".data fileName.data with
  | some (a, _) => String.mk a
  | none => fileName

/-- The fragment contents handed to the external `copy /b` oracle: what the
command would find on disk at each fragment path. -/
def partsBytes (fs : FS) (parts : List FPath) : List (Option Bytes) :=
  parts.map (fun p => match fs p with
    | some (.file b) => some b
    | _ => none)

/-- Reading every fragment in order; on the first unreadable one, the bytes
already streamed and the exception are returned. -/
def readAll (fs : FS) : List FPath → List Bytes ⊕ (List Bytes × PyExc)
  | [] => Sum.inl []
  | p :: t =>
    match fs p with
    | some (.file b) =>
      match readAll fs t with
      | Sum.inl l => Sum.inl (b :: l)
      | Sum.inr (l, e) => Sum.inr (b :: l, e)
    | some .dir => Sum.inr ([], .isADir p)
    | none => Sum.inr ([], .fileNotFound p)

/-- `concat_parts_python(parts, tmp_merge)` (lines 165-170): ensure the
parent directory, open the output (truncating it), then stream each part;
`concatWrite` maps the intended content to what physically lands on disk. -/
def concatParts (env : Env) (fs : FS) (parts : List FPath) (tmpMerge : FPath) :
    FS × Option PyExc :=
  match mkdirP fs (relParentOf tmpMerge) with
  | (fs1, some e) => (fs1, some e)
  | (fs1, none) =>
    match writeFile fs1 tmpMerge (env.concatWrite []) with
    | (fs2, some e) => (fs2, some e)
    | (fs2, none) =>
      match readAll fs2 parts with
      | Sum.inl all => ((writeFile fs2 tmpMerge (env.concatWrite all.flatten)).1, none)
      | Sum.inr (pre, e) => ((writeFile fs2 tmpMerge (env.concatWrite pre.flatten)).1, some e)

/-- `sum(p.stat().st_size for p in parts)`: `none` when some `stat` raises. -/
def sumStats (fs : FS) : List FPath → Option Nat
  | [] => some 0
  | p :: t =>
    match statSize fs p with
    | some n => (sumStats fs t).map (n + ·)
    | none => none

structure MergeSt where
  fs : FS
  log : SummaryLog

/-- The `except` handler of lines 235-240: record the failure, then best
effort unlink of the temporary merge file. -/
def mergeFail (log : SummaryLog) (fs : FS) (finalPath tmpMerge : FPath) (msg : String) :
    MergeSt :=
  ⟨unlinkBE fs tmpMerge,
   { log with errors := log.errors ++ ["Failed to merge " ++ pathStr finalPath ++ ": " ++ msg] }⟩

/-- Lines 225-234: move the temporary file into place, record the merge, and
best effort delete of the fragments; a failing `os.replace` is caught by the
per-key handler. -/
def mergeCommit (log : SummaryLog) (fs : FS) (finalPath tmpMerge : FPath)
    (parts : List FPath) : MergeSt :=
  match replaceFile fs tmpMerge finalPath with
  | (fs1, some e) => mergeFail log fs1 finalPath tmpMerge (pyExcMsg e)
  | (fs1, none) =>
    ⟨parts.foldl unlinkBE fs1,
     { log with merged := log.merged ++ [(pathStr finalPath, parts.length)] }⟩

/-- The general merge path (lines 204-240): external `copy /b`, size check,
Python fallback, re-check, then commit. -/
def mergeGeneral (env : Env) (st : MergeSt) (finalPath : FPath) (parts : List FPath)
    (parentP : FPath) (originalName : String) : MergeSt :=
  let tmpMerge := parentP ++ [originalName ++ ".__merge_tmp"]
  let cmdRes := env.copyB (partsBytes st.fs parts)
  let fsA := match cmdRes.2 with
    | some b => (writeFile st.fs tmpMerge b).1
    | none => st.fs
  match sumStats fsA parts with
  | none =>
    mergeFail st.log fsA finalPath tmpMerge (pyExcMsg (.fileNotFound []))
  | some expected =>
    let actual := (statSize fsA tmpMerge).getD 0
    if cmdRes.1 ≠ 0 ∨ actual ≠ expected then
      let fsB := unlinkBE fsA tmpMerge
      match concatParts env fsB parts tmpMerge with
      | (fsC, some e) => mergeFail st.log fsC finalPath tmpMerge (pyExcMsg e)
      | (fsC, none) =>
        let actual2 := (statSize fsC tmpMerge).getD 0
        if actual2 ≠ expected then
          mergeFail st.log fsC finalPath tmpMerge
            ("Merged size mismatch after fallback: expected=" ++ natStr expected ++
              ", actual=" ++ natStr actual2)
        else
          mergeCommit st.log fsC finalPath tmpMerge parts
    else
      mergeCommit st.log fsA finalPath tmpMerge parts

/-- The single-fragment fast path (lines 190-202); any exception inside it
falls through to the general path. -/
def mergeFastOrGeneral (env : Env) (st : MergeSt) (finalPath : FPath) (parts : List FPath)
    (firstPart parentP : FPath) (originalName : String) : MergeSt :=
  match sumStats st.fs parts with
  | none => mergeGeneral env st finalPath parts parentP originalName
  | some expected =>
    match statSize st.fs firstPart with
    | none => mergeGeneral env st finalPath parts parentP originalName
    | some actual =>
      if actual ≠ expected then
        mergeGeneral env st finalPath parts parentP originalName
      else
        match replaceFile st.fs firstPart finalPath with
        | (fs1, some _) => mergeGeneral env ⟨fs1, st.log⟩ finalPath parts parentP originalName
        | (fs1, none) =>
          ⟨fs1, { st.log with merged := st.log.merged ++ [(pathStr finalPath, 1)] }⟩

/-- One iteration of the `merge_parts` loop (lines 176-240).  Lines 177-188
run outside the per-key `try`, so their exceptions escape `merge_parts`
itself: `parts[0]` on an empty fragment list (`IndexError`, possible when an
extraction error struck after `setdefault` but before the first append),
`relative_to` (`ValueError`), and `final_dir.mkdir`. -/
def mergeOne (env : Env) (destRoot tmpRoot : FPath) (st : MergeSt)
    (item : String × List FPath) : MergeSt × Option PyExc :=
  match item.2 with
  | [] => (st, some .indexError)
  | firstPart :: _ =>
    let parts := item.2
    let originalName := originalNameOf (relNameOf firstPart)
    let parentP := relParentOf firstPart
    if tmpRoot.isPrefixOf parentP then
      let relDir := parentP.drop tmpRoot.length
      let finalDir := destRoot ++ relDir
      match mkdirP st.fs finalDir with
      | (fs1, some e) => ({ st with fs := fs1 }, some e)
      | (fs1, none) =>
        let finalPath := pathJoin1 finalDir originalName
        if fsExists fs1 finalPath then
          ({ fs := fs1,
             log := { st.log with
               skippedExisting := st.log.skippedExisting ++ [pathStr finalPath],
               errors := st.log.errors ++
                 ["Final already exists (overwrite not allowed): " ++ pathStr finalPath] } },
           none)
        else if parts.length = 1 then
          (mergeFastOrGeneral env ⟨fs1, st.log⟩ finalPath parts firstPart parentP originalName,
           none)
        else
          (mergeGeneral env ⟨fs1, st.log⟩ finalPath parts parentP originalName, none)
    else
      (st, some (.valueError (pathStr parentP ++ " is not in the subpath of " ++
        pathStr tmpRoot)))

def mergePartsGo (env : Env) (destRoot tmpRoot : FPath) :
    List (String × List FPath) → MergeSt → MergeSt × Option PyExc
  | [], st => (st, none)
  | item :: rest, st =>
    match mergeOne env destRoot tmpRoot st item with
    | (st', none) => mergePartsGo env destRoot tmpRoot rest st'
    | (st', some e) => (st', some e)

/-- `merge_parts(parts_map, dest_root, log)` (lines 174-240). -/
def mergeParts (env : Env) (pm : PartsMap) (destRoot : FPath) (fs : FS)
    (log : SummaryLog) : MergeSt × Option PyExc :=
  mergePartsGo env destRoot (destRoot ++ [TMP_DIR_NAME]) pm ⟨fs, log⟩

/-! ## The run driver (`process_zips` lines 244-279, `process_dir`, `main`) -/

/-- The body of the `try` block of `process_zips` (lines 250-254): set the
archive counter, the (unreachable) empty guard, staging, then merging.  The
`Bool` records whether the guard's `return 0` fired. -/
def processZipsBody (env : Env) (zips : List ZipFile) (destRoot : FPath) (fs : FS) :
    FS × SummaryLog × Bool × Option PyExc :=
  let log0 : SummaryLog := ⟨[], [], [], 0, zips.length⟩
  if zips.isEmpty then (fs, log0, true, none)
  else
    match stageExtract env zips destRoot fs log0 with
    | (st, some e) => (st.fs, st.log, false, some e)
    | (st, none) =>
      match mergeParts env st.pm destRoot st.fs st.log with
      | (mst, e?) => (mst.fs, mst.log, false, e?)

/-- `process_zips` (lines 244-279). `Path(zips[0])` (line 245) and
`dest_root.mkdir` (line 246) run before the `try`, so their exceptions
propagate (`Except.error`).  The `finally` block prunes empty staging
directories — which never deletes a file, so it is omitted here — and then
writes the report.  A `return 0` from the empty guard runs the `finally` and
skips the error check of line 277. -/
def processZips (env : Env) (zips : List ZipFile) (fs : FS) :
    FS × Except PyExc (Int × SummaryLog) :=
  match zips with
  | [] => (fs, Except.error PyExc.indexError)
  | z :: _ =>
    let destRoot := relParentOf z.path
    match mkdirP fs destRoot with
    | (fs1, some e) => (fs1, Except.error e)
    | (fs1, none) =>
      match processZipsBody env zips destRoot fs1 with
      | (fs2, log2, true, _) =>
        (logWrite env log2 destRoot fs2, Except.ok (0, log2))
      | (fs2, log2, false, some e) =>
        let logC := { log2 with errors := log2.errors ++ ["Fatal error: " ++ pyExcMsg e] }
        (logWrite env logC destRoot fs2, Except.ok (1, logC))
      | (fs2, log2, false, none) =>
        (logWrite env log2 destRoot fs2,
         Except.ok ((if log2.errors = [] then (0 : Int) else 1), log2))

/-- `process_zips` with the dead `if not zips: return 0` branch removed
(claim C10 compares the two). -/
def processZipsBodyNoGuard (env : Env) (zips : List ZipFile) (destRoot : FPath) (fs : FS) :
    FS × SummaryLog × Bool × Option PyExc :=
  let log0 : SummaryLog := ⟨[], [], [], 0, zips.length⟩
  match stageExtract env zips destRoot fs log0 with
  | (st, some e) => (st.fs, st.log, false, some e)
  | (st, none) =>
    match mergeParts env st.pm destRoot st.fs st.log with
    | (mst, e?) => (mst.fs, mst.log, false, e?)

def processZipsNoGuard (env : Env) (zips : List ZipFile) (fs : FS) :
    FS × Except PyExc (Int × SummaryLog) :=
  match zips with
  | [] => (fs, Except.error PyExc.indexError)
  | z :: _ =>
    let destRoot := relParentOf z.path
    match mkdirP fs destRoot with
    | (fs1, some e) => (fs1, Except.error e)
    | (fs1, none) =>
      match processZipsBodyNoGuard env zips destRoot fs1 with
      | (fs2, log2, true, _) =>
        (logWrite env log2 destRoot fs2, Except.ok (0, log2))
      | (fs2, log2, false, some e) =>
        let logC := { log2 with errors := log2.errors ++ ["Fatal error: " ++ pyExcMsg e] }
        (logWrite env logC destRoot fs2, Except.ok (1, logC))
      | (fs2, log2, false, none) =>
        (logWrite env log2 destRoot fs2,
         Except.ok ((if log2.errors = [] then (0 : Int) else 1), log2))

/-- The filter of `enumerate_zips`/`process_dir`: regular file, `.zip`
extension (case-insensitive), `"Backup files "` name prefix
(case-insensitive). -/
def qualifyingName (nm : String) : Bool :=
  pyLower (pathSuffixOf nm) == ".zip" && pyStartsWith (pyLower nm) "backup files "

def zipFileLE (a b : ZipFile) : Bool := keyLE (relNameOf a.path) (relNameOf b.path)

/-- `process_dir` (lines 283-290): filter the folder listing, sort, and hand
the result — possibly empty — to `process_zips`. -/
def processDir (env : Env) (listing : List ZipFile) (dirExists : Bool) (fs : FS) :
    FS × Except PyExc (Int × SummaryLog) :=
  let zips := if dirExists then
      listing.filter (fun z => z.isFile && qualifyingName (relNameOf z.path))
    else []
  processZips env (zips.mergeSort zipFileLE) fs

/-- The `--files` branch of `main` (lines 311-316): enumerate, and exit 1
when nothing qualifies. -/
def runFiles (env : Env) (files : List ZipFile) (fs : FS) : FS × Except PyExc Int :=
  let zips := files.filter (fun z => z.isFile && qualifyingName (relNameOf z.path))
  if zips.isEmpty then (fs, Except.ok 1)
  else
    match processZips env (zips.mergeSort zipFileLE) fs with
    | (fs', Except.ok (r, _)) => (fs', Except.ok r)
    | (fs', Except.error e) => (fs', Except.error e)

/-- The `--dir` branch of `main` (lines 309-310). -/
def runDir (env : Env) (listing : List ZipFile) (dirExists : Bool) (fs : FS) :
    FS × Except PyExc Int :=
  match processDir env listing dirExists fs with
  | (fs', Except.ok (r, _)) => (fs', Except.ok r)
  | (fs', Except.error e) => (fs', Except.error e)

/-- The `--set` branch of `main` (lines 297-308): run each subfolder,
aggregating a failure flag; an exception escaping one subfolder aborts the
whole loop. -/
def runSet (env : Env) : List (List ZipFile) → FS → Int → FS × Except PyExc Int
  | [], fs, ret => (fs, Except.ok ret)
  | listing :: rest, fs, ret =>
    match processDir env listing true fs with
    | (fs', Except.error e) => (fs', Except.error e)
    | (fs', Except.ok (r, _)) => runSet env rest fs' (if r ≠ 0 then 1 else ret)

/-- The process exit status resulting from `sys.exit(main(...))`: an
uncaught exception makes the interpreter exit with status 1. -/
def exitOf : Except PyExc Int → Int
  | Except.ok r => r
  | Except.error _ => 1

/-- The staged filenames of every recorded fragment list carry the indices
`1, 2, …, n` in list order. -/
def pmIndexed (pm : PartsMap) : Prop :=
  ∀ k l, pmLookup pm k = some l → ∀ i p, l[i]? = some p →
    ∃ base, relNameOf p = partFileName base (i + 1)


/-- The destination path `merge_parts` derives for a fragment list (final
directory mirrored from the first fragment's staging directory, plus the
original name recovered from the first fragment's filename). -/
def destPathOf (destRoot tmpRoot : FPath) (parts : List FPath) : FPath :=
  pathJoin1 (destRoot ++ (relParentOf (parts.headD [])).drop tmpRoot.length)
    (originalNameOf (relNameOf (parts.headD [])))


/-! ## Inputs used by the claim witnesses -/

def c6EnvA : Env :=
  { copyB := fun _ => (1, none), concatWrite := id,
    userEncodingGiven := true,
    userDecode := fun _ => some "user",
    cp437Encode := fun _ => some [130, 131],
    cp437Decode := fun _ => some "legacy",
    now := "" }

def c6EnvB : Env :=
  { c6EnvA with userEncodingGiven := false }

def c6Info : ZipEntryInfo := ⟨"stored", 0, []⟩

def c6InfoFlagged : ZipEntryInfo := ⟨"stored", 0x800, []⟩


/-- A healthy environment for witnesses: the external copy always fails (so
the guaranteed Python fallback runs), the disk is faithful, no user encoding
is given, and the cp437 re-encoding is unavailable (names pass through). -/
def wEnv : Env :=
  { copyB := fun _ => (1, none), concatWrite := id,
    userEncodingGiven := false, userDecode := fun _ => none,
    cp437Encode := fun _ => none, cp437Decode := fun _ => none,
    now := "2024-01-02T03:04:05+06:00" }

def wZip1 : ZipFile :=
  ⟨["root", "Backup files 1.zip"], true, [⟨"docs/report.txt", 0, [65, 65, 65, 65]⟩]⟩

def wZip2 : ZipFile :=
  ⟨["root", "Backup files 2.zip"], true, [⟨"docs/report.txt", 0, [66, 66, 66, 66]⟩]⟩

def wFS0 : FS := fun _ => none

def wLog0 : SummaryLog := ⟨[], [], [], 0, 0⟩

/-- A small on-disk state for witnesses: association list of nodes. -/
def fsOfPairs (l : List (FPath × FNode)) : FS := fun q => l.lookup q

/-- Witness state for C3: both outputs already exist next to their staged
fragments. -/
def c3FS : FS := fsOfPairs
  [(["r"], .dir), (["r", ".winbak_tmp"], .dir),
   (["r", ".winbak_tmp", "f.part_0001"], .file [65]),
   (["r", ".winbak_tmp", "g.part_0001"], .file [66]),
   (["r", ".winbak_tmp", "g.part_0002"], .file [67]),
   (["r", "f"], .file [1, 2]), (["r", "g"], .file [3])]

def c3PM : PartsMap :=
  [("f", [["r", ".winbak_tmp", "f.part_0001"]]),
   ("g", [["r", ".winbak_tmp", "g.part_0001"], ["r", ".winbak_tmp", "g.part_0002"]])]

/-- Witness state for C4: one staged single-fragment file, destination
absent. -/
def c4FS : FS := fsOfPairs
  [(["r"], .dir), (["r", ".winbak_tmp"], .dir),
   (["r", ".winbak_tmp", "f.part_0001"], .file [65, 66])]

/-- A faulty-disk environment for the C2 witness: the external copy fails
and the Python fallback's stream physically loses the last byte. -/
def wEnvBad : Env := { wEnv with concatWrite := fun b => b.dropLast }

/-- Witness state for C2: a two-fragment LogicalFile `f` and a healthy
single-fragment LogicalFile `g`. -/
def c2FS : FS := fsOfPairs
  [(["r"], .dir), (["r", ".winbak_tmp"], .dir),
   (["r", ".winbak_tmp", "f.part_0001"], .file [65]),
   (["r", ".winbak_tmp", "f.part_0002"], .file [66]),
   (["r", ".winbak_tmp", "g.part_0001"], .file [67])]

/-- "no subfolder's run recorded an error" for a backup set: every
`process_dir` call in sequence completes normally and returns 0 (by claim
C8's first part, equivalently: records no error). -/
def setRunsClean (env : Env) : List (List ZipFile) → FS → Prop
  | [], _ => True
  | listing :: rest, fs =>
    ∃ fs' log, processDir env listing true fs = (fs', Except.ok (0, log)) ∧
      setRunsClean env rest fs'

/-- A qualifying archive with no entries, for the C8 witness run. -/
def zC8 : ZipFile := ⟨["root", "Backup files 1.zip"], true, []⟩

/-- A non-qualifying listing entry (wrong extension). -/
def znq : ZipFile := ⟨["root", "notes.txt"], true, []⟩

/-- Witness state for C9: a regular file sits where `stage_extract` must
create the staging directory, so `tmp_root.mkdir` raises `FileExistsError`
— an unexpected exception out of extraction. -/
def c9FS : FS := fsOfPairs
  [(["root"], .dir), (["root", ".winbak_tmp"], .file [9]),
   (["root", "Backup files 1.zip"], .file [0])]

/-! ## Vocabulary for claim C1 -/

/-- The staged path of the `i`-th fragment of a LogicalFile whose decoded
relative path is `r` (source lines 150-154). -/
def fragPath (tmpRoot r : FPath) (i : Nat) : FPath :=
  tmpRoot ++ relParentOf r ++ [partFileName (relNameOf r) i]

/-- The fragment list `stage_extract` accumulates for one LogicalFile after
`m` archives: indices `1 … m` in order. -/
def fragsUpTo (tmpRoot r : FPath) (m : Nat) : List FPath :=
  (List.range m).map (fun i => fragPath tmpRoot r (i + 1))

/-- Concatenation of one LogicalFile's entry bytes in ascending
archive-sequence order. -/
def catBytes (content : Nat → String → Bytes) (n : Nat) (k : String) : Bytes :=
  ((List.range n).map (fun i => content i k)).flatten

/-- Well-formedness of the LogicalFile name table: distinct keys, non-empty
paths and final names, pairwise prefix-freedom, directory components free of
the reserved staging substrings, and — the amendment to claim C1 — no path
starting inside the staging directory. Each condition other than the last
is forced by the claim's own "no I/O failures" premise: violating it makes
some `mkdir`, `open` or `replace` of the run raise. -/
structure C1Paths (K : List String) (relMap : String → FPath) : Prop where
  hKnd : K.Nodup
  hrne : ∀ k ∈ K, relMap k ≠ []
  hname : ∀ k ∈ K, relNameOf (relMap k) ≠ ""
  hnotmp : ∀ k ∈ K, (relMap k).headD "" ≠ TMP_DIR_NAME
  hpf : ∀ k ∈ K, ∀ kk ∈ K, k ≠ kk → (relMap k).isPrefixOf (relMap kk) = false
  hcomp : ∀ k ∈ K, ∀ c ∈ relParentOf (relMap k),
    lastOccSplit (String.data ".part_") c.data = none ∧
    lastOccSplit (String.data ".__merge_tmp") c.data = none

/-- The premises of (amended) claim C1: a healthy disk whose external copy
command is unavailable, `N ≥ 1` archives each holding exactly one entry per
LogicalFile in an arbitrary order, consistent decoded names and per-archive
contents, a destination root of existing directories, nothing pre-existing
at or under the staging directory, and no pre-existing destination file. -/
structure C1Setup (env : Env) (fs0 : FS) (destRoot : FPath) (zips : List ZipFile)
    (K : List String) (relMap : String → FPath) (content : Nat → String → Bytes) : Prop where
  paths : C1Paths K relMap
  hcb : ∀ l, env.copyB l = (1, none)
  hcw : ∀ b, env.concatWrite b = b
  hzne : zips ≠ []
  hperm : ∀ (i : Nat) (z : ZipFile), zips[i]? = some z →
    ((z.entries.map (fun e => entryKey env e)).Perm K)
  hrel : ∀ z ∈ zips, ∀ e ∈ z.entries, entryRel env e = relMap (entryKey env e)
  hdata : ∀ (i : Nat) (z : ZipFile), zips[i]? = some z →
    ∀ e ∈ z.entries, e.data = content i (entryKey env e)
  hndir : ∀ z ∈ zips, ∀ e ∈ z.entries, entryIsDir e = false
  h0root : ∀ p, p ≠ [] → p.isPrefixOf destRoot = true → fs0 p = some FNode.dir
  h0tmp : ∀ q, (destRoot ++ [TMP_DIR_NAME]).isPrefixOf q = true → fs0 q = none
  h0dest : ∀ k ∈ K, fs0 (destRoot ++ relMap k) = none
  h0chain : ∀ k ∈ K, ∀ p, p ≠ [] → p.isPrefixOf (relParentOf (relMap k)) = true →
    fs0 (destRoot ++ p) = none ∨ fs0 (destRoot ++ p) = some FNode.dir

/-- The staging-loop invariant for claim C1, with `c k` counting the
fragments staged so far for key `k`. -/
structure StInv (fs0 : FS) (tmpRoot : FPath) (K : List String) (relMap : String → FPath)
    (content : Nat → String → Bytes) (c : String → Nat) (st : StageSt) : Prop where
  pm0 : ∀ k, k ∉ K ∨ c k = 0 → pmLookup st.pm k = none
  pm1 : ∀ k ∈ K, 1 ≤ c k → pmLookup st.pm k = some (fragsUpTo tmpRoot (relMap k) (c k))
  pmnd : (st.pm.map Prod.fst).Nodup
  frame : ∀ q, tmpRoot.isPrefixOf q = false → st.fs q = fs0 q
  tmpdir : st.fs tmpRoot = some FNode.dir
  kdirs : ∀ k ∈ K, 1 ≤ c k → ∀ p, p.isPrefixOf (relParentOf (relMap k)) = true →
    st.fs (tmpRoot ++ p) = some FNode.dir
  frags : ∀ k ∈ K, ∀ i, 1 ≤ i → i ≤ c k →
    st.fs (fragPath tmpRoot (relMap k) i) = some (FNode.file (content (i - 1) k))
  filesOnly : ∀ q b, tmpRoot.isPrefixOf q = true → st.fs q = some (FNode.file b) →
    ∃ k, k ∈ K ∧ ∃ i, 1 ≤ i ∧ i ≤ c k ∧ q = fragPath tmpRoot (relMap k) i
  dirsOnly : ∀ q, tmpRoot.isPrefixOf q = true → st.fs q = some FNode.dir →
    q = tmpRoot ∨ ∃ k, k ∈ K ∧ 1 ≤ c k ∧ ∃ p, p ≠ [] ∧
      p.isPrefixOf (relParentOf (relMap k)) = true ∧ q = tmpRoot ++ p

/-- The merge-loop invariant for claim C1, over the keys `R` not yet
merged. -/
structure MInv (destRoot : FPath) (K : List String) (relMap : String → FPath)
    (content : Nat → String → Bytes) (N : Nat) (R : List String) (fs : FS) : Prop where
  sub : ∀ k ∈ R, k ∈ K
  frags : ∀ k ∈ R, ∀ i, 1 ≤ i → i ≤ N →
    fs (fragPath (destRoot ++ [TMP_DIR_NAME]) (relMap k) i) =
      some (FNode.file (content (i - 1) k))
  tdirs : ∀ k ∈ R, ∀ p, p.isPrefixOf (relParentOf (relMap k)) = true →
    fs ((destRoot ++ [TMP_DIR_NAME]) ++ p) = some FNode.dir
  dest0 : ∀ k ∈ R, fs (destRoot ++ relMap k) = none
  tmpm0 : ∀ k ∈ R, fs ((destRoot ++ [TMP_DIR_NAME]) ++ relParentOf (relMap k) ++
    [relNameOf (relMap k) ++ ".__merge_tmp"]) = none
  chain : ∀ k ∈ R, ∀ p, p ≠ [] → p.isPrefixOf (relParentOf (relMap k)) = true →
    fs (destRoot ++ p) = none ∨ fs (destRoot ++ p) = some FNode.dir
  rootdirs : ∀ p, p ≠ [] → p.isPrefixOf destRoot = true → fs p = some FNode.dir

/-- The adversarial archive of the C1 counterexample: one ordinary entry
`evil` and one entry whose path lies inside the staging directory. -/
def zAdv : ZipFile :=
  ⟨["root", "Backup files 1.zip"], true,
   [⟨".winbak_tmp/evil.part_0001", 0, [1]⟩, ⟨"evil", 0, [2]⟩]⟩

def c1FS0 : FS := fsOfPairs [(["root"], FNode.dir)]

def c1Stage : StageSt := (stageExtract wEnv [zAdv] ["root"] c1FS0 wLog0).1

def c1Run : MergeSt := (mergeParts wEnv c1Stage.pm ["root"] c1Stage.fs c1Stage.log).1

/-- Witness inputs for the amended C1 theorem: the two-archive
`docs/report.txt` run. -/
def c1K : List String := ["docs/report.txt"]

def c1Rel : String → FPath := fun _ => ["docs", "report.txt"]

def c1Content : Nat → String → Bytes :=
  fun i _ => if i = 0 then [65, 65, 65, 65] else [66, 66, 66, 66]

def c1WFS0 : FS := fsOfPairs [(["root"], FNode.dir)]


/-! # Theorems -/

/-! ## Lemmas about the sort key and claim C5 -/

theorem zipSortKey_snd (a : String) : (zipSortKey a).2 = a := by
  unfold zipSortKey; cases zipNum? a <;> rfl

theorem lexLE_total (a b : List Char) : (lexLE a b || lexLE b a) = true := by
  induction a generalizing b with
  | nil => simp [lexLE]
  | cons x as ih =>
    cases b with
    | nil => simp [lexLE]
    | cons y bs =>
      rcases lt_trichotomy x y with h | h | h
      · simp [lexLE, h]
      · subst h
        rcases Bool.or_eq_true_iff.mp (ih bs) with h' | h' <;>
          simp [lexLE, lt_irrefl, h']
      · simp [lexLE, h, not_lt_of_gt h, ne_of_gt h]

theorem lexLE_trans (a b c : List Char) (h1 : lexLE a b = true) (h2 : lexLE b c = true) :
    lexLE a c = true := by
  induction a generalizing b c with
  | nil => simp [lexLE]
  | cons x as ih =>
    cases b with
    | nil => simp [lexLE] at h1
    | cons y bs =>
      cases c with
      | nil => simp [lexLE] at h2
      | cons z cs =>
        by_cases hxy : x < y
        · by_cases hyz : y < z
          · simp [lexLE, lt_trans hxy hyz]
          · simp only [lexLE] at h2
            rw [if_neg hyz] at h2
            by_cases hyz' : y = z
            · subst hyz'; simp [lexLE, hxy]
            · rw [if_neg hyz'] at h2; exact absurd h2 (by simp)
        · simp only [lexLE] at h1
          rw [if_neg hxy] at h1
          by_cases hxy' : x = y
          · subst hxy'
            rw [if_pos rfl] at h1
            by_cases hxz : x < z
            · simp [lexLE, hxz]
            · simp only [lexLE] at h2 ⊢
              rw [if_neg hxz] at h2 ⊢
              by_cases hxz' : x = z
              · rw [if_pos hxz'] at h2 ⊢
                subst hxz'
                exact ih bs cs h1 h2
              · rw [if_neg hxz'] at h2; exact absurd h2 (by simp)
          · rw [if_neg hxy'] at h1; exact absurd h1 (by simp)

theorem keyLE_iff (a b : String) :
    keyLE a b = true ↔ ((zipSortKey a).1 < (zipSortKey b).1 ∨
      ((zipSortKey a).1 = (zipSortKey b).1 ∧ pyStrLE a b = true)) := by
  unfold keyLE
  rw [Bool.or_eq_true_iff, Bool.and_eq_true_iff, decide_eq_true_iff, decide_eq_true_iff,
    zipSortKey_snd, zipSortKey_snd]

theorem keyLE_trans (a b c : String) (hab : keyLE a b = true) (hbc : keyLE b c = true) :
    keyLE a c = true := by
  rw [keyLE_iff] at hab hbc ⊢
  rcases hab with h1 | ⟨h1, h1'⟩ <;> rcases hbc with h2 | ⟨h2, h2'⟩
  · exact Or.inl (lt_trans h1 h2)
  · exact Or.inl (lt_of_lt_of_le h1 (le_of_eq h2))
  · exact Or.inl (lt_of_le_of_lt (le_of_eq h1) h2)
  · exact Or.inr ⟨h1.trans h2, lexLE_trans _ _ _ h1' h2'⟩

theorem keyLE_total (a b : String) : (keyLE a b || keyLE b a) = true := by
  rcases lt_trichotomy (zipSortKey a).1 (zipSortKey b).1 with h | h | h
  · have : keyLE a b = true := (keyLE_iff a b).mpr (Or.inl h)
    simp [this]
  · rcases Bool.or_eq_true_iff.mp (lexLE_total a.data b.data) with h' | h'
    · have : keyLE a b = true := (keyLE_iff a b).mpr (Or.inr ⟨h, h'⟩)
      simp [this]
    · have : keyLE b a = true := (keyLE_iff b a).mpr (Or.inr ⟨h.symm, h'⟩)
      simp [this]
  · have : keyLE b a = true := (keyLE_iff b a).mpr (Or.inl h)
    simp [this]

theorem perm_pair_cases {α : Type} {l : List α} {a b : α} (h : l.Perm [a, b]) :
    l = [a, b] ∨ l = [b, a] := by
  have hlen : l.length = 2 := by simpa using h.length_eq
  match l, hlen with
  | [x, y], _ =>
    have hx : x ∈ [a, b] := h.subset (by simp)
    rcases List.mem_pair.mp hx with hxa | hxb
    · subst hxa
      have h' : [y].Perm [b] := (h.cons_inv)
      exact Or.inl (by rw [List.perm_singleton.mp h'])
    · subst hxb
      have h2 : ([x, y] : List α).Perm [x, a] := h.trans (List.Perm.swap x a [])
      have h' : [y].Perm [a] := h2.cons_inv
      exact Or.inr (by rw [List.perm_singleton.mp h'])

theorem sortZips_pair_swap (a b : String) (h : keyLE a b = false) :
    sortZips [a, b] = [b, a] := by
  have hperm : (sortZips [a, b]).Perm [a, b] := List.mergeSort_perm [a, b] keyLE
  have hsort := List.sorted_mergeSort keyLE_trans keyLE_total [a, b]
  rcases perm_pair_cases hperm with he | he
  · exfalso
    have hsort' : (sortZips [a, b]).Pairwise (fun x y => keyLE x y = true) := hsort
    rw [he] at hsort'
    have : keyLE a b = true := (List.pairwise_cons.mp hsort').1 b (by simp)
    rw [this] at h; cases h
  · exact he

/-- Claim C5, counterexample: `int()` accepts values at and above
`sys.maxsize`, and `"Backup files 9223372036854775808.zip"` (2^63) receives
a key strictly above the `(sys.maxsize, name)` key of the malformed
`"Backup files X.zip"`, so the non-integer archive sorts before a numeric
one, contradicting the claim that every malformed name sorts after all
numeric ones. -/
theorem claim_C5_counterexample :
    ¬ c5ClaimHolds ["Backup files 9223372036854775808.zip", "Backup files X.zip"] := by
  intro hclaim
  have he : sortZips ["Backup files 9223372036854775808.zip", "Backup files X.zip"]
      = ["Backup files X.zip", "Backup files 9223372036854775808.zip"] :=
    sortZips_pair_swap _ _ (by decide)
  unfold c5ClaimHolds at hclaim
  rw [he] at hclaim
  have h1 := (List.pairwise_cons.mp hclaim).1 "Backup files 9223372036854775808.zip"
    (List.mem_singleton.mpr rfl)
  exact absurd h1 (by decide)

/-- Claim C5 (amended): sorting with `zip_sort_key` places archives whose
stem after "Backup files " parses as an integer in ascending numeric order,
breaks ties by full filename, and places archives with a non-integer or
missing suffix after every numeric archive whose value is below
`sys.maxsize` (numeric values at or above `sys.maxsize` can tie with or
follow the malformed names, which receive the key `sys.maxsize`). -/
theorem claim_C5_theorem (names : List String) :
    (sortZips names).Pairwise c5AmendedPairOK := by
  have hs := @List.sorted_mergeSort String keyLE keyLE_trans keyLE_total names
  have hs' : (sortZips names).Pairwise (fun x y => keyLE x y = true) := hs
  refine List.Pairwise.imp ?_ hs'
  intro a b h
  rw [keyLE_iff] at h
  unfold c5AmendedPairOK
  cases ha : zipNum? a with
  | some va =>
    cases hb : zipNum? b with
    | some vb =>
      have hka : zipSortKey a = (va, a) := by unfold zipSortKey; rw [ha]
      have hkb : zipSortKey b = (vb, b) := by unfold zipSortKey; rw [hb]
      rw [hka, hkb] at h
      rcases h with h | ⟨h, h'⟩
      · exact ⟨le_of_lt h, fun he => absurd (he ▸ h) (lt_irrefl _)⟩
      · exact ⟨le_of_eq h, fun _ => h'⟩
    | none => trivial
  | none =>
    cases hb : zipNum? b with
    | some vb =>
      have hka : zipSortKey a = (PY_MAXSIZE, a) := by unfold zipSortKey; rw [ha]
      have hkb : zipSortKey b = (vb, b) := by unfold zipSortKey; rw [hb]
      rw [hka, hkb] at h
      rcases h with h | ⟨h, _⟩
      · exact le_of_lt h
      · exact le_of_eq h
    | none =>
      have hka : zipSortKey a = (PY_MAXSIZE, a) := by unfold zipSortKey; rw [ha]
      have hkb : zipSortKey b = (PY_MAXSIZE, b) := by unfold zipSortKey; rw [hb]
      rw [hka, hkb] at h
      rcases h with h | ⟨_, h'⟩
      · exact absurd h (lt_irrefl _)
      · exact h'

/-! ## Claim C6: filename decoding precedence -/

/-- Claim C6: `_decode_zip_name` follows the exact precedence: a UTF-8
flagged entry (bit 0x800) returns the stored name unchanged; otherwise the
stored name is re-encoded via cp437 and, when a caller-supplied fallback
encoding is given and decodes those bytes, that decoding wins over the
cp437 interpretation; when every re-decoding attempt fails the stored name
is returned unmodified (also when the cp437 re-encoding itself fails). -/
theorem claim_C6_theorem (env : Env) (info : ZipEntryInfo) :
    (info.flagBits &&& 0x800 ≠ 0 → decodeZipName env info = info.origFilename) ∧
    (info.flagBits &&& 0x800 = 0 → env.cp437Encode info.origFilename = none →
      decodeZipName env info = info.origFilename) ∧
    (∀ raw s, info.flagBits &&& 0x800 = 0 → env.cp437Encode info.origFilename = some raw →
      env.userEncodingGiven = true → env.userDecode raw = some s →
      decodeZipName env info = s) ∧
    (∀ raw t, info.flagBits &&& 0x800 = 0 → env.cp437Encode info.origFilename = some raw →
      (env.userEncodingGiven = false ∨ env.userDecode raw = none) →
      env.cp437Decode raw = some t →
      decodeZipName env info = t) ∧
    (∀ raw, info.flagBits &&& 0x800 = 0 → env.cp437Encode info.origFilename = some raw →
      (env.userEncodingGiven = false ∨ env.userDecode raw = none) →
      env.cp437Decode raw = none →
      decodeZipName env info = info.origFilename) := by
  refine ⟨fun h => ?_, fun h he => ?_, fun raw s h he hu hd => ?_,
    fun raw t h he hu hd => ?_, fun raw h he hu hd => ?_⟩
  · simp [decodeZipName, h]
  · simp [decodeZipName, h, he]
  · simp [decodeZipName, h, he, hu, hd]
  · rcases hu with hu | hu <;> simp [decodeZipName, h, he, hu, hd]
  · rcases hu with hu | hu <;> simp [decodeZipName, h, he, hu, hd]

/-- Witness for C6: the flagged entry bypasses re-decoding; an unflagged
entry prefers the user decoding; without a user encoding the cp437 decoding
is used. -/
theorem claim_C6_witness :
    decodeZipName c6EnvA c6InfoFlagged = "stored" ∧
    decodeZipName c6EnvA c6Info = "user" ∧
    decodeZipName c6EnvB c6Info = "legacy" := by
  refine ⟨(claim_C6_theorem c6EnvA c6InfoFlagged).1 (by decide), ?_, ?_⟩
  · exact (claim_C6_theorem c6EnvA c6Info).2.2.1 [130, 131] "user" rfl rfl rfl rfl
  · exact (claim_C6_theorem c6EnvB c6Info).2.2.2.1 [130, 131] "legacy" rfl rfl (Or.inl rfl) rfl


/-! ## Claim C7: fragment sequence indices -/

theorem pmLookup_pmEnsure (pm : PartsMap) (k key : String) :
    pmLookup (pmEnsure pm k) key =
      if k = key then some ((pmLookup pm k).getD []) else pmLookup pm key := by
  induction pm with
  | nil =>
    by_cases h : k = key <;> simp [pmEnsure, pmLookup, h]
  | cons hd t ih =>
    obtain ⟨k0, l0⟩ := hd
    by_cases h0 : k0 = k
    · subst h0
      by_cases h1 : k0 = key <;> simp [pmEnsure, pmLookup, h1]
    · by_cases h1 : k0 = key
      · subst h1
        have hk : k ≠ k0 := fun hh => h0 hh.symm
        simp [pmEnsure, pmLookup, h0, hk]
      · simp [pmEnsure, pmLookup, h0, h1, ih]

theorem pmLookup_pmAppend (pm : PartsMap) (k key : String) (p : FPath) :
    pmLookup (pmAppend pm k p) key =
      if k = key then some ((pmLookup pm k).getD [] ++ [p]) else pmLookup pm key := by
  induction pm with
  | nil =>
    by_cases h : k = key <;> simp [pmAppend, pmLookup, h]
  | cons hd t ih =>
    obtain ⟨k0, l0⟩ := hd
    by_cases h0 : k0 = k
    · subst h0
      by_cases h1 : k0 = key <;> simp [pmAppend, pmLookup, h1]
    · by_cases h1 : k0 = key
      · subst h1
        have hk : k ≠ k0 := fun hh => h0 hh.symm
        simp [pmAppend, pmLookup, h0, hk]
      · simp [pmAppend, pmLookup, h0, h1, ih]

theorem partFileName_ne_empty (base : String) (idx : Nat) : partFileName base idx ≠ "" := by
  intro h
  have hd := congrArg String.data h
  unfold partFileName at hd
  rw [String.data_append, String.data_append] at hd
  have h2 := (List.append_eq_nil.mp hd).1
  have h3 := (List.append_eq_nil.mp h2).2
  exact absurd h3 (by decide)

theorem pmIndexed_nil : pmIndexed [] := by
  intro k l h
  simp [pmLookup] at h

theorem pmIndexed_pmEnsure {pm : PartsMap} (hpm : pmIndexed pm) (k : String) :
    pmIndexed (pmEnsure pm k) := by
  intro key l hl i p hp
  rw [pmLookup_pmEnsure] at hl
  by_cases h : k = key
  · rw [if_pos h] at hl
    cases hlk : pmLookup pm k with
    | some l0 =>
      rw [hlk] at hl
      simp only [Option.getD_some, Option.some_inj] at hl
      subst hl
      subst h
      exact hpm k l0 hlk i p hp
    | none =>
      rw [hlk] at hl
      simp only [Option.getD_none, Option.some_inj] at hl
      subst hl
      simp at hp
  · rw [if_neg h] at hl
    exact hpm key l hl i p hp

theorem pmIndexed_pmAppend {pm : PartsMap} (hpm : pmIndexed pm) (k : String) (p : FPath)
    (hp : ∃ base,
      relNameOf p = partFileName base (((pmLookup pm k).getD []).length + 1)) :
    pmIndexed (pmAppend pm k p) := by
  intro key l hl i q hq
  rw [pmLookup_pmAppend] at hl
  by_cases h : k = key
  · rw [if_pos h] at hl
    injection hl with hl
    subst hl
    rcases Nat.lt_trichotomy i ((pmLookup pm k).getD []).length with hlt | heq | hgt
    · rw [List.getElem?_append_left hlt] at hq
      cases hlk : pmLookup pm k with
      | some la =>
        rw [hlk] at hq hlt
        exact hpm k la hlk i q hq
      | none =>
        rw [hlk] at hlt
        simp at hlt
    · subst heq
      rw [List.getElem?_concat_length] at hq
      injection hq with hq
      subst hq
      exact hp
    · rw [List.getElem?_eq_none] at hq
      · cases hq
      · simp only [List.length_append, List.length_singleton]
        omega
  · rw [if_neg h] at hl
    exact hpm key l hl i q hq

theorem relNameOf_concat (p : FPath) (s : String) : relNameOf (p ++ [s]) = s := by
  unfold relNameOf
  exact List.getLastD_concat _ _ _

theorem pmIndexed_stageEntry (env : Env) (tmpRoot : FPath) (st : StageSt)
    (info : ZipEntryInfo) (hpm : pmIndexed st.pm) :
    pmIndexed (stageEntry env tmpRoot st info).1.pm := by
  have hens := pmIndexed_pmEnsure hpm (entryKey env info)
  simp only [stageEntry]
  split
  · exact hpm
  · split
    · exact hens
    · split
      · exact hens
      · refine pmIndexed_pmAppend hens (entryKey env info) _ ?_
        rw [pathJoin1, if_neg (partFileName_ne_empty _ _), relNameOf_concat]
        exact ⟨relNameOf (entryRel env info), rfl⟩

theorem pmIndexed_stageZip (env : Env) (tmpRoot : FPath) (entries : List ZipEntryInfo) :
    ∀ (st : StageSt), pmIndexed st.pm → pmIndexed (stageZip env tmpRoot st entries).1.pm := by
  induction entries with
  | nil => intro st h; exact h
  | cons info rest ih =>
    intro st h
    unfold stageZip
    cases he : stageEntry env tmpRoot st info with
    | mk st' e =>
      have h' : pmIndexed st'.pm := by
        have := pmIndexed_stageEntry env tmpRoot st info h
        rwa [he] at this
      cases e with
      | some e0 => exact h'
      | none => exact ih st' h'

theorem pmIndexed_stageZips (env : Env) (tmpRoot : FPath) (zips : List ZipFile) :
    ∀ (st : StageSt), pmIndexed st.pm → pmIndexed (stageZips env tmpRoot zips st).pm := by
  induction zips with
  | nil => intro st h; exact h
  | cons z rest ih =>
    intro st h
    unfold stageZips
    cases he : stageZip env tmpRoot st z.entries with
    | mk st' e =>
      have h' : pmIndexed st'.pm := by
        have := pmIndexed_stageZip env tmpRoot z.entries st h
        rwa [he] at this
      cases e with
      | some e0 => exact ih _ h'
      | none => exact ih _ h'

/-- Claim C7: after any `stage_extract` run, the fragment list recorded for
every LogicalFile key lists fragments whose staged filenames embed the
contiguous 1-based sequence indices `1, 2, …, n` in exactly that order (the
index at list position `i` is `i+1`), so fragment lists are always ordered
by ascending sequence index, with the counter running per key across all
archives in processing order. -/
theorem claim_C7_theorem (env : Env) (zips : List ZipFile) (destRoot : FPath) (fs : FS)
    (log : SummaryLog) (k : String) (l : List FPath)
    (hl : pmLookup (stageExtract env zips destRoot fs log).1.pm k = some l)
    (i : Nat) (p : FPath) (h : l[i]? = some p) :
    ∃ base, relNameOf p = partFileName base (i + 1) := by
  have hindexed : pmIndexed (stageExtract env zips destRoot fs log).1.pm := by
    simp only [stageExtract]
    split
    · exact pmIndexed_nil
    · exact pmIndexed_stageZips env _ zips _ pmIndexed_nil
  exact hindexed k l hl i p h

/-! ## Filesystem lemma kit -/

theorem fsSet_self (fs : FS) (p : FPath) (v : FNode) : fsSet fs p v p = some v := by
  simp [fsSet]

theorem fsSet_other (fs : FS) (p : FPath) (v : FNode) {q : FPath} (h : q ≠ p) :
    fsSet fs p v q = fs q := by
  simp [fsSet, h]

theorem fsDel_self (fs : FS) (p : FPath) : fsDel fs p p = none := by
  simp [fsDel]

theorem fsDel_other (fs : FS) (p : FPath) {q : FPath} (h : q ≠ p) : fsDel fs p q = fs q := by
  simp [fsDel, h]

theorem unlinkBE_other (fs : FS) (p : FPath) {q : FPath} (h : q ≠ p) :
    unlinkBE fs p q = fs q := by
  unfold unlinkBE
  cases hp : fs p with
  | some v =>
    cases v with
    | file b => exact fsDel_other fs p h
    | dir => rfl
  | none => rfl

theorem unlinkBE_self_file {fs : FS} {p : FPath} {b : Bytes} (h : fs p = some (.file b)) :
    unlinkBE fs p p = none := by
  unfold unlinkBE
  rw [h]
  exact fsDel_self fs p

theorem unlinkBE_dir {fs : FS} {p : FPath} (h : fs p = some FNode.dir) :
    unlinkBE fs p = fs := by
  unfold unlinkBE
  rw [h]

theorem unlinkBE_none {fs : FS} {p : FPath} (h : fs p = none) :
    unlinkBE fs p = fs := by
  unfold unlinkBE
  rw [h]

theorem foldl_unlinkBE_other (ps : List FPath) (fs : FS) {q : FPath} (h : q ∉ ps) :
    (ps.foldl unlinkBE fs) q = fs q := by
  induction ps generalizing fs with
  | nil => rfl
  | cons p rest ih =>
    rw [List.foldl_cons,
      ih (unlinkBE fs p) (fun hm2 => h (List.mem_cons_of_mem p hm2))]
    exact unlinkBE_other fs p (fun he => h (he ▸ List.mem_cons_self p rest))

theorem foldl_unlinkBE_none (ps : List FPath) (fs : FS) {q : FPath} (h : fs q = none) :
    (ps.foldl unlinkBE fs) q = none := by
  induction ps generalizing fs with
  | nil => exact h
  | cons p rest ih =>
    rw [List.foldl_cons]
    refine ih _ ?_
    by_cases he : q = p
    · subst he
      unfold unlinkBE
      rw [h]
      exact h
    · rw [unlinkBE_other fs p he]
      exact h

theorem foldl_unlinkBE_mem_file (ps : List FPath) (fs : FS) {q : FPath} {b : Bytes}
    (hm : q ∈ ps) (h : fs q = some (.file b)) :
    (ps.foldl unlinkBE fs) q = none := by
  induction ps generalizing fs with
  | nil => cases hm
  | cons p rest ih =>
    rw [List.foldl_cons]
    by_cases he : q = p
    · subst he
      apply foldl_unlinkBE_none
      exact unlinkBE_self_file h
    · rcases List.mem_cons.mp hm with he' | hm'
      · exact absurd he' he
      · exact ih _ hm' ((unlinkBE_other fs p he).trans h)

theorem foldl_unlinkBE_dir (ps : List FPath) (fs : FS) {q : FPath}
    (h : fs q = some FNode.dir) :
    (ps.foldl unlinkBE fs) q = some FNode.dir := by
  induction ps generalizing fs with
  | nil => exact h
  | cons p rest ih =>
    rw [List.foldl_cons]
    refine ih _ ?_
    by_cases he : q = p
    · subst he
      rw [unlinkBE_dir h]
      exact h
    · rw [unlinkBE_other fs p he]
      exact h

theorem writeFile_ok {fs : FS} {p : FPath} (b : Bytes)
    (hnd : fs p ≠ some FNode.dir)
    (hne : p ≠ []) (hpar : p.dropLast = [] ∨ fs p.dropLast = some FNode.dir) :
    writeFile fs p b = (fsSet fs p (.file b), none) := by
  unfold writeFile
  cases hp : fs p with
  | some v =>
    cases v with
    | file b0 => rw [if_neg (by simp [hne]), if_pos hpar]
    | dir => exact absurd hp hnd
  | none => rw [if_neg (by simp [hne]), if_pos hpar]

theorem replaceFile_ok {fs : FS} {src dst : FPath} {b : Bytes}
    (hsrc : fs src = some (.file b))
    (hdst : fs dst ≠ some FNode.dir)
    (hne : dst ≠ []) (hpar : dst.dropLast = [] ∨ fs dst.dropLast = some FNode.dir) :
    replaceFile fs src dst = (fsSet (fsDel fs src) dst (.file b), none) := by
  unfold replaceFile
  rw [hsrc]
  dsimp only
  cases hd : fs dst with
  | some v =>
    cases v with
    | file b0 => dsimp only; rw [if_neg (by simp [hne]), if_pos hpar]
    | dir => exact absurd hd hdst
  | none => dsimp only; rw [if_neg (by simp [hne]), if_pos hpar]

/-- `mkdir -p` never turns a directory into something else. -/
theorem mkdirAux_dir_mono (comps : List String) :
    ∀ (fs : FS) (base : FPath) (q : FPath), fs q = some FNode.dir →
      (mkdirAux fs base comps).1 q = some FNode.dir := by
  induction comps with
  | nil => intro fs base q h; exact h
  | cons c rest ih =>
    intro fs base q h
    unfold mkdirAux
    cases hq : fs (base ++ [c]) with
    | some v =>
      cases v with
      | file b => exact h
      | dir => exact ih fs (base ++ [c]) q h
    | none =>
      refine ih _ (base ++ [c]) q ?_
      by_cases he : q = base ++ [c]
      · subst he; rw [hq] at h; cases h
      · rw [fsSet_other _ _ _ he]; exact h

/-- Paths outside the created chain are untouched by `mkdir -p`. -/
theorem mkdirAux_frame (comps : List String) :
    ∀ (fs : FS) (base : FPath) (q : FPath),
      (∀ pre, pre ≠ [] → pre.isPrefixOf comps = true → q ≠ base ++ pre) →
      (mkdirAux fs base comps).1 q = fs q := by
  induction comps with
  | nil => intro fs base q _; rfl
  | cons c rest ih =>
    intro fs base q hq
    have hqc : q ≠ base ++ [c] := hq [c] (by simp) (by simp [List.isPrefixOf])
    have hrest : ∀ pre, pre ≠ [] → pre.isPrefixOf rest = true → q ≠ (base ++ [c]) ++ pre := by
      intro pre hne hpre
      have := hq (c :: pre) (by simp) (by simp [List.isPrefixOf, hpre])
      simpa [List.append_assoc] using this
    unfold mkdirAux
    cases hc : fs (base ++ [c]) with
    | some v =>
      cases v with
      | file b => rfl
      | dir => exact ih fs (base ++ [c]) q hrest
    | none =>
      rw [ih _ (base ++ [c]) q hrest, fsSet_other _ _ _ hqc]

theorem isPrefixOf_cons_iff {α : Type} [DecidableEq α] (pre : List α) (c : α) (rest : List α) :
    pre.isPrefixOf (c :: rest) = true ↔
      pre = [] ∨ ∃ pre', pre = c :: pre' ∧ pre'.isPrefixOf rest = true := by
  cases pre with
  | nil => simp [List.isPrefixOf]
  | cons p0 pre' =>
    simp only [List.isPrefixOf, Bool.and_eq_true, beq_iff_eq]
    constructor
    · rintro ⟨h1, h2⟩
      exact Or.inr ⟨pre', by rw [h1], h2⟩
    · rintro (h | ⟨pre'', he, h2⟩)
      · cases h
      · injection he with he1 he2
        subst he1; subst he2
        exact ⟨rfl, h2⟩

/-- When the whole chain already consists of directories, `mkdir -p` does
nothing and succeeds. -/
theorem mkdirAux_noop (comps : List String) :
    ∀ (fs : FS) (base : FPath),
      (∀ pre, pre ≠ [] → pre.isPrefixOf comps = true → fs (base ++ pre) = some FNode.dir) →
      mkdirAux fs base comps = (fs, none) := by
  induction comps with
  | nil => intro fs base _; rfl
  | cons c rest ih =>
    intro fs base h
    have hc : fs (base ++ [c]) = some FNode.dir :=
      h [c] (by simp) (by simp [List.isPrefixOf])
    unfold mkdirAux
    rw [hc]
    refine ih fs (base ++ [c]) ?_
    intro pre hne hpre
    have := h (c :: pre) (by simp) (by simp [List.isPrefixOf, hpre])
    simpa [List.append_assoc] using this

/-- Conversely, a `mkdir -p` that succeeds without changing the filesystem
found the whole chain already present as directories. -/
theorem mkdirAux_noop_dirs (comps : List String) :
    ∀ (fs : FS) (base : FPath), mkdirAux fs base comps = (fs, none) →
      ∀ pre, pre ≠ [] → pre.isPrefixOf comps = true → fs (base ++ pre) = some FNode.dir := by
  induction comps with
  | nil =>
    intro fs base _ pre hne hpre
    cases pre with
    | nil => exact absurd rfl hne
    | cons a l => simp [List.isPrefixOf] at hpre
  | cons c rest ih =>
    intro fs base heq pre hne hpre
    cases hc : fs (base ++ [c]) with
    | some v =>
      cases v with
      | file b =>
        unfold mkdirAux at heq
        rw [hc] at heq
        have := congrArg Prod.snd heq
        cases this
      | dir =>
        unfold mkdirAux at heq
        rw [hc] at heq
        rcases (isPrefixOf_cons_iff pre c rest).mp hpre with h0 | ⟨pre', he, hp'⟩
        · exact absurd h0 hne
        · subst he
          cases pre' with
          | nil => simpa using hc
          | cons x xs =>
            have := ih fs (base ++ [c]) heq (x :: xs) (by simp) hp'
            simpa [List.append_assoc] using this
    | none =>
      exfalso
      unfold mkdirAux at heq
      rw [hc] at heq
      have hdir : (mkdirAux (fsSet fs (base ++ [c]) FNode.dir) (base ++ [c]) rest).1
          (base ++ [c]) = some FNode.dir :=
        mkdirAux_dir_mono rest _ _ _ (fsSet_self fs (base ++ [c]) FNode.dir)
      have hfs : (mkdirAux (fsSet fs (base ++ [c]) FNode.dir) (base ++ [c]) rest).1 = fs :=
        congrArg Prod.fst heq
      rw [hfs, hc] at hdir
      cases hdir

/-- A successful `mkdir -p` leaves every link of the chain a directory. -/
theorem mkdirAux_ok_dirs (comps : List String) :
    ∀ (fs fs' : FS) (base : FPath), mkdirAux fs base comps = (fs', none) →
      ∀ pre, pre ≠ [] → pre.isPrefixOf comps = true → fs' (base ++ pre) = some FNode.dir := by
  induction comps with
  | nil =>
    intro fs fs' base _ pre hne hpre
    cases pre with
    | nil => exact absurd rfl hne
    | cons a l => simp [List.isPrefixOf] at hpre
  | cons c rest ih =>
    intro fs fs' base heq pre hne hpre
    rcases (isPrefixOf_cons_iff pre c rest).mp hpre with h0 | ⟨pre', he, hp'⟩
    · exact absurd h0 hne
    · subst he
      cases hc : fs (base ++ [c]) with
      | some v =>
        cases v with
        | file b =>
          unfold mkdirAux at heq
          rw [hc] at heq
          have := congrArg Prod.snd heq
          cases this
        | dir =>
          unfold mkdirAux at heq
          rw [hc] at heq
          cases pre' with
          | nil =>
            have h1 : (mkdirAux fs (base ++ [c]) rest).1 = fs' := congrArg Prod.fst heq
            rw [← h1]
            simpa using mkdirAux_dir_mono rest fs (base ++ [c]) (base ++ [c]) hc
          | cons x xs =>
            have := ih fs fs' (base ++ [c]) heq (x :: xs) (by simp) hp'
            simpa [List.append_assoc] using this
      | none =>
        unfold mkdirAux at heq
        rw [hc] at heq
        cases pre' with
        | nil =>
          have h1 : (mkdirAux (fsSet fs (base ++ [c]) FNode.dir) (base ++ [c]) rest).1 = fs' :=
            congrArg Prod.fst heq
          rw [← h1]
          simpa using mkdirAux_dir_mono rest _ (base ++ [c]) (base ++ [c])
            (fsSet_self fs (base ++ [c]) FNode.dir)
        | cons x xs =>
          have := ih _ fs' (base ++ [c]) heq (x :: xs) (by simp) hp'
          simpa [List.append_assoc] using this

theorem mkdirP_noop {fs : FS} {p : FPath}
    (h : ∀ pre, pre ≠ [] → pre.isPrefixOf p = true → fs pre = some FNode.dir) :
    mkdirP fs p = (fs, none) := by
  unfold mkdirP
  refine mkdirAux_noop p fs [] ?_
  intro pre hne hpre
  simpa using h pre hne hpre

theorem mkdirP_noop_dirs {fs : FS} {p : FPath} (heq : mkdirP fs p = (fs, none)) :
    ∀ pre, pre ≠ [] → pre.isPrefixOf p = true → fs pre = some FNode.dir := by
  intro pre hne hpre
  simpa using mkdirAux_noop_dirs p fs [] heq pre hne hpre

/-! ## Claim C3: the overwrite guard -/

theorem mergeOne_skip (env : Env) (destRoot tmpRoot : FPath) (st : MergeSt) (k : String)
    (first : FPath) (rest : List FPath)
    (hpre : tmpRoot.isPrefixOf (relParentOf first) = true)
    (hmk : mkdirP st.fs (destRoot ++ (relParentOf first).drop tmpRoot.length) = (st.fs, none))
    (hex : fsExists st.fs (destPathOf destRoot tmpRoot (first :: rest)) = true) :
    mergeOne env destRoot tmpRoot st (k, first :: rest) =
      ({ fs := st.fs,
         log := { st.log with
           skippedExisting := st.log.skippedExisting ++
             [pathStr (destPathOf destRoot tmpRoot (first :: rest))],
           errors := st.log.errors ++
             ["Final already exists (overwrite not allowed): " ++
               pathStr (destPathOf destRoot tmpRoot (first :: rest))] } }, none) := by
  simp only [destPathOf, List.headD] at hex ⊢
  simp only [mergeOne, hpre, if_true, hmk, hex]

theorem mergePartsGo_all_skip (env : Env) (destRoot tmpRoot : FPath) :
    ∀ (pm : List (String × List FPath)) (fs : FS) (log : SummaryLog),
      (∀ item ∈ pm, ∃ first rest, item.2 = first :: rest ∧
        tmpRoot.isPrefixOf (relParentOf first) = true ∧
        mkdirP fs (destRoot ++ (relParentOf first).drop tmpRoot.length) = (fs, none) ∧
        fsExists fs (destPathOf destRoot tmpRoot item.2) = true) →
      mergePartsGo env destRoot tmpRoot pm ⟨fs, log⟩ =
        (⟨fs, { log with
           skippedExisting := log.skippedExisting ++
             pm.map (fun item => pathStr (destPathOf destRoot tmpRoot item.2)),
           errors := log.errors ++
             pm.map (fun item => "Final already exists (overwrite not allowed): " ++
               pathStr (destPathOf destRoot tmpRoot item.2)) }⟩, none) := by
  intro pm
  induction pm with
  | nil =>
    intro fs log _
    simp [mergePartsGo]
  | cons item rest2 ih =>
    intro fs log h
    obtain ⟨first, prest, hparts, hpre, hmk, hex⟩ := h item (List.mem_cons_self _ _)
    obtain ⟨ki, psi⟩ := item
    simp only at hparts
    subst hparts
    unfold mergePartsGo
    rw [mergeOne_skip env destRoot tmpRoot ⟨fs, log⟩ ki first prest hpre hmk hex]
    dsimp only
    rw [ih fs _ (fun it hm => h it (List.mem_cons_of_mem _ hm))]
    simp [List.append_assoc]

/-- Claim C3: when the destination already exists, `merge_parts` records the
path both under "skipped existing" and as an error, touches nothing on disk
(so the existing output and all fragments are byte-identical), performs no
merge, and moves on; consequently a run in which every output already exists
produces zero merges and exactly one skip plus one error per output, leaving
the filesystem unchanged. -/
theorem claim_C3_theorem :
    (∀ (env : Env) (destRoot tmpRoot : FPath) (st : MergeSt) (k : String)
       (first : FPath) (rest : List FPath),
      tmpRoot.isPrefixOf (relParentOf first) = true →
      mkdirP st.fs (destRoot ++ (relParentOf first).drop tmpRoot.length) = (st.fs, none) →
      fsExists st.fs (destPathOf destRoot tmpRoot (first :: rest)) = true →
      mergeOne env destRoot tmpRoot st (k, first :: rest) =
        ({ fs := st.fs,
           log := { st.log with
             skippedExisting := st.log.skippedExisting ++
               [pathStr (destPathOf destRoot tmpRoot (first :: rest))],
             errors := st.log.errors ++
               ["Final already exists (overwrite not allowed): " ++
                 pathStr (destPathOf destRoot tmpRoot (first :: rest))] } }, none)) ∧
    (∀ (env : Env) (destRoot : FPath) (pm : PartsMap) (fs : FS) (log : SummaryLog),
      (∀ item ∈ pm, ∃ first rest, item.2 = first :: rest ∧
        (destRoot ++ [TMP_DIR_NAME]).isPrefixOf (relParentOf first) = true ∧
        mkdirP fs (destRoot ++ (relParentOf first).drop (destRoot ++ [TMP_DIR_NAME]).length)
          = (fs, none) ∧
        fsExists fs (destPathOf destRoot (destRoot ++ [TMP_DIR_NAME]) item.2) = true) →
      mergeParts env pm destRoot fs log =
        (⟨fs, { log with
           skippedExisting := log.skippedExisting ++
             pm.map (fun item =>
               pathStr (destPathOf destRoot (destRoot ++ [TMP_DIR_NAME]) item.2)),
           errors := log.errors ++
             pm.map (fun item => "Final already exists (overwrite not allowed): " ++
               pathStr (destPathOf destRoot (destRoot ++ [TMP_DIR_NAME]) item.2)) }⟩,
         none)) := by
  refine ⟨fun env destRoot tmpRoot st k first rest hpre hmk hex =>
    mergeOne_skip env destRoot tmpRoot st k first rest hpre hmk hex,
    fun env destRoot pm fs log h => ?_⟩
  unfold mergeParts
  exact mergePartsGo_all_skip env destRoot (destRoot ++ [TMP_DIR_NAME]) pm fs log h

/-- Witness for C3: a rerun over a folder whose two outputs (one single
fragment, one two-fragment) already exist yields zero merges, one skip and
one error per output, and an unchanged filesystem. -/
theorem claim_C3_witness :
    mergeParts wEnv c3PM ["r"] c3FS wLog0 =
      (⟨c3FS, { wLog0 with
         skippedExisting := ["r/f", "r/g"],
         errors := ["Final already exists (overwrite not allowed): r/f",
           "Final already exists (overwrite not allowed): r/g"] }⟩, none) := by
  have h := claim_C3_theorem.2 wEnv ["r"] c3PM c3FS wLog0 ?_
  · exact h
  · intro item hm
    rcases List.mem_cons.mp hm with he | hm2
    · subst he
      exact ⟨["r", ".winbak_tmp", "f.part_0001"], [], rfl, by decide, rfl, by decide⟩
    · rcases List.mem_cons.mp hm2 with he | hm3
      · subst he
        exact ⟨["r", ".winbak_tmp", "g.part_0001"], [["r", ".winbak_tmp", "g.part_0002"]],
          rfl, by decide, rfl, by decide⟩
      · cases hm3

/-! ## Decimal rendering lemmas -/

theorem natDigitsAux_append : ∀ (fuel n : Nat), n < fuel → ∀ acc,
    natDigitsAux fuel n acc = natDigitsAux fuel n [] ++ acc := by
  intro fuel
  induction fuel with
  | zero => intro n h; omega
  | succ f ih =>
    intro n h acc
    by_cases h10 : n < 10
    · simp [natDigitsAux, h10]
    · have hdiv : n / 10 < f := by
        have h1 : n / 10 < n := Nat.div_lt_self (by omega) (by omega)
        omega
      simp only [natDigitsAux, h10, if_false]
      rw [ih (n / 10) hdiv (digitChar (n % 10) :: acc), ih (n / 10) hdiv [digitChar (n % 10)]]
      simp

theorem natDigitsAux_fuel : ∀ (n : Nat), ∀ (f1 f2 : Nat), n < f1 → n < f2 →
    natDigitsAux f1 n [] = natDigitsAux f2 n [] := by
  intro n
  induction n using Nat.strong_induction_on with
  | _ n ih =>
    intro f1 f2 h1 h2
    cases f1 with
    | zero => omega
    | succ g1 =>
      cases f2 with
      | zero => omega
      | succ g2 =>
        by_cases h10 : n < 10
        · simp [natDigitsAux, h10]
        · have hlt : n / 10 < n := Nat.div_lt_self (by omega) (by omega)
          simp only [natDigitsAux, h10, if_false]
          rw [natDigitsAux_append g1 (n / 10) (by omega) [digitChar (n % 10)],
            natDigitsAux_append g2 (n / 10) (by omega) [digitChar (n % 10)],
            ih (n / 10) hlt g1 g2 (by omega) (by omega)]

/-- The recursive description of `natDigits`. -/
theorem natDigits_eq (n : Nat) :
    natDigits n = if n < 10 then [digitChar n] else natDigits (n / 10) ++ [digitChar (n % 10)] := by
  by_cases h10 : n < 10
  · simp [natDigits, natDigitsAux, h10]
  · rw [if_neg h10]
    have h1 : natDigits n = natDigitsAux n (n / 10) [digitChar (n % 10)] := by
      simp [natDigits, natDigitsAux, h10]
    rw [h1, natDigitsAux_append n (n / 10)
        (by have := Nat.div_lt_self (show 0 < n by omega) (show 1 < 10 by omega); omega)
        [digitChar (n % 10)],
      natDigitsAux_fuel (n / 10) n (n / 10 + 1)
        (by have := Nat.div_lt_self (show 0 < n by omega) (show 1 < 10 by omega); omega)
        (by omega)]
    rfl

theorem digitChar_isDigit {k : Nat} (h : k < 10) : (digitChar k).isDigit = true := by
  interval_cases k <;> decide

theorem natDigits_all_digits (n : Nat) : ∀ c ∈ natDigits n, c.isDigit = true := by
  induction n using Nat.strong_induction_on with
  | _ n ih =>
    rw [natDigits_eq]
    by_cases h10 : n < 10
    · simp only [h10, if_true, List.mem_singleton]
      rintro c rfl
      exact digitChar_isDigit h10
    · have hlt : n / 10 < n := Nat.div_lt_self (by omega) (by omega)
      simp only [h10, if_false, List.mem_append, List.mem_singleton]
      rintro c (hc | rfl)
      · exact ih (n / 10) hlt c hc
      · exact digitChar_isDigit (Nat.mod_lt n (by omega))

theorem natDigits_ne_nil (n : Nat) : natDigits n ≠ [] := by
  rw [natDigits_eq]
  by_cases h10 : n < 10 <;> simp [h10]

theorem digitsToNat_append (l1 l2 : List Char) :
    digitsToNat (l1 ++ l2) =
      l2.foldl (fun a c => a * 10 + (c.toNat - 48)) (digitsToNat l1) := by
  unfold digitsToNat
  exact List.foldl_append _ _ l1 l2

theorem digitsToNat_natDigits (n : Nat) : digitsToNat (natDigits n) = n := by
  induction n using Nat.strong_induction_on with
  | _ n ih =>
    rw [natDigits_eq]
    by_cases h10 : n < 10
    · simp only [h10, if_true]
      show 0 * 10 + ((digitChar n).toNat - 48) = n
      interval_cases n <;> decide
    · have hlt : n / 10 < n := Nat.div_lt_self (by omega) (by omega)
      simp only [h10, if_false]
      rw [digitsToNat_append, ih (n / 10) hlt]
      show n / 10 * 10 + ((digitChar (n % 10)).toNat - 48) = n
      have hm : (digitChar (n % 10)).toNat - 48 = n % 10 := by
        have : n % 10 < 10 := Nat.mod_lt n (by omega)
        interval_cases h : n % 10 <;> simp [digitChar]
      rw [hm]
      omega

theorem digitsToNat_pad4 (n : Nat) : digitsToNat (pad4 n) = n := by
  unfold pad4 digitsToNat
  rw [List.foldl_append]
  have hz : ∀ (k : Nat), List.foldl (fun a c => a * 10 + (c.toNat - 48)) 0
      (List.replicate k '0') = 0 := by
    intro k
    induction k with
    | zero => rfl
    | succ m ihm => simpa [List.replicate_succ] using ihm
  rw [hz]
  exact digitsToNat_natDigits n

theorem pad4_inj {a b : Nat} (h : pad4 a = pad4 b) : a = b := by
  have := congrArg digitsToNat h
  rwa [digitsToNat_pad4, digitsToNat_pad4] at this

theorem pad4_all_digits (n : Nat) : ∀ c ∈ pad4 n, c.isDigit = true := by
  intro c hc
  rcases List.mem_append.mp hc with h | h
  · rw [List.eq_of_mem_replicate h]; decide
  · exact natDigits_all_digits n c h

theorem pad4_ne_nil (n : Nat) : pad4 n ≠ [] := by
  intro h
  rcases List.append_eq_nil.mp h with ⟨-, h2⟩
  exact natDigits_ne_nil n h2

/-- Witness for C7: a two-archive staging run records, for the key
`docs/report.txt`, fragments indexed `.part_0001` then `.part_0002`. -/
theorem claim_C7_witness :
    pmLookup (stageExtract wEnv [wZip1, wZip2] ["root"] wFS0 wLog0).1.pm "docs/report.txt"
      = some [["root", ".winbak_tmp", "docs", "report.txt.part_0001"],
              ["root", ".winbak_tmp", "docs", "report.txt.part_0002"]] ∧
    (∃ base, relNameOf (["root", ".winbak_tmp", "docs", "report.txt.part_0002"] : FPath) =
      partFileName base 2) := by
  refine ⟨by decide, ?_⟩
  exact claim_C7_theorem wEnv [wZip1, wZip2] ["root"] wFS0 wLog0 "docs/report.txt"
    [["root", ".winbak_tmp", "docs", "report.txt.part_0001"],
     ["root", ".winbak_tmp", "docs", "report.txt.part_0002"]] (by decide)
    1 ["root", ".winbak_tmp", "docs", "report.txt.part_0002"] (by decide)

/-! ## Staged-name structure lemmas -/

theorem lastOccSplit_spec (sep : List Char) :
    ∀ (s a b : List Char), lastOccSplit sep s = some (a, b) → s = a ++ (sep ++ b) := by
  intro s
  induction s with
  | nil =>
    intro a b h
    unfold lastOccSplit at h
    by_cases he : sep.isEmpty
    · rw [if_pos he] at h
      injection h with h
      injection h with h1 h2
      subst h1; subst h2
      simp [List.isEmpty_iff.mp he]
    · rw [if_neg he] at h
      cases h
  | cons c t ih =>
    intro a b h
    cases hr : lastOccSplit sep t with
    | some ab =>
      obtain ⟨a0, b0⟩ := ab
      unfold lastOccSplit at h
      rw [hr] at h
      dsimp only at h
      rw [Option.some_inj, Prod.mk.injEq] at h
      obtain ⟨h1, h2⟩ := h
      subst h1; subst h2
      rw [List.cons_append, ← ih a0 b0 hr]
    | none =>
      unfold lastOccSplit at h
      rw [hr] at h
      dsimp only at h
      by_cases hp : sep.isPrefixOf (c :: t)
      · rw [if_pos hp] at h
        rw [Option.some_inj, Prod.mk.injEq] at h
        obtain ⟨h1, h2⟩ := h
        subst h1; subst h2
        have hpre : sep <+: (c :: t) := List.isPrefixOf_iff_prefix.mp hp
        obtain ⟨tail, htail⟩ := hpre
        rw [← htail, List.nil_append, List.drop_left]
      · rw [if_neg hp] at h
        cases h

theorem lastOccSplit_none_of_not_mem (Q : List Char) :
    ∀ (t : List Char), '.' ∉ t → lastOccSplit ('.' :: Q) t = none := by
  intro t
  induction t with
  | nil => intro _; rfl
  | cons c t' ih =>
    intro h
    have hc : c ≠ '.' := fun he => h (he ▸ List.mem_cons_self c t')
    have ht : '.' ∉ t' := fun hm => h (List.mem_cons_of_mem c hm)
    unfold lastOccSplit
    rw [ih ht]
    have hp : ('.' :: Q).isPrefixOf (c :: t') = false := by
      show (('.' : Char) == c && Q.isPrefixOf t') = false
      have hb : (('.' : Char) == c) = false := beq_eq_false_iff_ne.mpr (fun he => hc he.symm)
      rw [hb, Bool.false_and]
    rw [hp]
    rfl

theorem isPrefixOf_append_self (l t : List Char) : l.isPrefixOf (l ++ t) = true :=
  List.isPrefixOf_iff_prefix.mpr ⟨t, rfl⟩

/-- `rsplit` on the last occurrence: when the separator starts with a
character that occurs neither later in the separator nor in the tail, the
explicit occurrence is the final one. -/
theorem lastOccSplit_last (Q : List Char) (hQ : '.' ∉ Q) :
    ∀ (x d : List Char), '.' ∉ d →
      lastOccSplit ('.' :: Q) (x ++ ('.' :: Q ++ d)) = some (x, d) := by
  intro x
  induction x with
  | nil =>
    intro d hd
    rw [List.nil_append]
    show lastOccSplit ('.' :: Q) ('.' :: (Q ++ d)) = some ([], d)
    unfold lastOccSplit
    have hnone : lastOccSplit ('.' :: Q) (Q ++ d) = none := by
      refine lastOccSplit_none_of_not_mem Q (Q ++ d) ?_
      intro hm
      rcases List.mem_append.mp hm with hm | hm
      · exact hQ hm
      · exact hd hm
    rw [hnone]
    have hp : ('.' :: Q).isPrefixOf ('.' :: (Q ++ d)) = true := by
      have he : ('.' :: Q) ++ d = '.' :: (Q ++ d) := rfl
      rw [← he]
      exact isPrefixOf_append_self _ _
    rw [hp]
    simp [List.drop_left]
  | cons c x' ih =>
    intro d hd
    show lastOccSplit ('.' :: Q) (c :: (x' ++ ('.' :: Q ++ d))) = some (c :: x', d)
    unfold lastOccSplit
    rw [ih d hd]

theorem originalNameOf_partFileName (base : String) (idx : Nat) :
    originalNameOf (partFileName base idx) = base := by
  unfold originalNameOf
  have hdata : (partFileName base idx).data = base.data ++ ('.' :: "part_".data ++ pad4 idx) := by
    unfold partFileName
    rw [String.data_append, String.data_append, List.append_assoc]
  rw [hdata]
  have hsep : (".part_".data : List Char) = '.' :: "part_".data := rfl
  rw [hsep, lastOccSplit_last "part_".data (by decide) base.data (pad4 idx)
    (fun hm => by have := pad4_all_digits idx '.' hm; simp at this)]

theorem str_append_length (s t : String) :
    (s ++ t).data.length = s.data.length + t.data.length := by
  rw [String.data_append, List.length_append]

theorem str_ne_append_of_ne_empty (s t : String) (ht : t.data ≠ []) : s ++ t ≠ s := by
  intro he
  have hl := congrArg (fun q => q.data.length) he
  simp only [str_append_length] at hl
  have h0 : t.data.length = 0 := by omega
  exact ht (List.length_eq_zero.mp h0)

theorem mergeTmpName_ne (s : String) : originalNameOf s ++ ".__merge_tmp" ≠ s := by
  unfold originalNameOf
  cases h : lastOccSplit ".part_".data s.data with
  | none => exact str_ne_append_of_ne_empty s ".__merge_tmp" (by decide)
  | some ab =>
    obtain ⟨a, b⟩ := ab
    have hspec := lastOccSplit_spec ".part_".data s.data a b h
    intro he
    have hdata := congrArg String.data he
    rw [String.data_append, hspec] at hdata
    have hmk : (String.mk a).data = a := rfl
    rw [hmk] at hdata
    have h2 : (".__merge_tmp".data : List Char) = ".part_".data ++ b :=
      List.append_cancel_left hdata
    have h3 := congrArg (fun l => l.get? 1) h2
    simp [List.get?] at h3

theorem concat_ne_of_last_ne {a b : FPath} {x y : String} (h : x ≠ y) :
    a ++ [x] ≠ b ++ [y] := by
  intro he
  have h1 : (a ++ [x]).getLast? = some x := List.getLast?_concat a
  have h2 : (b ++ [y]).getLast? = some y := List.getLast?_concat b
  rw [he, h2] at h1
  injection h1 with h1
  exact h h1.symm

theorem path_decomp {p : FPath} (h : p ≠ []) : relParentOf p ++ [relNameOf p] = p := by
  unfold relParentOf relNameOf
  conv_rhs => rw [← List.dropLast_append_getLast h]
  congr 1
  rw [List.getLastD_eq_getLast?, List.getLast?_eq_getLast p h]
  rfl

/-! ## Claim C4: the single-fragment fast path -/

theorem fsExists_false_iff (fs : FS) (p : FPath) : fsExists fs p = false ↔ fs p = none := by
  unfold fsExists
  cases fs p <;> simp

theorem isPrefixOf_self {α : Type} [BEq α] [LawfulBEq α] (l : List α) :
    l.isPrefixOf l = true :=
  List.isPrefixOf_iff_prefix.mpr ⟨[], by simp⟩

theorem mergeOne_fast (env : Env) (destRoot tmpRoot : FPath) (st : MergeSt) (k : String)
    (first : FPath) (b : Bytes)
    (hpre : tmpRoot.isPrefixOf (relParentOf first) = true)
    (hmk : mkdirP st.fs (destRoot ++ (relParentOf first).drop tmpRoot.length) = (st.fs, none))
    (hnex : fsExists st.fs (destPathOf destRoot tmpRoot [first]) = false)
    (hfrag : st.fs first = some (.file b))
    (hnm : originalNameOf (relNameOf first) ≠ "") :
    mergeOne env destRoot tmpRoot st (k, [first]) =
      (⟨fsSet (fsDel st.fs first) (destPathOf destRoot tmpRoot [first]) (.file b),
        { st.log with merged := st.log.merged ++
            [(pathStr (destPathOf destRoot tmpRoot [first]), 1)] }⟩, none) := by
  have hdst : destPathOf destRoot tmpRoot [first] =
      (destRoot ++ (relParentOf first).drop tmpRoot.length) ++
        [originalNameOf (relNameOf first)] := by
    simp [destPathOf, pathJoin1, hnm]
  have hnone : st.fs (destPathOf destRoot tmpRoot [first]) = none :=
    (fsExists_false_iff _ _).mp hnex
  have hrepl : replaceFile st.fs first (destPathOf destRoot tmpRoot [first]) =
      (fsSet (fsDel st.fs first) (destPathOf destRoot tmpRoot [first]) (.file b), none) := by
    refine replaceFile_ok hfrag (by rw [hnone]; intro hcc; cases hcc) ?_ ?_
    · rw [hdst]; simp
    · rw [hdst, List.dropLast_concat]
      cases hfd : (destRoot ++ (relParentOf first).drop tmpRoot.length) with
      | nil => exact Or.inl rfl
      | cons c rest =>
        refine Or.inr ?_
        rw [← hfd]
        exact mkdirP_noop_dirs hmk _ (by rw [hfd]; simp) (isPrefixOf_self _)
  simp only [destPathOf, List.headD] at hnex hrepl ⊢
  simp only [mergeOne, hpre, if_true, hmk, hnex, List.length_singleton,
    mergeFastOrGeneral, sumStats, statSize, hfrag, Option.map_some, hrepl]
  simp

theorem mergeOne_fast_missing (env : Env) (destRoot tmpRoot : FPath) (st : MergeSt)
    (k : String) (first : FPath)
    (hpre : tmpRoot.isPrefixOf (relParentOf first) = true)
    (hmk : mkdirP st.fs (destRoot ++ (relParentOf first).drop tmpRoot.length) = (st.fs, none))
    (hnex : fsExists st.fs (destPathOf destRoot tmpRoot [first]) = false)
    (hmiss : st.fs first = none) :
    mergeOne env destRoot tmpRoot st (k, [first]) =
      (mergeGeneral env ⟨st.fs, st.log⟩ (destPathOf destRoot tmpRoot [first]) [first]
        (relParentOf first) (originalNameOf (relNameOf first)), none) := by
  simp only [destPathOf, List.headD] at hnex ⊢
  simp only [mergeOne, hpre, if_true, hmk, hnex, List.length_singleton,
    mergeFastOrGeneral, sumStats, statSize, hmiss]
  simp

theorem mergeOne_fast_movefail (env : Env) (destRoot tmpRoot : FPath) (st : MergeSt)
    (k : String) (first : FPath) (b : Bytes) (e : PyExc)
    (hpre : tmpRoot.isPrefixOf (relParentOf first) = true)
    (hmk : mkdirP st.fs (destRoot ++ (relParentOf first).drop tmpRoot.length) = (st.fs, none))
    (hnex : fsExists st.fs (destPathOf destRoot tmpRoot [first]) = false)
    (hfrag : st.fs first = some (.file b))
    (hrepl : replaceFile st.fs first (destPathOf destRoot tmpRoot [first]) = (st.fs, some e)) :
    mergeOne env destRoot tmpRoot st (k, [first]) =
      (mergeGeneral env ⟨st.fs, st.log⟩ (destPathOf destRoot tmpRoot [first]) [first]
        (relParentOf first) (originalNameOf (relNameOf first)), none) := by
  simp only [destPathOf, List.headD] at hnex hrepl ⊢
  simp only [mergeOne, hpre, if_true, hmk, hnex, List.length_singleton,
    mergeFastOrGeneral, sumStats, statSize, hfrag, Option.map_some, hrepl]
  simp

/-- Claim C4: a LogicalFile with exactly one fragment (and no pre-existing
destination) is merged by the fast path: the single fragment is moved to the
destination by one atomic rename (source removed, destination created with
the same bytes), the merge is recorded as `(destination, 1)`, no
intermediate `.__merge_tmp` path is ever touched, and an exception in the
fast path's verification (missing fragment) or move (failing rename) makes
it fall through to the general merge path instead of failing the
LogicalFile. -/
theorem claim_C4_theorem (env : Env) (destRoot tmpRoot : FPath) (st : MergeSt) (k : String)
    (first : FPath) :
    (∀ b, tmpRoot.isPrefixOf (relParentOf first) = true →
      mkdirP st.fs (destRoot ++ (relParentOf first).drop tmpRoot.length) = (st.fs, none) →
      fsExists st.fs (destPathOf destRoot tmpRoot [first]) = false →
      st.fs first = some (.file b) →
      originalNameOf (relNameOf first) ≠ "" →
      mergeOne env destRoot tmpRoot st (k, [first]) =
        (⟨fsSet (fsDel st.fs first) (destPathOf destRoot tmpRoot [first]) (.file b),
          { st.log with merged := st.log.merged ++
              [(pathStr (destPathOf destRoot tmpRoot [first]), 1)] }⟩, none) ∧
      (first ≠ [] →
        (mergeOne env destRoot tmpRoot st (k, [first])).1.fs
            (relParentOf first ++ [originalNameOf (relNameOf first) ++ ".__merge_tmp"]) =
          st.fs (relParentOf first ++ [originalNameOf (relNameOf first) ++ ".__merge_tmp"]))) ∧
    (tmpRoot.isPrefixOf (relParentOf first) = true →
      mkdirP st.fs (destRoot ++ (relParentOf first).drop tmpRoot.length) = (st.fs, none) →
      fsExists st.fs (destPathOf destRoot tmpRoot [first]) = false →
      st.fs first = none →
      mergeOne env destRoot tmpRoot st (k, [first]) =
        (mergeGeneral env ⟨st.fs, st.log⟩ (destPathOf destRoot tmpRoot [first]) [first]
          (relParentOf first) (originalNameOf (relNameOf first)), none)) ∧
    (∀ b e, tmpRoot.isPrefixOf (relParentOf first) = true →
      mkdirP st.fs (destRoot ++ (relParentOf first).drop tmpRoot.length) = (st.fs, none) →
      fsExists st.fs (destPathOf destRoot tmpRoot [first]) = false →
      st.fs first = some (.file b) →
      replaceFile st.fs first (destPathOf destRoot tmpRoot [first]) = (st.fs, some e) →
      mergeOne env destRoot tmpRoot st (k, [first]) =
        (mergeGeneral env ⟨st.fs, st.log⟩ (destPathOf destRoot tmpRoot [first]) [first]
          (relParentOf first) (originalNameOf (relNameOf first)), none)) := by
  refine ⟨fun b hpre hmk hnex hfrag hnm => ?_,
    fun hpre hmk hnex hmiss => mergeOne_fast_missing env destRoot tmpRoot st k first
      hpre hmk hnex hmiss,
    fun b e hpre hmk hnex hfrag hrepl => mergeOne_fast_movefail env destRoot tmpRoot st k
      first b e hpre hmk hnex hfrag hrepl⟩
  have heq := mergeOne_fast env destRoot tmpRoot st k first b hpre hmk hnex hfrag hnm
  refine ⟨heq, fun hfirst => ?_⟩
  rw [heq]
  have hdst : destPathOf destRoot tmpRoot [first] =
      (destRoot ++ (relParentOf first).drop tmpRoot.length) ++
        [originalNameOf (relNameOf first)] := by
    simp [destPathOf, pathJoin1, hnm]
  have htmp_ne_dst : relParentOf first ++ [originalNameOf (relNameOf first) ++ ".__merge_tmp"]
      ≠ destPathOf destRoot tmpRoot [first] := by
    rw [hdst]
    exact concat_ne_of_last_ne
      (str_ne_append_of_ne_empty (originalNameOf (relNameOf first)) ".__merge_tmp" (by decide))
  have htmp_ne_first : relParentOf first ++ [originalNameOf (relNameOf first) ++ ".__merge_tmp"]
      ≠ first := by
    conv_rhs => rw [← path_decomp hfirst]
    exact concat_ne_of_last_ne (mergeTmpName_ne (relNameOf first))
  show fsSet (fsDel st.fs first) (destPathOf destRoot tmpRoot [first]) (.file b) _ = _
  rw [fsSet_other _ _ _ htmp_ne_dst, fsDel_other _ _ htmp_ne_first]

/-- Witness for C4: a one-fragment LogicalFile is renamed into place, the
merge is recorded as `("r/f", 1)`, and the `.__merge_tmp` path stays
untouched. -/
theorem claim_C4_witness :
    mergeOne wEnv ["r"] ["r", ".winbak_tmp"] ⟨c4FS, wLog0⟩ ("f", [["r", ".winbak_tmp", "f.part_0001"]]) =
      (⟨fsSet (fsDel c4FS ["r", ".winbak_tmp", "f.part_0001"]) ["r", "f"] (.file [65, 66]),
        { wLog0 with merged := [("r/f", 1)] }⟩, none) ∧
    (mergeOne wEnv ["r"] ["r", ".winbak_tmp"] ⟨c4FS, wLog0⟩
        ("f", [["r", ".winbak_tmp", "f.part_0001"]])).1.fs
      ["r", ".winbak_tmp", "f.__merge_tmp"] = c4FS ["r", ".winbak_tmp", "f.__merge_tmp"] := by
  have h := (claim_C4_theorem wEnv ["r"] ["r", ".winbak_tmp"] ⟨c4FS, wLog0⟩ "f"
    ["r", ".winbak_tmp", "f.part_0001"]).1 [65, 66] (by decide) rfl (by decide) rfl (by decide)
  exact ⟨h.1, h.2 (by decide)⟩

/-! ## Claim C2: size re-verification failure after the fallback -/

theorem fsSet_fsSet (fs : FS) (p : FPath) (a b : FNode) :
    fsSet (fsSet fs p a) p b = fsSet fs p b := by
  funext q
  by_cases h : q = p <;> simp [fsSet, h]

theorem sumStats_of_forall₂ {fs : FS} :
    ∀ {parts : List FPath} {bs : List Bytes},
      List.Forall₂ (fun p b => fs p = some (FNode.file b)) parts bs →
      sumStats fs parts = some ((bs.map List.length).sum) := by
  intro parts bs h
  induction h with
  | nil => rfl
  | cons hpb _ ih =>
    unfold sumStats statSize
    rw [hpb, ih]
    simp

theorem readAll_of_forall₂ {fs : FS} :
    ∀ {parts : List FPath} {bs : List Bytes},
      List.Forall₂ (fun p b => fs p = some (FNode.file b)) parts bs →
      readAll fs parts = Sum.inl bs := by
  intro parts bs h
  induction h with
  | nil => rfl
  | cons hpb _ ih =>
    unfold readAll
    rw [hpb, ih]

theorem forall₂_mem_left {fs : FS} {parts : List FPath} {bs : List Bytes}
    (h : List.Forall₂ (fun p b => fs p = some (FNode.file b)) parts bs) :
    ∀ p ∈ parts, ∃ b, fs p = some (FNode.file b) := by
  induction h with
  | nil => intro p hp; cases hp
  | cons hpb _ ih =>
    intro p hp
    rcases List.mem_cons.mp hp with he | hm
    · exact ⟨_, he ▸ hpb⟩
    · exact ih p hm

theorem forall₂_fs_congr {fs fs' : FS} :
    ∀ {parts : List FPath} {bs : List Bytes},
      (∀ p ∈ parts, fs' p = fs p) →
      List.Forall₂ (fun p b => fs p = some (FNode.file b)) parts bs →
      List.Forall₂ (fun p b => fs' p = some (FNode.file b)) parts bs := by
  intro parts bs hcong h
  induction h with
  | nil => exact List.Forall₂.nil
  | cons hpb htail ih =>
    refine List.Forall₂.cons ?_ (ih (fun p hp => hcong p (List.mem_cons_of_mem _ hp)))
    rw [hcong _ (List.mem_cons_self _ _)]
    exact hpb

/-- Characterization of `concat_parts_python` on intact fragments: the
temporary file receives whatever the disk makes of the concatenated bytes. -/
theorem concatParts_ok (env : Env) (fs : FS) (parts : List FPath) (tmp : FPath)
    (bs : List Bytes)
    (hbs : List.Forall₂ (fun p b => fs p = some (FNode.file b)) parts bs)
    (htmp : fs tmp = none) (hne : tmp ≠ [])
    (hpar : tmp.dropLast = [] ∨ fs tmp.dropLast = some FNode.dir)
    (hmkP : mkdirP fs (relParentOf tmp) = (fs, none)) :
    concatParts env fs parts tmp =
      (fsSet fs tmp (.file (env.concatWrite bs.flatten)), none) := by
  have htmp_notin : ∀ p ∈ parts, p ≠ tmp := by
    intro p hp he
    obtain ⟨b, hb⟩ := forall₂_mem_left hbs p hp
    rw [he, htmp] at hb
    cases hb
  have hdropne : tmp.dropLast ≠ tmp := by
    intro he
    have hlen := congrArg List.length he
    rw [List.length_dropLast] at hlen
    have hpos : 0 < tmp.length := List.length_pos.mpr hne
    omega
  have hw1 : writeFile fs tmp (env.concatWrite []) =
      (fsSet fs tmp (.file (env.concatWrite [])), none) :=
    writeFile_ok _ (by rw [htmp]; intro hcc; cases hcc) hne hpar
  have hbs2 : List.Forall₂ (fun p b => fsSet fs tmp (.file (env.concatWrite [])) p
      = some (FNode.file b)) parts bs :=
    forall₂_fs_congr (fun p hp => fsSet_other _ _ _ (htmp_notin p hp)) hbs
  have hread : readAll (fsSet fs tmp (.file (env.concatWrite []))) parts = Sum.inl bs :=
    readAll_of_forall₂ hbs2
  have hw2 : writeFile (fsSet fs tmp (.file (env.concatWrite []))) tmp
      (env.concatWrite bs.flatten) =
      (fsSet (fsSet fs tmp (.file (env.concatWrite []))) tmp
        (.file (env.concatWrite bs.flatten)), none) := by
    refine writeFile_ok _ (by rw [fsSet_self]; intro hcc; cases hcc) hne ?_
    rcases hpar with h | h
    · exact Or.inl h
    · refine Or.inr ?_
      rw [fsSet_other _ _ _ hdropne]
      exact h
  unfold concatParts
  rw [hmkP]
  dsimp only
  rw [hw1]
  dsimp only
  rw [hread]
  dsimp only
  rw [hw2, fsSet_fsSet]

theorem mergeGeneral_fallback_mismatch (env : Env) (st : MergeSt) (finalPath : FPath)
    (parts : List FPath) (parentP : FPath) (oName : String) (bs : List Bytes) (rc : Int)
    (hbs : List.Forall₂ (fun p b => st.fs p = some (FNode.file b)) parts bs)
    (htmp : st.fs (parentP ++ [oName ++ ".__merge_tmp"]) = none)
    (hmkP : mkdirP st.fs parentP = (st.fs, none))
    (hcb : env.copyB (partsBytes st.fs parts) = (rc, none))
    (hrc : rc ≠ 0)
    (hmis : (env.concatWrite bs.flatten).length ≠ (bs.map List.length).sum) :
    (∀ q, (mergeGeneral env st finalPath parts parentP oName).fs q = st.fs q) ∧
    (mergeGeneral env st finalPath parts parentP oName).log =
      { st.log with errors := st.log.errors ++
          ["Failed to merge " ++ pathStr finalPath ++ ": " ++
            ("Merged size mismatch after fallback: expected=" ++
              natStr ((bs.map List.length).sum) ++ ", actual=" ++
              natStr (env.concatWrite bs.flatten).length)] } := by
  have hsum : sumStats st.fs parts = some ((bs.map List.length).sum) :=
    sumStats_of_forall₂ hbs
  have hstat : statSize st.fs (parentP ++ [oName ++ ".__merge_tmp"]) = none := by
    unfold statSize
    rw [htmp]
  have hne : (parentP ++ [oName ++ ".__merge_tmp"] : FPath) ≠ [] := by simp
  have hpar : (parentP ++ [oName ++ ".__merge_tmp"]).dropLast = [] ∨
      st.fs ((parentP ++ [oName ++ ".__merge_tmp"]).dropLast) = some FNode.dir := by
    rw [List.dropLast_concat]
    cases hp0 : parentP with
    | nil => exact Or.inl rfl
    | cons c rest =>
      refine Or.inr ?_
      rw [← hp0]
      exact mkdirP_noop_dirs hmkP parentP (by rw [hp0]; simp) (isPrefixOf_self _)
  have hconcat := concatParts_ok env st.fs parts (parentP ++ [oName ++ ".__merge_tmp"]) bs hbs
    htmp hne hpar (by rw [relParentOf, List.dropLast_concat]; exact hmkP)
  have hstatC : statSize (fsSet st.fs (parentP ++ [oName ++ ".__merge_tmp"])
      (.file (env.concatWrite bs.flatten))) (parentP ++ [oName ++ ".__merge_tmp"]) =
      some (env.concatWrite bs.flatten).length := by
    unfold statSize
    rw [fsSet_self]
  have hunlink0 : unlinkBE st.fs (parentP ++ [oName ++ ".__merge_tmp"]) = st.fs :=
    unlinkBE_none htmp
  simp only [mergeGeneral, hcb]
  rw [hsum]
  try dsimp only
  rw [hstat]
  rw [if_pos (Or.inl hrc), hunlink0, hconcat]
  try dsimp only
  rw [hstatC]
  simp only [Option.getD_some]
  rw [if_pos hmis]
  unfold mergeFail
  constructor
  · intro q
    by_cases hq : q = parentP ++ [oName ++ ".__merge_tmp"]
    · subst hq
      dsimp only
      rw [unlinkBE_self_file (fsSet_self _ _ _), htmp]
    · dsimp only
      rw [unlinkBE_other _ _ hq, fsSet_other _ _ _ hq]
  · rfl

theorem mergeOne_to_general (env : Env) (destRoot tmpRoot : FPath) (st : MergeSt)
    (k : String) (first second : FPath) (rest : List FPath)
    (hpre : tmpRoot.isPrefixOf (relParentOf first) = true)
    (hmk : mkdirP st.fs (destRoot ++ (relParentOf first).drop tmpRoot.length) = (st.fs, none))
    (hnex : fsExists st.fs (destPathOf destRoot tmpRoot (first :: second :: rest)) = false) :
    mergeOne env destRoot tmpRoot st (k, first :: second :: rest) =
      (mergeGeneral env ⟨st.fs, st.log⟩
        (destPathOf destRoot tmpRoot (first :: second :: rest)) (first :: second :: rest)
        (relParentOf first) (originalNameOf (relNameOf first)), none) := by
  simp only [destPathOf, List.headD] at hnex ⊢
  simp only [mergeOne, hpre, if_true, hmk, hnex]
  simp

theorem mergePartsGo_step (env : Env) (destRoot tmpRoot : FPath) (st st' : MergeSt)
    (item : String × List FPath) (restItems : List (String × List FPath))
    (h : mergeOne env destRoot tmpRoot st item = (st', none)) :
    mergePartsGo env destRoot tmpRoot (item :: restItems) st =
      mergePartsGo env destRoot tmpRoot restItems st' := by
  show (match mergeOne env destRoot tmpRoot st item with
    | (st2, none) => mergePartsGo env destRoot tmpRoot restItems st2
    | (st2, some e) => (st2, some e)) = mergePartsGo env destRoot tmpRoot restItems st'
  rw [h]

/-- Claim C2: a LogicalFile whose merge still fails the size check after the
streaming fallback gets exactly one recorded error, its temporary merge file
is deleted, every byte of the filesystem outside that temporary file —
fragments included — is untouched, the destination is not created, and the
`merge_parts` loop continues with the remaining LogicalFiles. -/
theorem claim_C2_theorem (env : Env) (destRoot tmpRoot : FPath) (st : MergeSt)
    (k : String) (first second : FPath) (rest : List FPath) (bs : List Bytes) (rc : Int) :
    (tmpRoot.isPrefixOf (relParentOf first) = true →
      mkdirP st.fs (destRoot ++ (relParentOf first).drop tmpRoot.length) = (st.fs, none) →
      fsExists st.fs (destPathOf destRoot tmpRoot (first :: second :: rest)) = false →
      List.Forall₂ (fun p b => st.fs p = some (FNode.file b)) (first :: second :: rest) bs →
      st.fs (relParentOf first ++
        [originalNameOf (relNameOf first) ++ ".__merge_tmp"]) = none →
      mkdirP st.fs (relParentOf first) = (st.fs, none) →
      env.copyB (partsBytes st.fs (first :: second :: rest)) = (rc, none) →
      rc ≠ 0 →
      (env.concatWrite bs.flatten).length ≠ (bs.map List.length).sum →
      (∃ st', mergeOne env destRoot tmpRoot st (k, first :: second :: rest) = (st', none) ∧
        (∀ q, st'.fs q = st.fs q) ∧
        st'.log = { st.log with errors := st.log.errors ++
          ["Failed to merge " ++
            pathStr (destPathOf destRoot tmpRoot (first :: second :: rest)) ++ ": " ++
            ("Merged size mismatch after fallback: expected=" ++
              natStr ((bs.map List.length).sum) ++ ", actual=" ++
              natStr (env.concatWrite bs.flatten).length)] } ∧
        (∀ restItems, mergePartsGo env destRoot tmpRoot
            ((k, first :: second :: rest) :: restItems) st =
          mergePartsGo env destRoot tmpRoot restItems st'))) := by
  intro hpre hmk hnex hbs htmp hmkP hcb hrc hmis
  have hroute := mergeOne_to_general env destRoot tmpRoot st k first second rest hpre hmk hnex
  have hgen := mergeGeneral_fallback_mismatch env ⟨st.fs, st.log⟩
    (destPathOf destRoot tmpRoot (first :: second :: rest)) (first :: second :: rest)
    (relParentOf first) (originalNameOf (relNameOf first)) bs rc hbs htmp hmkP hcb hrc hmis
  refine ⟨_, hroute, hgen.1, hgen.2, fun restItems => ?_⟩
  exact mergePartsGo_step env destRoot tmpRoot st _ _ restItems hroute

theorem claim_C2_witness :
    ∃ st', mergeOne wEnvBad ["r"] ["r", ".winbak_tmp"] ⟨c2FS, wLog0⟩
        ("f", [["r", ".winbak_tmp", "f.part_0001"], ["r", ".winbak_tmp", "f.part_0002"]]) =
        (st', none) ∧
      (∀ q, st'.fs q = c2FS q) ∧
      st'.log = { wLog0 with errors := wLog0.errors ++
        ["Failed to merge " ++
          pathStr (destPathOf ["r"] ["r", ".winbak_tmp"]
            [["r", ".winbak_tmp", "f.part_0001"], ["r", ".winbak_tmp", "f.part_0002"]]) ++
          ": " ++
          ("Merged size mismatch after fallback: expected=" ++
            natStr ((([[65], [66]] : List Bytes).map List.length).sum) ++ ", actual=" ++
            natStr (wEnvBad.concatWrite ([[65], [66]] : List Bytes).flatten).length)] } ∧
      (∀ restItems, mergePartsGo wEnvBad ["r"] ["r", ".winbak_tmp"]
          (("f", [["r", ".winbak_tmp", "f.part_0001"],
            ["r", ".winbak_tmp", "f.part_0002"]]) :: restItems) ⟨c2FS, wLog0⟩ =
        mergePartsGo wEnvBad ["r"] ["r", ".winbak_tmp"] restItems st') :=
  claim_C2_theorem wEnvBad ["r"] ["r", ".winbak_tmp"] ⟨c2FS, wLog0⟩ "f"
    ["r", ".winbak_tmp", "f.part_0001"] ["r", ".winbak_tmp", "f.part_0002"] []
    [[65], [66]] 1
    (by decide) rfl (by decide)
    (List.Forall₂.cons rfl (List.Forall₂.cons rfl List.Forall₂.nil))
    rfl rfl rfl (by decide) (by decide)

/-! ## Claim C10: the dead empty-list guard of `process_zips` -/

theorem processZipsBody_eq_noGuard (env : Env) (z : ZipFile) (rest : List ZipFile)
    (destRoot : FPath) (fs : FS) :
    processZipsBody env (z :: rest) destRoot fs =
      processZipsBodyNoGuard env (z :: rest) destRoot fs := rfl

theorem processZips_eq_noGuard (env : Env) (zips : List ZipFile) (fs : FS) :
    processZips env zips fs = processZipsNoGuard env zips fs := by
  cases zips with
  | nil => rfl
  | cons z rest => rfl

/-- Claim C10: `process_zips` evaluates `zips[0]` (to derive the destination
root) before its empty-list guard runs, so an empty archive list raises
`IndexError` outside the `try`/`finally` — the filesystem is untouched (no
report) and an error propagates instead of the guard's `return 0`; the guard
branch is dead (removing it changes the result on no input), so totality of
`process_zips` needs the precondition that its list is non-empty, and
`process_dir` violates it whenever no listing entry qualifies. -/
theorem claim_C10_theorem (env : Env) (fs : FS) (listing : List ZipFile) (dirExists : Bool) :
    processZips env [] fs = (fs, Except.error PyExc.indexError) ∧
    (∀ zips, processZips env zips fs = processZipsNoGuard env zips fs) ∧
    ((if dirExists then
        listing.filter (fun z => z.isFile && qualifyingName (relNameOf z.path))
      else []) = [] →
      processDir env listing dirExists fs = (fs, Except.error PyExc.indexError)) := by
  refine ⟨rfl, fun zips => processZips_eq_noGuard env zips fs, fun h => ?_⟩
  show processZips env ((if dirExists then
      listing.filter (fun z => z.isFile && qualifyingName (relNameOf z.path))
    else []).mergeSort zipFileLE) fs = (fs, Except.error PyExc.indexError)
  rw [h, List.mergeSort_nil]
  rfl

/-! ## Claim C8: exit status reflects recorded errors -/

theorem processZipsBodyNoGuard_guard (env : Env) (zips : List ZipFile)
    (destRoot : FPath) (fs : FS) :
    (processZipsBodyNoGuard env zips destRoot fs).2.2.1 = false := by
  simp only [processZipsBodyNoGuard]
  rcases hse : stageExtract env zips destRoot fs ⟨[], [], [], 0, zips.length⟩ with ⟨st, e?⟩
  cases e? with
  | some e => rfl
  | none => rfl

theorem processZips_ok_iff (env : Env) (zips : List ZipFile) (fs fs' : FS)
    (r : Int) (log : SummaryLog)
    (h : processZips env zips fs = (fs', Except.ok (r, log))) :
    r = 0 ↔ log.errors = [] := by
  cases zips with
  | nil =>
    exfalso
    simp only [processZips] at h
    exact absurd (congrArg Prod.snd h) (by simp)
  | cons z rest =>
    simp only [processZips] at h
    rcases hmk : mkdirP fs (relParentOf z.path) with ⟨fs1, e1⟩
    rw [hmk] at h
    cases e1 with
    | some e =>
      exfalso
      exact absurd (congrArg Prod.snd h) (by simp)
    | none =>
      dsimp only at h
      rcases hb : processZipsBody env (z :: rest) (relParentOf z.path) fs1 with
        ⟨fs2, log2, g, e?⟩
      rw [hb] at h
      have hg : g = false := by
        have hng := processZipsBodyNoGuard_guard env (z :: rest) (relParentOf z.path) fs1
        rw [← processZipsBody_eq_noGuard, hb] at hng
        exact hng
      subst hg
      cases e? with
      | some e =>
        dsimp only at h
        injection h with h1 h2
        injection h2 with h3
        injection h3 with hr hlog
        constructor
        · intro h0; rw [← hr] at h0; exact absurd h0 (by decide)
        · intro hE
          rw [← hlog] at hE
          simp at hE
      | none =>
        dsimp only at h
        injection h with h1 h2
        injection h2 with h3
        injection h3 with hr hlog
        subst hlog
        by_cases hE : log2.errors = []
        · rw [← hr, if_pos hE]
          simp [hE]
        · rw [← hr, if_neg hE]
          exact ⟨fun h10 => absurd h10 (by decide), fun hE2 => absurd hE2 hE⟩

theorem runSet_ok_iff (env : Env) :
    ∀ (listings : List (List ZipFile)) (fs fs' : FS) (r0 ret : Int),
      runSet env listings fs r0 = (fs', Except.ok ret) →
      (ret = 0 ↔ (r0 = 0 ∧ setRunsClean env listings fs)) := by
  intro listings
  induction listings with
  | nil =>
    intro fs fs' r0 ret h
    injection h with h1 h2
    injection h2 with h3
    subst h3
    simp [setRunsClean]
  | cons listing rest ih =>
    intro fs fs' r0 ret h
    simp only [runSet] at h
    rcases hpd : processDir env listing true fs with ⟨fs1, res⟩
    rw [hpd] at h
    cases res with
    | error e =>
      exfalso
      exact absurd (congrArg Prod.snd h) (by simp)
    | ok pr =>
      rcases pr with ⟨r, log⟩
      dsimp only at h
      have hiff := ih fs1 fs' (if r ≠ 0 then 1 else r0) ret h
      rw [hiff]
      simp only [setRunsClean]
      constructor
      · rintro ⟨hif, hclean⟩
        by_cases hr : r = 0
        · subst hr
          rw [if_neg (by simp)] at hif
          exact ⟨hif, fs1, log, hpd, hclean⟩
        · rw [if_pos hr] at hif
          exact absurd hif (by decide)
      · rintro ⟨hr0, fs2, log2, hpd2, hclean2⟩
        rw [hpd] at hpd2
        injection hpd2 with e1 e2
        subst e1
        injection e2 with e3
        injection e3 with e4 e5
        subst e4
        subst e5
        exact ⟨by rw [if_neg (by simp)]; exact hr0, hclean2⟩

/-- Claim C8: a completed `process_zips` run returns 0 exactly when its log
recorded no error; a backup-set run returns 0 exactly when every subfolder
run completed with 0 (i.e. recorded no error); and an explicit request that
finds no qualifying archive exits non-zero — `--files` returns 1 outright,
`--dir` dies on the empty-list `IndexError`, exiting 1. -/
theorem claim_C8_theorem (env : Env) (fs : FS) :
    (∀ zips fs' r log, processZips env zips fs = (fs', Except.ok (r, log)) →
      (r = 0 ↔ log.errors = [])) ∧
    (∀ listings fs' ret, runSet env listings fs 0 = (fs', Except.ok ret) →
      (ret = 0 ↔ setRunsClean env listings fs)) ∧
    (∀ files, (files.filter (fun z => z.isFile && qualifyingName (relNameOf z.path))).isEmpty = true →
      runFiles env files fs = (fs, Except.ok 1) ∧ exitOf (runFiles env files fs).2 = 1) ∧
    (∀ listing dirExists,
      (if dirExists then
        listing.filter (fun z => z.isFile && qualifyingName (relNameOf z.path))
      else []) = [] →
      runDir env listing dirExists fs = (fs, Except.error PyExc.indexError) ∧
      exitOf (runDir env listing dirExists fs).2 = 1) := by
  refine ⟨fun zips fs' r log h => processZips_ok_iff env zips fs fs' r log h,
    fun listings fs' ret h => ?_, fun files hempty => ?_, fun listing dirExists h => ?_⟩
  · rw [runSet_ok_iff env listings fs fs' 0 ret h]
    simp
  · have hrf : runFiles env files fs = (fs, Except.ok 1) := by
      simp [runFiles, hempty]
    exact ⟨hrf, by rw [hrf]; rfl⟩
  · have hpd : processDir env listing dirExists fs = (fs, Except.error PyExc.indexError) := by
      show processZips env ((if dirExists then
          listing.filter (fun z => z.isFile && qualifyingName (relNameOf z.path))
        else []).mergeSort zipFileLE) fs = (fs, Except.error PyExc.indexError)
      rw [h, List.mergeSort_nil]
      rfl
    have hrd : runDir env listing dirExists fs = (fs, Except.error PyExc.indexError) := by
      simp only [runDir, hpd]
    exact ⟨hrd, by rw [hrd]; rfl⟩

theorem claim_C8_witness :
    ((0 : Int) = 0 ↔ (⟨[], [], [], 0, 1⟩ : SummaryLog).errors = []) ∧
    ((0 : Int) = 0 ↔ setRunsClean wEnv [] wFS0) ∧
    (runFiles wEnv [znq] wFS0 = (wFS0, Except.ok 1) ∧
      exitOf (runFiles wEnv [znq] wFS0).2 = 1) ∧
    (runDir wEnv [znq] true wFS0 = (wFS0, Except.error PyExc.indexError) ∧
      exitOf (runDir wEnv [znq] true wFS0).2 = 1) := by
  have h := claim_C8_theorem wEnv wFS0
  exact ⟨h.1 [zC8] (processZips wEnv [zC8] wFS0).1 0 ⟨[], [], [], 0, 1⟩ rfl,
    h.2.1 [] wFS0 0 rfl,
    h.2.2.1 [znq] rfl,
    h.2.2.2 [znq] true rfl⟩

/-! ## Claim C9: the report is written whatever the body does -/

theorem reportFileName_ne_empty (env : Env) : reportFileName env ≠ "" := by
  intro he
  have hl := congrArg String.length he
  rw [reportFileName, String.length_append, String.length_append] at hl
  have h1 : ("winbak_extract_" : String).length = 15 := rfl
  have h2 : (".txt" : String).length = 4 := rfl
  have h3 : ("" : String).length = 0 := rfl
  omega

theorem pathJoin1_report (env : Env) (p : FPath) :
    pathJoin1 p (reportFileName env) = p ++ [reportFileName env] := by
  unfold pathJoin1
  rw [if_neg (reportFileName_ne_empty env)]

theorem logWrite_written (env : Env) (log : SummaryLog) (dest : FPath) (fs : FS)
    (hvac : fs (dest ++ [reportFileName env]) = none)
    (hdir : dest = [] ∨ fs dest = some FNode.dir) :
    logWrite env log dest fs =
      fsSet fs (dest ++ [reportFileName env])
        (.file (strBytes (joinLines (summaryLines log)))) := by
  unfold logWrite
  rw [pathJoin1_report]
  rw [writeFile_ok _ (by rw [hvac]; simp) (by simp)
    (by rw [List.dropLast_concat]; exact hdir)]

/-- Claim C9: once `process_zips` has entered its `try` (the destination root
is derived from `zips[0]` and created), the run always finishes by writing
the timestamped report into the destination root — in particular when it
does, the report file holds the rendered summary; an exception escaping
extraction or merging is caught at the top level, recorded as the single
entry `"Fatal error: …"`, and the run returns 1. -/
theorem claim_C9_theorem (env : Env) (z : ZipFile) (rest : List ZipFile)
    (fs fs1 fs2 : FS) (log2 : SummaryLog) (e? : Option PyExc)
    (hmk : mkdirP fs (relParentOf z.path) = (fs1, none))
    (hbody : processZipsBody env (z :: rest) (relParentOf z.path) fs1 =
      (fs2, log2, false, e?)) :
    ∃ logF r,
      processZips env (z :: rest) fs =
        (logWrite env logF (relParentOf z.path) fs2, Except.ok (r, logF)) ∧
      (∀ e, e? = some e → r = 1 ∧
        logF = { log2 with errors := log2.errors ++ ["Fatal error: " ++ pyExcMsg e] }) ∧
      (e? = none → logF = log2 ∧ r = (if log2.errors = [] then (0 : Int) else 1)) ∧
      (fs2 (relParentOf z.path ++ [reportFileName env]) = none →
        (relParentOf z.path = [] ∨ fs2 (relParentOf z.path) = some FNode.dir) →
        (logWrite env logF (relParentOf z.path) fs2)
            (relParentOf z.path ++ [reportFileName env]) =
          some (FNode.file (strBytes (joinLines (summaryLines logF))))) := by
  cases e? with
  | some e =>
    refine ⟨{ log2 with errors := log2.errors ++ ["Fatal error: " ++ pyExcMsg e] }, 1,
      ?_, ?_, ?_, ?_⟩
    · simp only [processZips]
      rw [hmk]
      dsimp only
      rw [hbody]
    · intro e2 he
      injection he with he2
      subst he2
      exact ⟨rfl, rfl⟩
    · intro hn
      cases hn
    · intro hvac hdir
      rw [logWrite_written env _ _ _ hvac hdir]
      exact fsSet_self _ _ _
  | none =>
    refine ⟨log2, (if log2.errors = [] then (0 : Int) else 1), ?_, ?_, ?_, ?_⟩
    · simp only [processZips]
      rw [hmk]
      dsimp only
      rw [hbody]
    · intro e2 he
      cases he
    · intro hn
      exact ⟨rfl, rfl⟩
    · intro hvac hdir
      rw [logWrite_written env _ _ _ hvac hdir]
      exact fsSet_self _ _ _

theorem claim_C9_witness :
    ∃ logF r,
      processZips wEnv [zC8] c9FS =
        (logWrite wEnv logF (relParentOf zC8.path) c9FS, Except.ok (r, logF)) ∧
      (∀ e, (some (PyExc.fileExists ["root", ".winbak_tmp"]) : Option PyExc) = some e →
        r = 1 ∧
        logF = { (⟨[], [], [], 0, 1⟩ : SummaryLog) with errors :=
          (⟨[], [], [], 0, 1⟩ : SummaryLog).errors ++ ["Fatal error: " ++ pyExcMsg e] }) ∧
      ((some (PyExc.fileExists ["root", ".winbak_tmp"]) : Option PyExc) = none →
        logF = ⟨[], [], [], 0, 1⟩ ∧
        r = (if (⟨[], [], [], 0, 1⟩ : SummaryLog).errors = [] then (0 : Int) else 1)) ∧
      (c9FS (relParentOf zC8.path ++ [reportFileName wEnv]) = none →
        (relParentOf zC8.path = [] ∨ c9FS (relParentOf zC8.path) = some FNode.dir) →
        (logWrite wEnv logF (relParentOf zC8.path) c9FS)
            (relParentOf zC8.path ++ [reportFileName wEnv]) =
          some (FNode.file (strBytes (joinLines (summaryLines logF))))) :=
  claim_C9_theorem wEnv zC8 [] c9FS c9FS c9FS ⟨[], [], [], 0, 1⟩
    (some (PyExc.fileExists ["root", ".winbak_tmp"])) rfl rfl

/-! ## Claim C1: the counterexample -/

/-- Counterexample to claim C1: one archive with two entries — an ordinary
LogicalFile `evil` and one whose path `.winbak_tmp/evil.part_0001` lies
inside the staging directory. No destination pre-exists, extraction raises
nothing, merging raises nothing — yet the colliding LogicalFile ends with no
destination file at all: the overwrite guard mistakes `evil`'s staged
fragment for that destination and skips the merge, and `evil`'s own merge
then consumes the path. -/
theorem claim_C1_counterexample :
    (stageExtract wEnv [zAdv] ["root"] c1FS0 wLog0).2 = none ∧
    c1Stage.log.errors = [] ∧
    (mergeParts wEnv c1Stage.pm ["root"] c1Stage.fs c1Stage.log).2 = none ∧
    c1FS0 (["root"] ++ [".winbak_tmp", "evil.part_0001"]) = none ∧
    c1FS0 (["root"] ++ ["evil"]) = none ∧
    c1Run.fs (["root"] ++ [".winbak_tmp", "evil.part_0001"]) = none ∧
    c1Run.fs (["root"] ++ ["evil"]) = some (FNode.file [2]) :=
  ⟨rfl, rfl, rfl, rfl, rfl, rfl, rfl⟩

/-! ## Claim C1: path, name and fragment lemmas -/

theorem prefix_split {α : Type} {pre A B : List α} (h : pre <+: A ++ B) :
    pre <+: A ∨ ∃ p, pre = A ++ p ∧ p <+: B := by
  rcases Nat.le_total pre.length A.length with hle | hle
  · exact Or.inl (List.prefix_of_prefix_length_le h (List.prefix_append A B) hle)
  · have hA : A <+: pre := List.prefix_of_prefix_length_le (List.prefix_append A B) h hle
    obtain ⟨u, hu⟩ := hA
    refine Or.inr ⟨u, hu.symm, ?_⟩
    rw [← hu] at h
    exact (List.prefix_append_right_inj A).mp h

theorem isPrefixOf_false_of_lt {A B : FPath} (h : B.length < A.length) :
    A.isPrefixOf B = false := by
  cases hp : A.isPrefixOf B
  · rfl
  · exact absurd (List.isPrefixOf_iff_prefix.mp hp).length_le (by omega)

theorem concat_path_inj {A B : FPath} {x y : String} (h : A ++ [x] = B ++ [y]) :
    A = B ∧ x = y :=
  List.concat_inj.mp (by simpa [List.concat_eq_append] using h)

theorem headD_of_prefix {p r : FPath} (hne : p ≠ []) (h : p <+: r) :
    p.headD "" = r.headD "" := by
  obtain ⟨t, rfl⟩ := h
  cases p with
  | nil => exact absurd rfl hne
  | cons a u => rfl

theorem headD_dropLast {r : FPath} (h : r.dropLast ≠ []) :
    r.dropLast.headD "" = r.headD "" := by
  cases r with
  | nil => simp at h
  | cons a u =>
    cases u with
    | nil => simp at h
    | cons b v => rfl

theorem notUnder_tmp {destRoot r : FPath} (h : r.headD "" ≠ TMP_DIR_NAME) :
    (destRoot ++ [TMP_DIR_NAME]).isPrefixOf (destRoot ++ r) = false := by
  cases hp : (destRoot ++ [TMP_DIR_NAME]).isPrefixOf (destRoot ++ r)
  · rfl
  · exfalso
    have hpre := List.isPrefixOf_iff_prefix.mp hp
    have h2 : ([TMP_DIR_NAME] : FPath) <+: r := (List.prefix_append_right_inj destRoot).mp hpre
    have h3 := headD_of_prefix (by simp) h2
    simp only [List.headD_cons] at h3
    exact h h3.symm

theorem notUnder_of_prefix_root {destRoot p : FPath} (h : p <+: destRoot) :
    (destRoot ++ [TMP_DIR_NAME]).isPrefixOf p = false := by
  refine isPrefixOf_false_of_lt ?_
  have := h.length_le
  rw [List.length_append, List.length_singleton]
  omega

theorem strLast_append (s t : String) (h : t.data ≠ []) :
    (s ++ t).data.getLast? = t.data.getLast? := by
  rw [String.data_append]
  exact List.getLast?_append_of_ne_nil s.data h

theorem partFileName_ne_mergeTmpStr (nm b : String) (i : Nat) :
    b ++ ".__merge_tmp" ≠ partFileName nm i := by
  intro he
  have h1 : (b ++ ".__merge_tmp").data.getLast? = some 'p' := by
    rw [strLast_append _ _ (by decide)]
    decide
  have hpad : (String.mk (pad4 i)).data ≠ [] := pad4_ne_nil i
  have h2 : (partFileName nm i).data.getLast? = (pad4 i).getLast? := by
    unfold partFileName
    rw [strLast_append _ _ hpad]
  have h3 : (pad4 i).getLast? = some ((pad4 i).getLast (pad4_ne_nil i)) :=
    List.getLast?_eq_getLast _ _
  have hdig := pad4_all_digits i _ (List.getLast_mem (pad4_ne_nil i))
  rw [he, h2, h3] at h1
  have hchar : (pad4 i).getLast (pad4_ne_nil i) = 'p' := by
    injection h1.symm with hcc
    exact hcc.symm
  rw [hchar] at hdig
  exact absurd hdig (by decide)

theorem partFileName_has_part (b : String) (i : Nat) :
    lastOccSplit (String.data ".part_") (partFileName b i).data ≠ none := by
  intro hn
  have hself : originalNameOf (partFileName b i) = partFileName b i := by
    unfold originalNameOf
    rw [hn]
  rw [originalNameOf_partFileName] at hself
  have hl := congrArg String.length hself
  unfold partFileName at hl
  rw [String.length_append, String.length_append] at hl
  have h6 : (".part_" : String).length = 6 := rfl
  have hp : 0 < (String.mk (pad4 i)).length := List.length_pos.mpr (pad4_ne_nil i)
  omega

theorem lastOccSplit_app_sep (sep : List Char) (hne : sep ≠ []) :
    ∀ a : List Char, lastOccSplit sep (a ++ sep) ≠ none := by
  intro a
  induction a with
  | nil =>
    rw [List.nil_append]
    cases hsep : sep with
    | nil => exact absurd hsep hne
    | cons c t =>
      show lastOccSplit (c :: t) (c :: t) ≠ none
      unfold lastOccSplit
      cases hr : lastOccSplit (c :: t) t with
      | some ab =>
        obtain ⟨a0, b0⟩ := ab
        simp
      | none =>
        rw [if_pos (isPrefixOf_self (c :: t))]
        simp
  | cons x a2 ih =>
    show lastOccSplit sep (x :: (a2 ++ sep)) ≠ none
    unfold lastOccSplit
    cases hr : lastOccSplit sep (a2 ++ sep) with
    | some ab =>
      obtain ⟨a0, b0⟩ := ab
      simp
    | none => exact absurd hr ih

theorem partFileName_inj {b1 b2 : String} {i j : Nat}
    (h : partFileName b1 i = partFileName b2 j) : b1 = b2 ∧ i = j := by
  have h1 := congrArg originalNameOf h
  rw [originalNameOf_partFileName, originalNameOf_partFileName] at h1
  subst h1
  refine ⟨rfl, ?_⟩
  have hd := congrArg String.data h
  unfold partFileName at hd
  simp only [String.data_append] at hd
  have h2 := List.append_cancel_left hd
  exact pad4_inj h2

theorem fragPath_inj {t r1 r2 : FPath} {i j : Nat}
    (h1 : r1 ≠ []) (h2 : r2 ≠ [])
    (h : fragPath t r1 i = fragPath t r2 j) : r1 = r2 ∧ i = j := by
  unfold fragPath at h
  rw [List.append_assoc, List.append_assoc] at h
  have h3 := List.append_cancel_left h
  obtain ⟨hp, hn⟩ := concat_path_inj h3
  obtain ⟨hb, hij⟩ := partFileName_inj hn
  refine ⟨?_, hij⟩
  rw [← path_decomp h1, ← path_decomp h2, hp, hb]

theorem mem_fragsUpTo {t r : FPath} {m : Nat} {q : FPath} :
    q ∈ fragsUpTo t r m ↔ ∃ i, 1 ≤ i ∧ i ≤ m ∧ q = fragPath t r i := by
  unfold fragsUpTo
  simp only [List.mem_map, List.mem_range]
  constructor
  · rintro ⟨i, hi, rfl⟩
    exact ⟨i + 1, by omega, by omega, rfl⟩
  · rintro ⟨i, hge, hle, rfl⟩
    refine ⟨i - 1, by omega, ?_⟩
    congr 1
    omega

theorem fragsUpTo_length (t r : FPath) (m : Nat) : (fragsUpTo t r m).length = m := by
  unfold fragsUpTo
  rw [List.length_map, List.length_range]

theorem fragsUpTo_succ (t r : FPath) (m : Nat) :
    fragsUpTo t r (m + 1) = fragsUpTo t r m ++ [fragPath t r (m + 1)] := by
  unfold fragsUpTo
  rw [List.range_succ, List.map_append]
  rfl

theorem frag_under_tmp (t r : FPath) (i : Nat) : t.isPrefixOf (fragPath t r i) = true := by
  refine List.isPrefixOf_iff_prefix.mpr ⟨relParentOf r ++ [partFileName (relNameOf r) i], ?_⟩
  unfold fragPath
  rw [List.append_assoc]

theorem frag_ne_tmp_chain {K : List String} {relMap : String → FPath}
    (hP : C1Paths K relMap) {k kk : String}
    (hkk : kk ∈ K) (i : Nat) {t p : FPath}
    (hp : p.isPrefixOf (relParentOf (relMap kk)) = true) :
    fragPath t (relMap k) i ≠ t ++ p := by
  intro he
  unfold fragPath at he
  rw [List.append_assoc] at he
  have h2 : relParentOf (relMap k) ++ [partFileName (relNameOf (relMap k)) i] = p :=
    List.append_cancel_left he
  have hmem : partFileName (relNameOf (relMap k)) i ∈ p := by
    rw [← h2]
    exact List.mem_append_right _ (List.mem_singleton_self _)
  have hmem2 : partFileName (relNameOf (relMap k)) i ∈ relParentOf (relMap kk) :=
    (List.isPrefixOf_iff_prefix.mp hp).subset hmem
  exact partFileName_has_part _ _ (hP.hcomp kk hkk _ hmem2).1

theorem tmpMerge_ne_tmp_chain {K : List String} {relMap : String → FPath}
    (hP : C1Paths K relMap) {k kk : String}
    (hkk : kk ∈ K) {t p : FPath}
    (hp : p.isPrefixOf (relParentOf (relMap kk)) = true) :
    t ++ relParentOf (relMap k) ++ [relNameOf (relMap k) ++ ".__merge_tmp"] ≠ t ++ p := by
  intro he
  rw [List.append_assoc] at he
  have h2 : relParentOf (relMap k) ++ [relNameOf (relMap k) ++ ".__merge_tmp"] = p :=
    List.append_cancel_left he
  have hmem : relNameOf (relMap k) ++ ".__merge_tmp" ∈ p := by
    rw [← h2]
    exact List.mem_append_right _ (List.mem_singleton_self _)
  have hmem2 : relNameOf (relMap k) ++ ".__merge_tmp" ∈ relParentOf (relMap kk) :=
    (List.isPrefixOf_iff_prefix.mp hp).subset hmem
  have hnone := (hP.hcomp kk hkk _ hmem2).2
  have hd : (relNameOf (relMap k) ++ ".__merge_tmp").data =
      (relNameOf (relMap k)).data ++ String.data ".__merge_tmp" := String.data_append _ _
  rw [hd] at hnone
  exact lastOccSplit_app_sep (String.data ".__merge_tmp") (by decide) _ hnone

theorem tmpMerge_ne_frag {t r1 r2 : FPath} {i : Nat} :
    t ++ relParentOf r1 ++ [relNameOf r1 ++ ".__merge_tmp"] ≠ fragPath t r2 i := by
  intro he
  unfold fragPath at he
  rw [List.append_assoc, List.append_assoc] at he
  have h2 := List.append_cancel_left he
  obtain ⟨-, hn⟩ := concat_path_inj h2
  exact partFileName_ne_mergeTmpStr _ _ _ hn

theorem fsDel_none {fs : FS} {p : FPath} (h : fs p = none) : fsDel fs p = fs := by
  funext q
  by_cases hq : q = p
  · subst hq
    rw [fsDel_self, h]
  · exact fsDel_other _ _ hq

theorem fsDel_fsSet (fs : FS) (p : FPath) (v : FNode) :
    fsDel (fsSet fs p v) p = fsDel fs p := by
  funext q
  by_cases hq : q = p
  · subst hq
    rw [fsDel_self, fsDel_self]
  · rw [fsDel_other _ _ hq, fsDel_other _ _ hq, fsSet_other _ _ _ hq]

theorem mkdirAux_ok (comps : List String) :
    ∀ (fs : FS) (base : FPath),
      (∀ pre, pre ≠ [] → pre.isPrefixOf comps = true →
        fs (base ++ pre) = none ∨ fs (base ++ pre) = some FNode.dir) →
      (mkdirAux fs base comps).2 = none := by
  induction comps with
  | nil =>
    intro fs base _
    rfl
  | cons c rest ih =>
    intro fs base h
    have hc := h [c] (by simp) (by simp [List.isPrefixOf])
    unfold mkdirAux
    rcases hc with hc | hc
    · rw [hc]
      refine ih _ (base ++ [c]) ?_
      intro pre hne hpre
      have h2 := h (c :: pre) (by simp)
        ((isPrefixOf_cons_iff (c :: pre) c rest).mpr (Or.inr ⟨pre, rfl, hpre⟩))
      have ha : base ++ (c :: pre) = (base ++ [c]) ++ pre := by
        rw [List.append_assoc]
        rfl
      rw [ha] at h2
      have hne2 : (base ++ [c]) ++ pre ≠ base ++ [c] := by
        intro he
        have := congrArg List.length he
        rw [List.length_append] at this
        have : pre.length = 0 := by omega
        exact hne (List.length_eq_zero.mp this)
      rw [fsSet_other _ _ _ hne2]
      exact h2
    · rw [hc]
      refine ih fs (base ++ [c]) ?_
      intro pre hne hpre
      have h2 := h (c :: pre) (by simp)
        ((isPrefixOf_cons_iff (c :: pre) c rest).mpr (Or.inr ⟨pre, rfl, hpre⟩))
      have ha : base ++ (c :: pre) = (base ++ [c]) ++ pre := by
        rw [List.append_assoc]
        rfl
      rw [ha] at h2
      exact h2

theorem mkdirP_ok {fs : FS} {p : FPath}
    (h : ∀ pre, pre ≠ [] → pre.isPrefixOf p = true →
      fs pre = none ∨ fs pre = some FNode.dir) :
    mkdirP fs p = ((mkdirP fs p).1, none) := by
  refine Prod.ext rfl ?_
  show (mkdirP fs p).2 = none
  unfold mkdirP
  refine mkdirAux_ok p fs [] ?_
  intro pre hne hpre
  simpa using h pre hne hpre

theorem mkdirP_ok_dirs {fs fs2 : FS} {p : FPath} (heq : mkdirP fs p = (fs2, none)) :
    ∀ pre, pre ≠ [] → pre.isPrefixOf p = true → fs2 pre = some FNode.dir := by
  intro pre hne hpre
  simpa using mkdirAux_ok_dirs p fs fs2 [] heq pre hne hpre

theorem mkdirP_frame {fs : FS} {p : FPath} (q : FPath)
    (h : ∀ pre, pre ≠ [] → pre.isPrefixOf p = true → q ≠ pre) :
    (mkdirP fs p).1 q = fs q := by
  unfold mkdirP
  refine mkdirAux_frame p fs [] q ?_
  intro pre hne hpre
  simpa using h pre hne hpre

theorem mkdirP_dir_mono {fs : FS} {p : FPath} (q : FPath) (h : fs q = some FNode.dir) :
    (mkdirP fs p).1 q = some FNode.dir :=
  mkdirAux_dir_mono p fs [] q h

theorem pmLookup_none_iff (pm : PartsMap) (k : String) :
    pmLookup pm k = none ↔ k ∉ pm.map Prod.fst := by
  induction pm with
  | nil => simp [pmLookup]
  | cons hd t ih =>
    obtain ⟨k0, l0⟩ := hd
    by_cases h : k0 = k
    · subst h
      simp [pmLookup]
    · simp only [pmLookup, if_neg h, List.map_cons, List.mem_cons, ih]
      constructor
      · intro hn
        rintro (he | hm)
        · exact h he.symm
        · exact hn hm
      · intro hn hm
        exact hn (Or.inr hm)

theorem pmKeys_pmEnsure (pm : PartsMap) (k : String) :
    (pmEnsure pm k).map Prod.fst =
      if k ∈ pm.map Prod.fst then pm.map Prod.fst else pm.map Prod.fst ++ [k] := by
  induction pm with
  | nil => simp [pmEnsure]
  | cons hd t ih =>
    obtain ⟨k0, l0⟩ := hd
    by_cases h : k0 = k
    · subst h
      simp [pmEnsure]
    · have hne : ¬(k = k0) := fun he => h he.symm
      simp only [pmEnsure, if_neg h, List.map_cons, ih, List.mem_cons]
      by_cases hm : k ∈ t.map Prod.fst
      · simp [hm, hne]
      · simp [hm, hne]

theorem pmKeys_pmAppend (pm : PartsMap) (k : String) (p : FPath) :
    (pmAppend pm k p).map Prod.fst =
      if k ∈ pm.map Prod.fst then pm.map Prod.fst else pm.map Prod.fst ++ [k] := by
  induction pm with
  | nil => simp [pmAppend]
  | cons hd t ih =>
    obtain ⟨k0, l0⟩ := hd
    by_cases h : k0 = k
    · subst h
      simp [pmAppend]
    · have hne : ¬(k = k0) := fun he => h he.symm
      simp only [pmAppend, if_neg h, List.map_cons, ih, List.mem_cons]
      by_cases hm : k ∈ t.map Prod.fst
      · simp [hm, hne]
      · simp [hm, hne]

theorem pmLookup_of_mem_nodup {pm : PartsMap} {k : String} {l : List FPath}
    (hnd : (pm.map Prod.fst).Nodup) (hm : (k, l) ∈ pm) : pmLookup pm k = some l := by
  induction pm with
  | nil => cases hm
  | cons hd t ih =>
    obtain ⟨k0, l0⟩ := hd
    rcases List.mem_cons.mp hm with he | hm2
    · rw [Prod.mk.injEq] at he
      obtain ⟨he1, he2⟩ := he
      subst he1
      subst he2
      simp [pmLookup]
    · have hnd2 := List.nodup_cons.mp hnd
      have hk : k0 ≠ k := by
        intro he
        subst he
        exact hnd2.1 (List.mem_map.mpr ⟨(k0, l), hm2, rfl⟩)
      simp only [pmLookup, if_neg hk]
      exact ih hnd2.2 hm2

theorem prefix_antisymm {A B : FPath} (h1 : A <+: B) (h2 : B <+: A) : A = B :=
  List.Sublist.antisymm h1.sublist h2.sublist

theorem prefix_concat_cases {pre A : FPath} {x : String} (h : pre <+: A ++ [x]) :
    pre <+: A ∨ pre = A ++ [x] := by
  rcases prefix_split h with h1 | ⟨p, rfl, hp⟩
  · exact Or.inl h1
  · obtain ⟨t, ht⟩ := hp
    cases p with
    | nil => exact Or.inl (by simp)
    | cons a u =>
      injection ht with ht1 ht2
      subst ht1
      obtain ⟨hu, -⟩ := List.append_eq_nil.mp ht2
      subst hu
      exact Or.inr rfl

theorem isPrefixOf_append_left {A p B : FPath} (h : p.isPrefixOf B = true) :
    (A ++ p).isPrefixOf (A ++ B) = true :=
  List.isPrefixOf_iff_prefix.mpr
    ((List.prefix_append_right_inj A).mpr (List.isPrefixOf_iff_prefix.mp h))

theorem relMap_inj_of_paths {K : List String} {relMap : String → FPath}
    (hP : C1Paths K relMap) {k kk : String}
    (hk : k ∈ K) (hkk : kk ∈ K) (he : relMap k = relMap kk) : k = kk := by
  by_contra hne
  have hfalse := hP.hpf k hk kk hkk hne
  rw [he, isPrefixOf_self] at hfalse
  cases hfalse

theorem StInv_congrK {fs0 : FS} {tmpRoot : FPath} {K : List String}
    {relMap : String → FPath} {content : Nat → String → Bytes}
    {c c2 : String → Nat} {st : StageSt}
    (inv : StInv fs0 tmpRoot K relMap content c st)
    (hcc : ∀ k ∈ K, c k = c2 k) :
    StInv fs0 tmpRoot K relMap content c2 st := by
  refine ⟨?_, ?_, inv.pmnd, inv.frame, inv.tmpdir, ?_, ?_, ?_, ?_⟩
  · intro k hk
    rcases hk with hk | hk
    · exact inv.pm0 k (Or.inl hk)
    · by_cases hmem : k ∈ K
      · exact inv.pm0 k (Or.inr (by rw [hcc k hmem]; exact hk))
      · exact inv.pm0 k (Or.inl hmem)
  · intro k hk h1
    rw [← hcc k hk] at h1 ⊢
    exact inv.pm1 k hk h1
  · intro k hk h1 p hp
    rw [← hcc k hk] at h1
    exact inv.kdirs k hk h1 p hp
  · intro k hk i h1 h2
    rw [← hcc k hk] at h2
    exact inv.frags k hk i h1 h2
  · intro q b hq hf
    obtain ⟨k, hk, i, h1, h2, he⟩ := inv.filesOnly q b hq hf
    exact ⟨k, hk, i, h1, by rw [← hcc k hk]; exact h2, he⟩
  · intro q hq hf
    rcases inv.dirsOnly q hq hf with h | ⟨k, hk, h1, p, hp1, hp2, hp3⟩
    · exact Or.inl h
    · exact Or.inr ⟨k, hk, by rw [← hcc k hk]; exact h1, p, hp1, hp2, hp3⟩

theorem stageEntry_ok (env : Env) (fs0 : FS) (tmpRoot : FPath)
    (K : List String) (relMap : String → FPath) (content : Nat → String → Bytes)
    (hP : C1Paths K relMap)
    (hroot0 : ∀ pre, pre ≠ [] → pre <+: tmpRoot → pre ≠ tmpRoot → fs0 pre = some FNode.dir)
    (c : String → Nat) (st : StageSt)
    (inv : StInv fs0 tmpRoot K relMap content c st)
    (e : ZipEntryInfo) (k : String) (a : Nat)
    (hkey : entryKey env e = k)
    (hk : k ∈ K)
    (hd : entryIsDir e = false)
    (hr : entryRel env e = relMap k)
    (hb : e.data = content a k)
    (hc : c k = a) :
    stageEntry env tmpRoot st e =
      (⟨pmAppend (pmEnsure st.pm k) k (fragPath tmpRoot (relMap k) (c k + 1)),
        fsSet (mkdirP st.fs (tmpRoot ++ relParentOf (relMap k))).1
          (fragPath tmpRoot (relMap k) (c k + 1)) (FNode.file e.data),
        { st.log with extractedPartsCount := st.log.extractedPartsCount + 1 }⟩, none) ∧
    StInv fs0 tmpRoot K relMap content
      (fun kk => if kk = k then c kk + 1 else c kk)
      ⟨pmAppend (pmEnsure st.pm k) k (fragPath tmpRoot (relMap k) (c k + 1)),
       fsSet (mkdirP st.fs (tmpRoot ++ relParentOf (relMap k))).1
         (fragPath tmpRoot (relMap k) (c k + 1)) (FNode.file e.data),
       { st.log with extractedPartsCount := st.log.extractedPartsCount + 1 }⟩ := by
  have hrne := hP.hrne k hk
  have hchain : ∀ pre, pre ≠ [] →
      pre.isPrefixOf (tmpRoot ++ relParentOf (relMap k)) = true →
      st.fs pre = none ∨ st.fs pre = some FNode.dir := by
    intro pre hne hpre
    rcases prefix_split (List.isPrefixOf_iff_prefix.mp hpre) with h1 | ⟨p, rfl, hp⟩
    · by_cases he : pre = tmpRoot
      · subst he
        exact Or.inr inv.tmpdir
      · have hle := h1.length_le
        have hlt : pre.length < tmpRoot.length := by
          rcases Nat.lt_or_ge pre.length tmpRoot.length with h | h
          · exact h
          · exfalso
            obtain ⟨u, hu⟩ := h1
            have hlu := congrArg List.length hu
            rw [List.length_append] at hlu
            have hu0 : u = [] := List.length_eq_zero.mp (by omega)
            subst hu0
            rw [List.append_nil] at hu
            exact he hu
        refine Or.inr ?_
        rw [inv.frame pre (isPrefixOf_false_of_lt hlt)]
        exact hroot0 pre hne h1 he
    · cases p with
      | nil =>
        rw [List.append_nil]
        exact Or.inr inv.tmpdir
      | cons x xs =>
        have hunder : tmpRoot.isPrefixOf (tmpRoot ++ (x :: xs)) = true :=
          List.isPrefixOf_iff_prefix.mpr ⟨x :: xs, rfl⟩
        cases hv : st.fs (tmpRoot ++ (x :: xs)) with
        | none => exact Or.inl rfl
        | some v =>
          cases v with
          | dir => exact Or.inr rfl
          | file b =>
            exfalso
            obtain ⟨k2, hk2, i, h1i, h2i, he⟩ := inv.filesOnly _ b hunder hv
            exact frag_ne_tmp_chain hP hk i (List.isPrefixOf_iff_prefix.mpr hp) he.symm
  have hmk := mkdirP_ok hchain
  have hf1dirs := mkdirP_ok_dirs hmk
  have hppath_eq : pathJoin1 (tmpRoot ++ relParentOf (relMap k))
      (partFileName (relNameOf (relMap k)) (c k + 1)) =
      fragPath tmpRoot (relMap k) (c k + 1) := by
    unfold pathJoin1 fragPath
    rw [if_neg (partFileName_ne_empty _ _)]
  have hnotchain_pp : ∀ pre, pre ≠ [] →
      pre.isPrefixOf (tmpRoot ++ relParentOf (relMap k)) = true →
      fragPath tmpRoot (relMap k) (c k + 1) ≠ pre := by
    intro pre hne hpre he
    have hl := (List.isPrefixOf_iff_prefix.mp hpre).length_le
    have hlf := congrArg List.length he
    unfold fragPath at hlf
    simp only [List.length_append, List.length_singleton] at hlf hl
    omega
  have hf1pp : (mkdirP st.fs (tmpRoot ++ relParentOf (relMap k))).1
      (fragPath tmpRoot (relMap k) (c k + 1)) =
      st.fs (fragPath tmpRoot (relMap k) (c k + 1)) :=
    mkdirP_frame _ hnotchain_pp
  have hfrag_ne_tmpRoot : ∀ (i : Nat) (kk : String),
      fragPath tmpRoot (relMap kk) i ≠ tmpRoot := by
    intro i kk he
    have := congrArg List.length he
    unfold fragPath at this
    simp only [List.length_append, List.length_singleton] at this
    omega
  have hppnotdir : st.fs (fragPath tmpRoot (relMap k) (c k + 1)) ≠ some FNode.dir := by
    intro hv
    rcases inv.dirsOnly _ (frag_under_tmp _ _ _) hv with h | ⟨k2, hk2, h1, p, hp1, hp2, hp3⟩
    · exact hfrag_ne_tmpRoot _ _ h
    · exact frag_ne_tmp_chain hP hk2 (c k + 1) hp2 hp3
  have hwrite : writeFile (mkdirP st.fs (tmpRoot ++ relParentOf (relMap k))).1
      (fragPath tmpRoot (relMap k) (c k + 1)) e.data =
      (fsSet (mkdirP st.fs (tmpRoot ++ relParentOf (relMap k))).1
        (fragPath tmpRoot (relMap k) (c k + 1)) (FNode.file e.data), none) := by
    refine writeFile_ok _ ?_ ?_ ?_
    · rw [hf1pp]
      exact hppnotdir
    · unfold fragPath
      simp
    · have hdl : (fragPath tmpRoot (relMap k) (c k + 1)).dropLast =
          tmpRoot ++ relParentOf (relMap k) := by
        unfold fragPath
        exact List.dropLast_concat
      rw [hdl]
      cases hpd : tmpRoot ++ relParentOf (relMap k) with
      | nil => exact Or.inl rfl
      | cons y ys =>
        refine Or.inr ?_
        rw [← hpd]
        exact hf1dirs _ (by rw [hpd]; simp) (isPrefixOf_self _)
  have hgetD : (pmLookup (pmEnsure st.pm k) k).getD [] =
      fragsUpTo tmpRoot (relMap k) (c k) := by
    rw [pmLookup_pmEnsure, if_pos rfl]
    simp only [Option.getD_some]
    by_cases h0 : c k = 0
    · rw [inv.pm0 k (Or.inr h0), h0]
      rfl
    · rw [inv.pm1 k hk (by omega)]
      rfl
  have hlen : ((pmLookup (pmEnsure st.pm k) k).getD []).length = c k := by
    rw [hgetD, fragsUpTo_length]
  have hmain : stageEntry env tmpRoot st e =
      (⟨pmAppend (pmEnsure st.pm k) k (fragPath tmpRoot (relMap k) (c k + 1)),
        fsSet (mkdirP st.fs (tmpRoot ++ relParentOf (relMap k))).1
          (fragPath tmpRoot (relMap k) (c k + 1)) (FNode.file e.data),
        { st.log with extractedPartsCount := st.log.extractedPartsCount + 1 }⟩, none) := by
    simp only [stageEntry, hd, hkey, hr, Bool.false_eq_true, if_false]
    rw [hlen, hppath_eq, hmk]
    dsimp only
    rw [hwrite]
  refine ⟨hmain, ?_, ?_, ?_, ?_, ?_, ?_, ?_, ?_, ?_⟩
  · -- pm0
    intro kk hkk
    show pmLookup (pmAppend (pmEnsure st.pm k) k _) kk = none
    rw [pmLookup_pmAppend]
    by_cases he : k = kk
    · subst he
      exfalso
      rcases hkk with hkk | hkk
      · exact hkk hk
      · simp at hkk
    · rw [if_neg he, pmLookup_pmEnsure, if_neg he]
      refine inv.pm0 kk ?_
      rcases hkk with hkk | hkk
      · exact Or.inl hkk
      · rw [if_neg (fun hcc => he hcc.symm)] at hkk
        exact Or.inr hkk
  · -- pm1
    intro kk hkk h1
    show pmLookup (pmAppend (pmEnsure st.pm k) k _) kk = _
    rw [pmLookup_pmAppend]
    by_cases he : k = kk
    · subst he
      rw [if_pos rfl, hgetD, ← fragsUpTo_succ]
      simp
    · rw [if_neg he, pmLookup_pmEnsure, if_neg he]
      rw [if_neg (fun hcc => he hcc.symm)] at h1 ⊢
      exact inv.pm1 kk hkk h1
  · -- pmnd
    show ((pmAppend (pmEnsure st.pm k) k _).map Prod.fst).Nodup
    rw [pmKeys_pmAppend, pmKeys_pmEnsure]
    have hkm : k ∈ (pmEnsure st.pm k).map Prod.fst := by
      rw [pmKeys_pmEnsure]
      by_cases hm : k ∈ st.pm.map Prod.fst
      · rw [if_pos hm]
        exact hm
      · rw [if_neg hm]
        exact List.mem_append_right _ (List.mem_singleton_self _)
    rw [pmKeys_pmEnsure] at hkm
    rw [if_pos hkm]
    by_cases hm : k ∈ st.pm.map Prod.fst
    · rw [if_pos hm]
      exact inv.pmnd
    · rw [if_neg hm]
      simp only [List.nodup_append, List.nodup_cons, List.nodup_nil]
      exact ⟨inv.pmnd, ⟨by simp, trivial⟩, by simp [List.disjoint_singleton, hm]⟩
  · -- frame
    intro q hq
    show fsSet _ _ _ q = fs0 q
    have hqpp : q ≠ fragPath tmpRoot (relMap k) (c k + 1) := by
      intro he
      rw [he, frag_under_tmp] at hq
      cases hq
    rw [fsSet_other _ _ _ hqpp]
    by_cases hin : ∃ pre, pre ≠ [] ∧
        pre.isPrefixOf (tmpRoot ++ relParentOf (relMap k)) = true ∧ q = pre
    · obtain ⟨pre, hne, hpre, rfl⟩ := hin
      rcases prefix_split (List.isPrefixOf_iff_prefix.mp hpre) with h1 | ⟨p, hpp, hp⟩
      · have hne2 : q ≠ tmpRoot := by
          intro he
          rw [he, isPrefixOf_self] at hq
          cases hq
        have hst : st.fs q = some FNode.dir := by
          rw [inv.frame q hq]
          exact hroot0 q hne h1 hne2
        rw [mkdirP_dir_mono _ hst, ← inv.frame q hq]
        exact hst.symm
      · exfalso
        have hup : tmpRoot.isPrefixOf q = true := by
          rw [hpp]
          exact List.isPrefixOf_iff_prefix.mpr ⟨p, rfl⟩
        rw [hup] at hq
        cases hq
    · push_neg at hin
      rw [mkdirP_frame _ (fun pre hne hpre => hin pre hne hpre)]
      exact inv.frame q hq
  · -- tmpdir
    show fsSet _ _ _ tmpRoot = some FNode.dir
    rw [fsSet_other _ _ _ (fun he => hfrag_ne_tmpRoot _ _ he.symm)]
    exact mkdirP_dir_mono _ inv.tmpdir
  · -- kdirs
    intro kk hkk h1 p hp
    show fsSet _ _ _ (tmpRoot ++ p) = some FNode.dir
    have hqpp : tmpRoot ++ p ≠ fragPath tmpRoot (relMap k) (c k + 1) :=
      fun he => frag_ne_tmp_chain hP hkk (c k + 1) hp he.symm
    rw [fsSet_other _ _ _ hqpp]
    by_cases he : kk = k
    · subst he
      by_cases hpz : p = []
      · rw [hpz, List.append_nil]
        exact mkdirP_dir_mono _ inv.tmpdir
      · refine hf1dirs (tmpRoot ++ p) ?_ (isPrefixOf_append_left hp)
        intro he2
        exact hpz (List.append_eq_nil.mp he2).2
    · rw [if_neg (fun hcc => he hcc)] at h1
      exact mkdirP_dir_mono _ (inv.kdirs kk hkk h1 p hp)
  · -- frags
    intro kk hkk i h1 h2
    show fsSet _ _ _ (fragPath tmpRoot (relMap kk) i) = _
    by_cases he : kk = k
    · subst he
      rw [if_pos rfl] at h2
      by_cases hi : i = c kk + 1
      · subst hi
        rw [fsSet_self]
        rw [(show c kk + 1 - 1 = a by omega), hb]
      · have hij : fragPath tmpRoot (relMap kk) i ≠
            fragPath tmpRoot (relMap kk) (c kk + 1) := by
          intro he2
          exact hi (fragPath_inj hrne hrne he2).2
        rw [fsSet_other _ _ _ hij]
        have hnc : ∀ pre, pre ≠ [] →
            pre.isPrefixOf (tmpRoot ++ relParentOf (relMap kk)) = true →
            fragPath tmpRoot (relMap kk) i ≠ pre := by
          intro pre hne hpre he2
          rcases prefix_split (List.isPrefixOf_iff_prefix.mp hpre) with hc1 | ⟨p, hpp, hp⟩
          · have hl := hc1.length_le
            have hlf := congrArg List.length he2
            unfold fragPath at hlf
            simp only [List.length_append, List.length_singleton] at hlf hl
            omega
          · subst hpp
            exact frag_ne_tmp_chain hP hk i (List.isPrefixOf_iff_prefix.mpr hp) he2
        rw [mkdirP_frame _ hnc]
        exact inv.frags kk hkk i h1 (by omega)
    · rw [if_neg he] at h2
      have hij : fragPath tmpRoot (relMap kk) i ≠
          fragPath tmpRoot (relMap k) (c k + 1) := by
        intro he2
        obtain ⟨hr2, -⟩ := fragPath_inj (hP.hrne kk hkk) hrne he2
        exact he (relMap_inj_of_paths hP hkk hk hr2)
      rw [fsSet_other _ _ _ hij]
      have hnc : ∀ pre, pre ≠ [] →
          pre.isPrefixOf (tmpRoot ++ relParentOf (relMap k)) = true →
          fragPath tmpRoot (relMap kk) i ≠ pre := by
        intro pre hne hpre he2
        rcases prefix_split (List.isPrefixOf_iff_prefix.mp hpre) with hc1 | ⟨p, hpp, hp⟩
        · have hl := hc1.length_le
          have hlf := congrArg List.length he2
          unfold fragPath at hlf
          simp only [List.length_append, List.length_singleton] at hlf hl
          omega
        · subst hpp
          exact frag_ne_tmp_chain hP hk i (List.isPrefixOf_iff_prefix.mpr hp) he2
      rw [mkdirP_frame _ hnc]
      exact inv.frags kk hkk i h1 h2
  · -- filesOnly
    intro q b hq hf
    by_cases he : q = fragPath tmpRoot (relMap k) (c k + 1)
    · refine ⟨k, hk, c k + 1, by omega, ?_, by rw [he]⟩
      rw [if_pos rfl]
    · rw [show (⟨pmAppend (pmEnsure st.pm k) k (fragPath tmpRoot (relMap k) (c k + 1)),
          fsSet (mkdirP st.fs (tmpRoot ++ relParentOf (relMap k))).1
            (fragPath tmpRoot (relMap k) (c k + 1)) (FNode.file e.data),
          { st.log with extractedPartsCount := st.log.extractedPartsCount + 1 }⟩ : StageSt).fs =
          fsSet (mkdirP st.fs (tmpRoot ++ relParentOf (relMap k))).1
            (fragPath tmpRoot (relMap k) (c k + 1)) (FNode.file e.data) from rfl,
        fsSet_other _ _ _ he] at hf
      by_cases hin : ∃ pre, pre ≠ [] ∧
          pre.isPrefixOf (tmpRoot ++ relParentOf (relMap k)) = true ∧ q = pre
      · obtain ⟨pre, hne, hpre, rfl⟩ := hin
        rw [hf1dirs q hne hpre] at hf
        cases hf
      · push_neg at hin
        rw [mkdirP_frame _ (fun pre hne hpre => hin pre hne hpre)] at hf
        obtain ⟨k2, hk2, i, h1i, h2i, he2⟩ := inv.filesOnly q b hq hf
        refine ⟨k2, hk2, i, h1i, ?_, he2⟩
        by_cases hk2e : k2 = k
        · rw [if_pos hk2e]
          omega
        · rw [if_neg hk2e]
          exact h2i
  · -- dirsOnly
    intro q hq hf
    have hqpp : q ≠ fragPath tmpRoot (relMap k) (c k + 1) := by
      intro he
      rw [show (⟨pmAppend (pmEnsure st.pm k) k (fragPath tmpRoot (relMap k) (c k + 1)),
          fsSet (mkdirP st.fs (tmpRoot ++ relParentOf (relMap k))).1
            (fragPath tmpRoot (relMap k) (c k + 1)) (FNode.file e.data),
          { st.log with extractedPartsCount := st.log.extractedPartsCount + 1 }⟩ : StageSt).fs =
          fsSet (mkdirP st.fs (tmpRoot ++ relParentOf (relMap k))).1
            (fragPath tmpRoot (relMap k) (c k + 1)) (FNode.file e.data) from rfl,
        he, fsSet_self] at hf
      cases hf
    rw [show (⟨pmAppend (pmEnsure st.pm k) k (fragPath tmpRoot (relMap k) (c k + 1)),
        fsSet (mkdirP st.fs (tmpRoot ++ relParentOf (relMap k))).1
          (fragPath tmpRoot (relMap k) (c k + 1)) (FNode.file e.data),
        { st.log with extractedPartsCount := st.log.extractedPartsCount + 1 }⟩ : StageSt).fs =
        fsSet (mkdirP st.fs (tmpRoot ++ relParentOf (relMap k))).1
          (fragPath tmpRoot (relMap k) (c k + 1)) (FNode.file e.data) from rfl,
      fsSet_other _ _ _ hqpp] at hf
    by_cases hin : ∃ pre, pre ≠ [] ∧
        pre.isPrefixOf (tmpRoot ++ relParentOf (relMap k)) = true ∧ q = pre
    · obtain ⟨pre, hne, hpre, rfl⟩ := hin
      rcases prefix_split (List.isPrefixOf_iff_prefix.mp hpre) with h1 | ⟨p, hpp, hp⟩
      · exact Or.inl (prefix_antisymm (List.isPrefixOf_iff_prefix.mp hq) h1).symm
      · subst hpp
        cases p with
        | nil => exact Or.inl (by rw [List.append_nil])
        | cons x xs =>
          refine Or.inr ⟨k, hk, ?_, x :: xs, by simp,
            List.isPrefixOf_iff_prefix.mpr hp, rfl⟩
          rw [if_pos rfl]
          omega
    · push_neg at hin
      rw [mkdirP_frame _ (fun pre hne hpre => hin pre hne hpre)] at hf
      rcases inv.dirsOnly q hq hf with h | ⟨k2, hk2, h1, p, hp1, hp2, hp3⟩
      · exact Or.inl h
      · refine Or.inr ⟨k2, hk2, ?_, p, hp1, hp2, hp3⟩
        by_cases hk2e : k2 = k
        · rw [if_pos hk2e]
          omega
        · rw [if_neg hk2e]
          exact h1

theorem stageZip_ok (env : Env) (fs0 : FS) (tmpRoot : FPath)
    (K : List String) (relMap : String → FPath) (content : Nat → String → Bytes)
    (hP : C1Paths K relMap)
    (hroot0 : ∀ pre, pre ≠ [] → pre <+: tmpRoot → pre ≠ tmpRoot → fs0 pre = some FNode.dir)
    (a : Nat) :
    ∀ (entries : List ZipEntryInfo) (st : StageSt) (c : String → Nat),
      StInv fs0 tmpRoot K relMap content c st →
      (∀ e ∈ entries, entryIsDir e = false) →
      (∀ e ∈ entries, entryRel env e = relMap (entryKey env e)) →
      (∀ e ∈ entries, e.data = content a (entryKey env e)) →
      (∀ e ∈ entries, entryKey env e ∈ K) →
      ((entries.map (fun e => entryKey env e)).Nodup) →
      (∀ e ∈ entries, c (entryKey env e) = a) →
      ∃ st2, stageZip env tmpRoot st entries = (st2, none) ∧
        StInv fs0 tmpRoot K relMap content
          (fun kk => if kk ∈ entries.map (fun e => entryKey env e) then c kk + 1 else c kk)
          st2 := by
  intro entries
  induction entries with
  | nil =>
    intro st c inv _ _ _ _ _ _
    refine ⟨st, rfl, StInv_congrK inv ?_⟩
    intro kk _
    simp
  | cons e rest ih =>
    intro st c inv hd hr hb hkmem hnd hca
    obtain ⟨hmain, inv2⟩ := stageEntry_ok env fs0 tmpRoot K relMap content hP hroot0 c st inv
      e (entryKey env e) a rfl (hkmem e (List.mem_cons_self e rest))
      (hd e (List.mem_cons_self e rest)) (hr e (List.mem_cons_self e rest))
      (hb e (List.mem_cons_self e rest)) (hca e (List.mem_cons_self e rest))
    rw [List.map_cons, List.nodup_cons] at hnd
    obtain ⟨hnotin, hnd2⟩ := hnd
    have hne_tail : ∀ e2 ∈ rest, entryKey env e2 ≠ entryKey env e := by
      intro e2 he2 hee
      exact hnotin (hee ▸ List.mem_map.mpr ⟨e2, he2, rfl⟩)
    obtain ⟨st3, hstep, inv3⟩ := ih _ _ inv2
      (fun e2 he2 => hd e2 (List.mem_cons_of_mem e he2))
      (fun e2 he2 => hr e2 (List.mem_cons_of_mem e he2))
      (fun e2 he2 => hb e2 (List.mem_cons_of_mem e he2))
      (fun e2 he2 => hkmem e2 (List.mem_cons_of_mem e he2))
      hnd2
      (fun e2 he2 => by
        rw [if_neg (hne_tail e2 he2)]
        exact hca e2 (List.mem_cons_of_mem e he2))
    refine ⟨st3, ?_, StInv_congrK inv3 ?_⟩
    · show (match stageEntry env tmpRoot st e with
        | (st2, some ex) => (st2, some ex)
        | (st2, none) => stageZip env tmpRoot st2 rest) = (st3, none)
      rw [hmain]
      exact hstep
    · intro kk _
      rw [List.map_cons]
      by_cases hm : kk ∈ rest.map (fun e2 => entryKey env e2)
      · have hkne : kk ≠ entryKey env e := by
          intro he2
          exact hnotin (he2 ▸ hm)
        rw [if_pos hm, if_neg hkne, if_pos (List.mem_cons_of_mem _ hm)]
      · rw [if_neg hm]
        by_cases hke : kk = entryKey env e
        · rw [if_pos hke, if_pos (hke ▸ List.mem_cons_self _ _)]
        · rw [if_neg hke, if_neg (by
            rw [List.mem_cons]
            rintro (h | h)
            · exact hke h
            · exact hm h)]

theorem stageZips_ok (env : Env) (fs0 : FS) (tmpRoot : FPath)
    (K : List String) (relMap : String → FPath) (content : Nat → String → Bytes)
    (hP : C1Paths K relMap)
    (hroot0 : ∀ pre, pre ≠ [] → pre <+: tmpRoot → pre ≠ tmpRoot → fs0 pre = some FNode.dir) :
    ∀ (zs : List ZipFile) (a : Nat) (st : StageSt) (c : String → Nat),
      StInv fs0 tmpRoot K relMap content c st →
      (∀ k ∈ K, c k = a) →
      (∀ (j : Nat) (z : ZipFile), zs[j]? = some z →
        ((z.entries.map (fun e => entryKey env e)).Perm K ∧
         (∀ e ∈ z.entries, entryIsDir e = false) ∧
         (∀ e ∈ z.entries, entryRel env e = relMap (entryKey env e)) ∧
         (∀ e ∈ z.entries, e.data = content (a + j) (entryKey env e)))) →
      ∃ st2, stageZips env tmpRoot zs st = st2 ∧
        StInv fs0 tmpRoot K relMap content
          (fun kk => if kk ∈ K then a + zs.length else c kk) st2 := by
  intro zs
  induction zs with
  | nil =>
    intro a st c inv hclo _
    refine ⟨st, rfl, StInv_congrK inv ?_⟩
    intro kk hkk
    rw [if_pos hkk, hclo kk hkk]
    rfl
  | cons z zs2 ih =>
    intro a st c inv hclo hfacts
    obtain ⟨hperm, hdirs, hrels, hdatas⟩ := hfacts 0 z (by simp)
    have hmem_iff : ∀ kk, kk ∈ z.entries.map (fun e => entryKey env e) ↔ kk ∈ K :=
      fun kk => hperm.mem_iff
    obtain ⟨st2, hzeq, inv2⟩ := stageZip_ok env fs0 tmpRoot K relMap content hP hroot0 a
      z.entries st c inv hdirs hrels
      (fun e he => by
        rw [hdatas e he]
        rfl)
      (fun e he => (hmem_iff _).mp (List.mem_map.mpr ⟨e, he, rfl⟩))
      (hperm.nodup_iff.mpr hP.hKnd)
      (fun e he => hclo _ ((hmem_iff _).mp (List.mem_map.mpr ⟨e, he, rfl⟩)))
    have hclo2 : ∀ k ∈ K,
        (if k ∈ z.entries.map (fun e => entryKey env e) then c k + 1 else c k) = a + 1 := by
      intro k hk
      rw [if_pos ((hmem_iff k).mpr hk), hclo k hk]
    obtain ⟨st3, hrest, inv3⟩ := ih (a + 1) st2 _ inv2 hclo2
      (fun j z2 hj => by
        obtain ⟨h1, h2, h3, h4⟩ := hfacts (j + 1) z2 (by simpa using hj)
        refine ⟨h1, h2, h3, fun e he => ?_⟩
        rw [h4 e he, (show a + (j + 1) = a + 1 + j by omega)])
    refine ⟨st3, ?_, StInv_congrK inv3 ?_⟩
    · show (match stageZip env tmpRoot st z.entries with
        | (st2, none) => stageZips env tmpRoot zs2 st2
        | (st2, some ex) => stageZips env tmpRoot zs2
            { st2 with log := { st2.log with errors := st2.log.errors ++
                ["Failed to extract from " ++ pathStr z.path ++ ": " ++ pyExcMsg ex] } }) =
        st3
      rw [hzeq]
      exact hrest
    · intro kk hkk
      rw [if_pos hkk, if_pos hkk, List.length_cons]
      omega

theorem stageExtract_ok (env : Env) (fs0 : FS) (destRoot : FPath) (zips : List ZipFile)
    (K : List String) (relMap : String → FPath) (content : Nat → String → Bytes)
    (S : C1Setup env fs0 destRoot zips K relMap content) (log0 : SummaryLog) :
    ∃ st, stageExtract env zips destRoot fs0 log0 = (st, none) ∧
      StInv fs0 (destRoot ++ [TMP_DIR_NAME]) K relMap content
        (fun kk => if kk ∈ K then zips.length else 0) st := by
  have hroot0 : ∀ pre, pre ≠ [] → pre <+: destRoot ++ [TMP_DIR_NAME] →
      pre ≠ destRoot ++ [TMP_DIR_NAME] → fs0 pre = some FNode.dir := by
    intro pre hne hpre hne2
    rcases prefix_concat_cases hpre with h1 | h1
    · exact S.h0root pre hne (List.isPrefixOf_iff_prefix.mpr h1)
    · exact absurd h1 hne2
  have hchain : ∀ pre, pre ≠ [] →
      pre.isPrefixOf (destRoot ++ [TMP_DIR_NAME]) = true →
      fs0 pre = none ∨ fs0 pre = some FNode.dir := by
    intro pre hne hpre
    rcases prefix_concat_cases (List.isPrefixOf_iff_prefix.mp hpre) with h1 | h1
    · exact Or.inr (S.h0root pre hne (List.isPrefixOf_iff_prefix.mpr h1))
    · refine Or.inl ?_
      rw [h1]
      exact S.h0tmp _ (isPrefixOf_self _)
  have hmk := mkdirP_ok hchain
  have hf1dirs := mkdirP_ok_dirs hmk
  have htmpne : (destRoot ++ [TMP_DIR_NAME] : FPath) ≠ [] := by simp
  have hinv : StInv fs0 (destRoot ++ [TMP_DIR_NAME]) K relMap content (fun _ => 0)
      ⟨[], (mkdirP fs0 (destRoot ++ [TMP_DIR_NAME])).1, log0⟩ := by
    refine ⟨?_, ?_, ?_, ?_, ?_, ?_, ?_, ?_, ?_⟩
    · intro k _
      rfl
    · intro k _ h1
      omega
    · simp
    · intro q hq
      show (mkdirP fs0 (destRoot ++ [TMP_DIR_NAME])).1 q = fs0 q
      by_cases hin : ∃ pre, pre ≠ [] ∧
          pre.isPrefixOf (destRoot ++ [TMP_DIR_NAME]) = true ∧ q = pre
      · obtain ⟨pre, hne, hpre, rfl⟩ := hin
        rcases prefix_concat_cases (List.isPrefixOf_iff_prefix.mp hpre) with h1 | h1
        · have hst : fs0 q = some FNode.dir :=
            S.h0root q hne (List.isPrefixOf_iff_prefix.mpr h1)
          rw [mkdirP_dir_mono _ hst, hst]
        · exfalso
          rw [h1, isPrefixOf_self] at hq
          cases hq
      · push_neg at hin
        exact mkdirP_frame _ (fun pre hne hpre => hin pre hne hpre)
    · exact hf1dirs _ htmpne (isPrefixOf_self _)
    · intro k _ h1
      omega
    · intro k _ i h1 h2
      omega
    · intro q b hq hf
      exfalso
      dsimp only at hf
      by_cases hin : ∃ pre, pre ≠ [] ∧
          pre.isPrefixOf (destRoot ++ [TMP_DIR_NAME]) = true ∧ q = pre
      · obtain ⟨pre, hne, hpre, rfl⟩ := hin
        rw [hf1dirs q hne hpre] at hf
        cases hf
      · push_neg at hin
        rw [mkdirP_frame _ (fun pre hne hpre => hin pre hne hpre)] at hf
        rw [S.h0tmp q hq] at hf
        cases hf
    · intro q hq hf
      dsimp only at hf
      by_cases hin : ∃ pre, pre ≠ [] ∧
          pre.isPrefixOf (destRoot ++ [TMP_DIR_NAME]) = true ∧ q = pre
      · obtain ⟨pre, hne, hpre, rfl⟩ := hin
        rcases prefix_concat_cases (List.isPrefixOf_iff_prefix.mp hpre) with h1 | h1
        · exfalso
          have h2 := (List.isPrefixOf_iff_prefix.mp hq).length_le
          have h3 := h1.length_le
          rw [List.length_append, List.length_singleton] at h2
          omega
        · exact Or.inl h1
      · push_neg at hin
        rw [mkdirP_frame _ (fun pre hne hpre => hin pre hne hpre)] at hf
        rw [S.h0tmp q hq] at hf
        cases hf
  obtain ⟨st2, hzeq, inv2⟩ := stageZips_ok env fs0 (destRoot ++ [TMP_DIR_NAME])
    K relMap content S.paths hroot0 zips 0
    ⟨[], (mkdirP fs0 (destRoot ++ [TMP_DIR_NAME])).1, log0⟩ (fun _ => 0) hinv
    (fun _ _ => rfl)
    (fun j z hj => by
      have hzm : z ∈ zips := by
        have := List.getElem?_eq_some_iff.mp hj
        obtain ⟨hlt, hget⟩ := this
        rw [← hget]
        exact List.getElem_mem hlt
      refine ⟨S.hperm j z hj, S.hndir z hzm, S.hrel z hzm, fun e he => ?_⟩
      rw [S.hdata j z hj e he, Nat.zero_add])
  refine ⟨st2, ?_, StInv_congrK inv2 (fun kk hkk => by rw [if_pos hkk, if_pos hkk]; omega)⟩
  show (match mkdirP fs0 (destRoot ++ [TMP_DIR_NAME]) with
    | (fs1, some ex) => ((⟨[], fs1, log0⟩ : StageSt), some ex)
    | (fs1, none) => (stageZips env (destRoot ++ [TMP_DIR_NAME]) zips ⟨[], fs1, log0⟩, none)) =
    (st2, none)
  rw [hmk]
  dsimp only
  rw [hzeq]

theorem mergeGeneral_ok (env : Env) (st : MergeSt) (finalPath : FPath)
    (parts : List FPath) (parentP : FPath) (oName : String) (bs : List Bytes)
    (hcb : ∀ l, env.copyB l = (1, none))
    (hcw : ∀ b2, env.concatWrite b2 = b2)
    (hbs : List.Forall₂ (fun p b => st.fs p = some (FNode.file b)) parts bs)
    (htm : st.fs (parentP ++ [oName ++ ".__merge_tmp"]) = none)
    (hmkP : mkdirP st.fs parentP = (st.fs, none))
    (hppdir : parentP = [] ∨ st.fs parentP = some FNode.dir)
    (hfin0 : st.fs finalPath = none)
    (hfne : finalPath ≠ [])
    (hfinpar : finalPath.dropLast = [] ∨ st.fs finalPath.dropLast = some FNode.dir)
    (hne2 : finalPath ≠ parentP ++ [oName ++ ".__merge_tmp"])
    (hne3 : finalPath.dropLast ≠ parentP ++ [oName ++ ".__merge_tmp"]) :
    mergeGeneral env st finalPath parts parentP oName =
      ⟨parts.foldl unlinkBE (fsSet st.fs finalPath (FNode.file bs.flatten)),
       { st.log with merged := st.log.merged ++ [(pathStr finalPath, parts.length)] }⟩ := by
  have hsum : sumStats st.fs parts = some ((bs.map List.length).sum) := sumStats_of_forall₂ hbs
  have hstat : statSize st.fs (parentP ++ [oName ++ ".__merge_tmp"]) = none := by
    unfold statSize
    rw [htm]
  have htmne : (parentP ++ [oName ++ ".__merge_tmp"] : FPath) ≠ [] := by simp
  have hconcat := concatParts_ok env st.fs parts (parentP ++ [oName ++ ".__merge_tmp"]) bs hbs
    htm htmne
    (by rw [List.dropLast_concat]; exact hppdir)
    (by rw [relParentOf, List.dropLast_concat]; exact hmkP)
  have hstatC : statSize (fsSet st.fs (parentP ++ [oName ++ ".__merge_tmp"])
      (.file (env.concatWrite bs.flatten))) (parentP ++ [oName ++ ".__merge_tmp"]) =
      some (env.concatWrite bs.flatten).length := by
    unfold statSize
    rw [fsSet_self]
  simp only [mergeGeneral, hcb]
  rw [hsum]
  try dsimp only
  rw [hstat]
  rw [if_pos (Or.inl (by decide : (1 : Int) ≠ 0)), unlinkBE_none htm, hconcat]
  try dsimp only
  rw [hstatC]
  simp only [Option.getD_some, hcw]
  rw [if_neg (by simp [List.length_flatten])]
  unfold mergeCommit
  have hrepl : replaceFile (fsSet st.fs (parentP ++ [oName ++ ".__merge_tmp"])
      (FNode.file bs.flatten)) (parentP ++ [oName ++ ".__merge_tmp"]) finalPath =
      (fsSet (fsDel (fsSet st.fs (parentP ++ [oName ++ ".__merge_tmp"]) (FNode.file bs.flatten))
        (parentP ++ [oName ++ ".__merge_tmp"])) finalPath (FNode.file bs.flatten), none) := by
    refine replaceFile_ok (fsSet_self _ _ _) ?_ hfne ?_
    · rw [fsSet_other _ _ _ hne2, hfin0]
      intro hcc
      cases hcc
    · rcases hfinpar with h | h
      · exact Or.inl h
      · refine Or.inr ?_
        rw [fsSet_other _ _ _ hne3]
        exact h
  rw [hrepl]
  try dsimp only
  rw [fsDel_fsSet, fsDel_none htm]

theorem mergeFast_ok (env : Env) (st : MergeSt) (finalPath : FPath)
    (first parentP : FPath) (oName : String) (b : Bytes)
    (hfrag : st.fs first = some (FNode.file b))
    (hfin0 : st.fs finalPath = none)
    (hfne : finalPath ≠ [])
    (hfinpar : finalPath.dropLast = [] ∨ st.fs finalPath.dropLast = some FNode.dir) :
    mergeFastOrGeneral env st finalPath [first] first parentP oName =
      ⟨fsSet (fsDel st.fs first) finalPath (FNode.file b),
       { st.log with merged := st.log.merged ++ [(pathStr finalPath, 1)] }⟩ := by
  have hsum : sumStats st.fs [first] = some (b.length + 0) := by
    unfold sumStats statSize
    rw [hfrag]
    rfl
  have hstat1 : statSize st.fs first = some b.length := by
    unfold statSize
    rw [hfrag]
  have hrepl : replaceFile st.fs first finalPath =
      (fsSet (fsDel st.fs first) finalPath (FNode.file b), none) := by
    refine replaceFile_ok hfrag ?_ hfne hfinpar
    rw [hfin0]
    intro hcc
    cases hcc
  unfold mergeFastOrGeneral
  rw [hsum]
  try dsimp only
  rw [hstat1]
  try dsimp only
  rw [if_neg (by omega : ¬(b.length ≠ b.length + 0))]
  rw [hrepl]

theorem catBytes_one (content : Nat → String → Bytes) (k : String) :
    catBytes content 1 k = content 0 k := by
  unfold catBytes
  have h1 : List.range 1 = [0] := rfl
  rw [h1, List.map_cons, List.map_nil, List.flatten_cons, List.flatten_nil, List.append_nil]

theorem forall₂_frags {F : FS} {t r : FPath} {g : Nat → Bytes} {N : Nat}
    (h : ∀ i, i < N → F (fragPath t r (i + 1)) = some (FNode.file (g i))) :
    List.Forall₂ (fun p b => F p = some (FNode.file b))
      (fragsUpTo t r N) ((List.range N).map g) := by
  unfold fragsUpTo
  rw [List.forall₂_map_left_iff, List.forall₂_map_right_iff, List.forall₂_same]
  intro i hi
  exact h i (List.mem_range.mp hi)

theorem fsDel_fsSet_comm {fs : FS} {p q : FPath} (h : q ≠ p) (v : FNode) :
    fsDel (fsSet fs p v) q = fsSet (fsDel fs q) p v := by
  funext x
  by_cases hx : x = q
  · subst hx
    rw [fsDel_self, fsSet_other _ _ _ h, fsDel_self]
  · rw [fsDel_other _ _ hx]
    by_cases hp : x = p
    · subst hp
      rw [fsSet_self, fsSet_self]
    · rw [fsSet_other _ _ _ hp, fsSet_other _ _ _ hp, fsDel_other _ _ hx]

theorem mergeOne_ok (env : Env) (destRoot : FPath) (K : List String)
    (relMap : String → FPath) (content : Nat → String → Bytes) (N : Nat)
    (hP : C1Paths K relMap) (k : String) (hk : k ∈ K)
    (hcb : ∀ l, env.copyB l = (1, none))
    (hcw : ∀ b2, env.concatWrite b2 = b2)
    (hN : 1 ≤ N)
    (st : MergeSt)
    (frags : ∀ i, 1 ≤ i → i ≤ N →
      st.fs (fragPath (destRoot ++ [TMP_DIR_NAME]) (relMap k) i) =
        some (FNode.file (content (i - 1) k)))
    (tdirs : ∀ p, p.isPrefixOf (relParentOf (relMap k)) = true →
      st.fs ((destRoot ++ [TMP_DIR_NAME]) ++ p) = some FNode.dir)
    (dest0 : st.fs (destRoot ++ relMap k) = none)
    (tmpm0 : st.fs ((destRoot ++ [TMP_DIR_NAME]) ++ relParentOf (relMap k) ++
      [relNameOf (relMap k) ++ ".__merge_tmp"]) = none)
    (chain : ∀ p, p ≠ [] → p.isPrefixOf (relParentOf (relMap k)) = true →
      st.fs (destRoot ++ p) = none ∨ st.fs (destRoot ++ p) = some FNode.dir)
    (rootdirs : ∀ p, p ≠ [] → p.isPrefixOf destRoot = true → st.fs p = some FNode.dir) :
    ∃ st2, mergeOne env destRoot (destRoot ++ [TMP_DIR_NAME]) st
        (k, fragsUpTo (destRoot ++ [TMP_DIR_NAME]) (relMap k) N) = (st2, none) ∧
      st2.fs (destRoot ++ relMap k) = some (FNode.file (catBytes content N k)) ∧
      (∀ q, (destRoot ++ [TMP_DIR_NAME]).isPrefixOf q = true →
        q ∉ fragsUpTo (destRoot ++ [TMP_DIR_NAME]) (relMap k) N → st2.fs q = st.fs q) ∧
      (∀ q, (destRoot ++ [TMP_DIR_NAME]).isPrefixOf q = false → q ≠ destRoot ++ relMap k →
        (∀ p, p ≠ [] → p.isPrefixOf (relParentOf (relMap k)) = true → q ≠ destRoot ++ p) →
        st2.fs q = st.fs q) ∧
      (∀ q, st.fs q = some FNode.dir → st2.fs q = some FNode.dir) ∧
      (∀ p, p ≠ [] → p.isPrefixOf (relParentOf (relMap k)) = true →
        st2.fs (destRoot ++ p) = some FNode.dir) := by
  have hrne := hP.hrne k hk
  have hname := hP.hname k hk
  have hnotmp := hP.hnotmp k hk
  have hrl : 0 < (relMap k).length := List.length_pos.mpr hrne
  have hrpl : (relParentOf (relMap k)).length = (relMap k).length - 1 := by
    unfold relParentOf
    rw [List.length_dropLast]
  obtain ⟨m, rfl⟩ : ∃ m, N = m + 1 := ⟨N - 1, by omega⟩
  obtain ⟨tl, hcons⟩ : ∃ tl, fragsUpTo (destRoot ++ [TMP_DIR_NAME]) (relMap k) (m + 1) =
      fragPath (destRoot ++ [TMP_DIR_NAME]) (relMap k) 1 :: tl := by
    unfold fragsUpTo
    rw [List.range_succ_eq_map]
    exact ⟨_, rfl⟩
  have hrn : relNameOf (fragPath (destRoot ++ [TMP_DIR_NAME]) (relMap k) 1) =
      partFileName (relNameOf (relMap k)) 1 := relNameOf_concat _ _
  have hpar : relParentOf (fragPath (destRoot ++ [TMP_DIR_NAME]) (relMap k) 1) =
      (destRoot ++ [TMP_DIR_NAME]) ++ relParentOf (relMap k) := by
    unfold fragPath relParentOf
    exact List.dropLast_concat
  have hon : originalNameOf (relNameOf (fragPath (destRoot ++ [TMP_DIR_NAME]) (relMap k) 1)) =
      relNameOf (relMap k) := by
    rw [hrn, originalNameOf_partFileName]
  have hpre2 : (destRoot ++ [TMP_DIR_NAME]).isPrefixOf
      ((destRoot ++ [TMP_DIR_NAME]) ++ relParentOf (relMap k)) = true :=
    List.isPrefixOf_iff_prefix.mpr ⟨_, rfl⟩
  have hdrop2 : ((destRoot ++ [TMP_DIR_NAME]) ++ relParentOf (relMap k)).drop
      (destRoot ++ [TMP_DIR_NAME]).length = relParentOf (relMap k) :=
    List.drop_left _ _
  have hnu_chain : ∀ p, p ≠ [] → p <+: relParentOf (relMap k) →
      (destRoot ++ [TMP_DIR_NAME]).isPrefixOf (destRoot ++ p) = false := by
    intro p hpz hp
    have hrpne : relParentOf (relMap k) ≠ [] := by
      intro hz
      rw [hz, List.prefix_nil] at hp
      exact hpz hp
    refine notUnder_tmp ?_
    rw [ headD_of_prefix hpz hp]
    unfold relParentOf
    rw [headD_dropLast hrpne]
    exact hnotmp
  have hchainF : ∀ pre, pre ≠ [] →
      pre.isPrefixOf (destRoot ++ relParentOf (relMap k)) = true →
      st.fs pre = none ∨ st.fs pre = some FNode.dir := by
    intro pre hne hpre
    rcases prefix_split (List.isPrefixOf_iff_prefix.mp hpre) with h1 | ⟨p, hpp, hp⟩
    · exact Or.inr (rootdirs pre hne (List.isPrefixOf_iff_prefix.mpr h1))
    · subst hpp
      by_cases hpz : p = []
      · rw [hpz, List.append_nil] at hne ⊢
        exact Or.inr (rootdirs destRoot hne (isPrefixOf_self _))
      · exact chain p hpz (List.isPrefixOf_iff_prefix.mpr hp)
  have hmkF := mkdirP_ok hchainF
  have hf1_dirs := mkdirP_ok_dirs hmkF
  have hf1_tmp : ∀ q, (destRoot ++ [TMP_DIR_NAME]).isPrefixOf q = true →
      (mkdirP st.fs (destRoot ++ relParentOf (relMap k))).1 q = st.fs q := by
    intro q hq
    refine mkdirP_frame _ ?_
    intro pre hne hpre he
    subst he
    rcases prefix_split (List.isPrefixOf_iff_prefix.mp hpre) with h1 | ⟨p, hpp, hp⟩
    · have h2 := (List.isPrefixOf_iff_prefix.mp hq).length_le
      have h3 := h1.length_le
      rw [List.length_append, List.length_singleton] at h2
      omega
    · subst hpp
      by_cases hpz : p = []
      · rw [hpz, List.append_nil] at hq
        have h2 := (List.isPrefixOf_iff_prefix.mp hq).length_le
        rw [List.length_append, List.length_singleton] at h2
        omega
      · rw [hnu_chain p hpz hp] at hq
        cases hq
  have hf1_dest : (mkdirP st.fs (destRoot ++ relParentOf (relMap k))).1
      (destRoot ++ relMap k) = st.fs (destRoot ++ relMap k) := by
    refine mkdirP_frame _ ?_
    intro pre hne hpre he
    have h2 := (List.isPrefixOf_iff_prefix.mp hpre).length_le
    have h3 := congrArg List.length he
    rw [List.length_append] at h2 h3
    rw [hrpl] at h2
    omega
  have hfinal_eq : pathJoin1 (destRoot ++ relParentOf (relMap k)) (relNameOf (relMap k)) =
      destRoot ++ relMap k := by
    unfold pathJoin1
    rw [if_neg hname, List.append_assoc, path_decomp hrne]
  have hnex : fsExists (mkdirP st.fs (destRoot ++ relParentOf (relMap k))).1
      (destRoot ++ relMap k) = false := by
    rw [fsExists_false_iff, hf1_dest]
    exact dest0
  have hfdl : (destRoot ++ relMap k).dropLast = destRoot ++ relParentOf (relMap k) := by
    conv_lhs => rw [← path_decomp hrne, ← List.append_assoc]
    exact List.dropLast_concat
  have hfinpar1 : (destRoot ++ relMap k).dropLast = [] ∨
      (mkdirP st.fs (destRoot ++ relParentOf (relMap k))).1 (destRoot ++ relMap k).dropLast =
        some FNode.dir := by
    rw [hfdl]
    by_cases hz : destRoot ++ relParentOf (relMap k) = []
    · exact Or.inl hz
    · exact Or.inr (hf1_dirs _ hz (isPrefixOf_self _))
  have hf1_frag : ∀ i, 1 ≤ i → i ≤ m + 1 →
      (mkdirP st.fs (destRoot ++ relParentOf (relMap k))).1
        (fragPath (destRoot ++ [TMP_DIR_NAME]) (relMap k) i) =
        some (FNode.file (content (i - 1) k)) := by
    intro i h1 h2
    rw [hf1_tmp _ (frag_under_tmp _ _ _)]
    exact frags i h1 h2
  have hdest_nu : (destRoot ++ [TMP_DIR_NAME]).isPrefixOf (destRoot ++ relMap k) = false :=
    notUnder_tmp hnotmp
  have hdest_notin : destRoot ++ relMap k ∉
      fragsUpTo (destRoot ++ [TMP_DIR_NAME]) (relMap k) (m + 1) := by
    intro hm
    obtain ⟨i, h1, h2, he⟩ := mem_fragsUpTo.mp hm
    rw [he, frag_under_tmp] at hdest_nu
    cases hdest_nu
  have hmem_tmp : ∀ q ∈ fragsUpTo (destRoot ++ [TMP_DIR_NAME]) (relMap k) (m + 1),
      (destRoot ++ [TMP_DIR_NAME]).isPrefixOf q = true := by
    intro q hq
    obtain ⟨i, h1, h2, he⟩ := mem_fragsUpTo.mp hq
    rw [he]
    exact frag_under_tmp _ _ _
  -- the unified final filesystem
  have hF_props : ∀ bsv : Bytes,
      (((fragsUpTo (destRoot ++ [TMP_DIR_NAME]) (relMap k) (m + 1)).foldl unlinkBE
        (fsSet (mkdirP st.fs (destRoot ++ relParentOf (relMap k))).1
          (destRoot ++ relMap k) (FNode.file bsv))) (destRoot ++ relMap k) =
        some (FNode.file bsv)) ∧
      (∀ q, (destRoot ++ [TMP_DIR_NAME]).isPrefixOf q = true →
        q ∉ fragsUpTo (destRoot ++ [TMP_DIR_NAME]) (relMap k) (m + 1) →
        ((fragsUpTo (destRoot ++ [TMP_DIR_NAME]) (relMap k) (m + 1)).foldl unlinkBE
          (fsSet (mkdirP st.fs (destRoot ++ relParentOf (relMap k))).1
            (destRoot ++ relMap k) (FNode.file bsv))) q = st.fs q) ∧
      (∀ q, (destRoot ++ [TMP_DIR_NAME]).isPrefixOf q = false → q ≠ destRoot ++ relMap k →
        (∀ p, p ≠ [] → p.isPrefixOf (relParentOf (relMap k)) = true → q ≠ destRoot ++ p) →
        ((fragsUpTo (destRoot ++ [TMP_DIR_NAME]) (relMap k) (m + 1)).foldl unlinkBE
          (fsSet (mkdirP st.fs (destRoot ++ relParentOf (relMap k))).1
            (destRoot ++ relMap k) (FNode.file bsv))) q = st.fs q) ∧
      (∀ q, st.fs q = some FNode.dir →
        ((fragsUpTo (destRoot ++ [TMP_DIR_NAME]) (relMap k) (m + 1)).foldl unlinkBE
          (fsSet (mkdirP st.fs (destRoot ++ relParentOf (relMap k))).1
            (destRoot ++ relMap k) (FNode.file bsv))) q = some FNode.dir) ∧
      (∀ p, p ≠ [] → p.isPrefixOf (relParentOf (relMap k)) = true →
        ((fragsUpTo (destRoot ++ [TMP_DIR_NAME]) (relMap k) (m + 1)).foldl unlinkBE
          (fsSet (mkdirP st.fs (destRoot ++ relParentOf (relMap k))).1
            (destRoot ++ relMap k) (FNode.file bsv))) (destRoot ++ p) = some FNode.dir) := by
    intro bsv
    refine ⟨?_, ?_, ?_, ?_, ?_⟩
    · rw [foldl_unlinkBE_other _ _ hdest_notin, fsSet_self]
    · intro q hq hnin
      rw [foldl_unlinkBE_other _ _ hnin,
        fsSet_other _ _ _ (fun he => by rw [he, hdest_nu] at hq; cases hq)]
      exact hf1_tmp q hq
    · intro q hq hne hch
      have hnin : q ∉ fragsUpTo (destRoot ++ [TMP_DIR_NAME]) (relMap k) (m + 1) := by
        intro hmem
        rw [hmem_tmp q hmem] at hq
        cases hq
      rw [foldl_unlinkBE_other _ _ hnin, fsSet_other _ _ _ hne]
      by_cases hin : ∃ pre, pre ≠ [] ∧
          pre.isPrefixOf (destRoot ++ relParentOf (relMap k)) = true ∧ q = pre
      · obtain ⟨pre, hprene, hpre, rfl⟩ := hin
        rcases prefix_split (List.isPrefixOf_iff_prefix.mp hpre) with h1 | ⟨p, hpp, hp⟩
        · rw [hf1_dirs q hprene hpre]
          exact (rootdirs q hprene (List.isPrefixOf_iff_prefix.mpr h1)).symm
        · by_cases hpz : p = []
          · rw [hpz, List.append_nil] at hpp
            subst hpp
            rw [hf1_dirs q hprene hpre]
            exact (rootdirs q hprene (isPrefixOf_self _)).symm
          · exact absurd hpp (hch p hpz (List.isPrefixOf_iff_prefix.mpr hp))
      · push_neg at hin
        exact mkdirP_frame _ (fun pre hne2 hpre => hin pre hne2 hpre)
    · intro q hdir
      have hnin : q ∉ fragsUpTo (destRoot ++ [TMP_DIR_NAME]) (relMap k) (m + 1) := by
        intro hmem
        obtain ⟨i, h1, h2, he⟩ := mem_fragsUpTo.mp hmem
        rw [he] at hdir
        rw [frags i h1 h2] at hdir
        cases hdir
      have hne : q ≠ destRoot ++ relMap k := by
        intro he
        rw [he, dest0] at hdir
        cases hdir
      refine foldl_unlinkBE_dir _ _ ?_
      rw [fsSet_other _ _ _ hne]
      exact mkdirP_dir_mono _ hdir
    · intro p hpz hp
      have hnu := hnu_chain p hpz (List.isPrefixOf_iff_prefix.mp hp)
      have hnin : destRoot ++ p ∉
          fragsUpTo (destRoot ++ [TMP_DIR_NAME]) (relMap k) (m + 1) := by
        intro hmem
        rw [hmem_tmp _ hmem] at hnu
        cases hnu
      have hne : destRoot ++ p ≠ destRoot ++ relMap k := by
        intro he
        have h2 := List.append_cancel_left he
        have h3 := congrArg List.length h2
        have h4 := (List.isPrefixOf_iff_prefix.mp hp).length_le
        rw [hrpl] at h4
        omega
      rw [foldl_unlinkBE_other _ _ hnin, fsSet_other _ _ _ hne]
      refine hf1_dirs _ (by simp [hpz]) ?_
      exact isPrefixOf_append_left hp
  by_cases hm0 : m = 0
  · -- fast path: a single fragment
    subst hm0
    have htl : tl = [] := by
      have hl := congrArg List.length hcons
      rw [fragsUpTo_length, List.length_cons] at hl
      exact List.length_eq_zero.mp (by omega)
    subst htl
    have hfrag1 : (mkdirP st.fs (destRoot ++ relParentOf (relMap k))).1
        (fragPath (destRoot ++ [TMP_DIR_NAME]) (relMap k) 1) =
        some (FNode.file (content 0 k)) := hf1_frag 1 (by omega) (by omega)
    have hfast := mergeFast_ok env
      ⟨(mkdirP st.fs (destRoot ++ relParentOf (relMap k))).1, st.log⟩
      (destRoot ++ relMap k)
      (fragPath (destRoot ++ [TMP_DIR_NAME]) (relMap k) 1)
      ((destRoot ++ [TMP_DIR_NAME]) ++ relParentOf (relMap k))
      (relNameOf (relMap k)) (content 0 k)
      hfrag1 (by rw [show (⟨(mkdirP st.fs (destRoot ++ relParentOf (relMap k))).1,
        st.log⟩ : MergeSt).fs = (mkdirP st.fs (destRoot ++ relParentOf (relMap k))).1
        from rfl]; rw [hf1_dest]; exact dest0)
      (by intro he; exact hrne (List.append_eq_nil.mp he).2)
      hfinpar1
    have hmerge : mergeOne env destRoot (destRoot ++ [TMP_DIR_NAME]) st
        (k, fragsUpTo (destRoot ++ [TMP_DIR_NAME]) (relMap k) (0 + 1)) =
        (⟨fsSet (fsDel (mkdirP st.fs (destRoot ++ relParentOf (relMap k))).1
            (fragPath (destRoot ++ [TMP_DIR_NAME]) (relMap k) 1))
            (destRoot ++ relMap k) (FNode.file (content 0 k)),
          { st.log with merged := st.log.merged ++ [(pathStr (destRoot ++ relMap k), 1)] }⟩,
         none) := by
      rw [hcons]
      simp only [mergeOne, hon, hpar, hpre2, if_true, hdrop2]
      rw [hmkF]
      dsimp only
      rw [hfinal_eq, hnex]
      simp only [Bool.false_eq_true, if_false, List.length_singleton, if_pos rfl]
      rw [hfast, if_pos trivial]
    have hfs_eq : fsSet (fsDel (mkdirP st.fs (destRoot ++ relParentOf (relMap k))).1
        (fragPath (destRoot ++ [TMP_DIR_NAME]) (relMap k) 1))
        (destRoot ++ relMap k) (FNode.file (content 0 k)) =
        (fragsUpTo (destRoot ++ [TMP_DIR_NAME]) (relMap k) (0 + 1)).foldl unlinkBE
          (fsSet (mkdirP st.fs (destRoot ++ relParentOf (relMap k))).1
            (destRoot ++ relMap k) (FNode.file (catBytes content (0 + 1) k))) := by
      rw [hcons, catBytes_one]
      show _ = unlinkBE (fsSet _ _ _) _
      have hfragne : fragPath (destRoot ++ [TMP_DIR_NAME]) (relMap k) 1 ≠
          destRoot ++ relMap k := by
        intro he
        rw [← he, frag_under_tmp] at hdest_nu
        cases hdest_nu
      have hv : (fsSet (mkdirP st.fs (destRoot ++ relParentOf (relMap k))).1
          (destRoot ++ relMap k) (FNode.file (content 0 k)))
          (fragPath (destRoot ++ [TMP_DIR_NAME]) (relMap k) 1) =
          some (FNode.file (content 0 k)) := by
        rw [fsSet_other _ _ _ hfragne]
        exact hfrag1
      unfold unlinkBE
      rw [hv]
      rw [fsDel_fsSet_comm hfragne]
    obtain ⟨hA, hB, hC, hD, hE⟩ := hF_props (catBytes content (0 + 1) k)
    refine ⟨_, hmerge, ?_, ?_, ?_, ?_, ?_⟩
    · show fsSet _ _ _ (destRoot ++ relMap k) = _
      rw [hfs_eq]
      exact hA
    · intro q hq hnin
      show fsSet _ _ _ q = _
      rw [hfs_eq]
      exact hB q hq hnin
    · intro q hq hne hch
      show fsSet _ _ _ q = _
      rw [hfs_eq]
      exact hC q hq hne hch
    · intro q hdir
      show fsSet _ _ _ q = _
      rw [hfs_eq]
      exact hD q hdir
    · intro p hpz hp
      show fsSet _ _ _ (destRoot ++ p) = _
      rw [hfs_eq]
      exact hE p hpz hp
  · -- general path: two or more fragments
    have hbs := forall₂_frags (F := (mkdirP st.fs (destRoot ++ relParentOf (relMap k))).1)
      (t := destRoot ++ [TMP_DIR_NAME]) (r := relMap k)
      (g := fun i => content i k) (N := m + 1)
      (fun i hi => by
        have := hf1_frag (i + 1) (by omega) (by omega)
        simpa using this)
    have htm_under : (destRoot ++ [TMP_DIR_NAME]).isPrefixOf
        ((destRoot ++ [TMP_DIR_NAME]) ++ relParentOf (relMap k) ++
          [relNameOf (relMap k) ++ ".__merge_tmp"]) = true := by
      refine List.isPrefixOf_iff_prefix.mpr ⟨relParentOf (relMap k) ++
        [relNameOf (relMap k) ++ ".__merge_tmp"], ?_⟩
      simp [List.append_assoc]
    have htmF : (mkdirP st.fs (destRoot ++ relParentOf (relMap k))).1
        ((destRoot ++ [TMP_DIR_NAME]) ++ relParentOf (relMap k) ++
          [relNameOf (relMap k) ++ ".__merge_tmp"]) = none := by
      rw [hf1_tmp _ htm_under]
      exact tmpm0
    have hppdirF : (destRoot ++ [TMP_DIR_NAME]) ++ relParentOf (relMap k) = [] ∨
        (mkdirP st.fs (destRoot ++ relParentOf (relMap k))).1
          ((destRoot ++ [TMP_DIR_NAME]) ++ relParentOf (relMap k)) = some FNode.dir := by
      refine Or.inr ?_
      rw [hf1_tmp _ hpre2]
      exact tdirs _ (isPrefixOf_self _)
    have hmkPF : mkdirP (mkdirP st.fs (destRoot ++ relParentOf (relMap k))).1
        ((destRoot ++ [TMP_DIR_NAME]) ++ relParentOf (relMap k)) =
        ((mkdirP st.fs (destRoot ++ relParentOf (relMap k))).1, none) := by
      refine mkdirP_noop ?_
      intro pre hne hpre
      rcases prefix_split (List.isPrefixOf_iff_prefix.mp hpre) with h1 | ⟨p, hpp, hp⟩
      · rcases prefix_concat_cases h1 with h2 | h2
        · refine hf1_dirs pre hne ?_
          exact List.isPrefixOf_iff_prefix.mpr (h2.trans (List.prefix_append _ _))
        · subst h2
          rw [hf1_tmp _ (isPrefixOf_self _)]
          have := tdirs [] (by simp [List.isPrefixOf])
          rw [List.append_nil] at this
          exact this
      · subst hpp
        by_cases hpz : p = []
        · rw [hpz, List.append_nil]
          rw [hf1_tmp _ (isPrefixOf_self _)]
          have := tdirs [] (by simp [List.isPrefixOf])
          rw [List.append_nil] at this
          exact this
        · rw [hf1_tmp _ (List.isPrefixOf_iff_prefix.mpr ⟨p, rfl⟩)]
          exact tdirs p (List.isPrefixOf_iff_prefix.mpr hp)
    have hfin0F : (mkdirP st.fs (destRoot ++ relParentOf (relMap k))).1
        (destRoot ++ relMap k) = none := by
      rw [hf1_dest]
      exact dest0
    have hfd_nu : (destRoot ++ [TMP_DIR_NAME]).isPrefixOf
        (destRoot ++ relParentOf (relMap k)) = false := by
      by_cases hz : relParentOf (relMap k) = []
      · rw [hz, List.append_nil]
        refine isPrefixOf_false_of_lt ?_
        rw [List.length_append, List.length_singleton]
        omega
      · exact hnu_chain _ hz (List.prefix_refl _)
    have hne2F : destRoot ++ relMap k ≠
        (destRoot ++ [TMP_DIR_NAME]) ++ relParentOf (relMap k) ++
          [relNameOf (relMap k) ++ ".__merge_tmp"] := by
      intro he
      rw [he] at hdest_nu
      rw [htm_under] at hdest_nu
      cases hdest_nu
    have hne3F : (destRoot ++ relMap k).dropLast ≠
        (destRoot ++ [TMP_DIR_NAME]) ++ relParentOf (relMap k) ++
          [relNameOf (relMap k) ++ ".__merge_tmp"] := by
      rw [hfdl]
      intro he
      rw [he] at hfd_nu
      rw [htm_under] at hfd_nu
      cases hfd_nu
    have hgen := mergeGeneral_ok env
      ⟨(mkdirP st.fs (destRoot ++ relParentOf (relMap k))).1, st.log⟩
      (destRoot ++ relMap k)
      (fragsUpTo (destRoot ++ [TMP_DIR_NAME]) (relMap k) (m + 1))
      ((destRoot ++ [TMP_DIR_NAME]) ++ relParentOf (relMap k))
      (relNameOf (relMap k))
      ((List.range (m + 1)).map (fun i => content i k))
      hcb hcw hbs htmF hmkPF hppdirF hfin0F
      (by intro he; exact hrne (List.append_eq_nil.mp he).2) hfinpar1 hne2F hne3F
    have hmerge : mergeOne env destRoot (destRoot ++ [TMP_DIR_NAME]) st
        (k, fragsUpTo (destRoot ++ [TMP_DIR_NAME]) (relMap k) (m + 1)) =
        (⟨(fragsUpTo (destRoot ++ [TMP_DIR_NAME]) (relMap k) (m + 1)).foldl unlinkBE
            (fsSet (mkdirP st.fs (destRoot ++ relParentOf (relMap k))).1
              (destRoot ++ relMap k)
              (FNode.file (((List.range (m + 1)).map (fun i => content i k)).flatten))),
          { st.log with merged := st.log.merged ++ [(pathStr (destRoot ++ relMap k),
            (fragsUpTo (destRoot ++ [TMP_DIR_NAME]) (relMap k) (m + 1)).length)] }⟩,
         none) := by
      conv_lhs => rw [hcons]
      simp only [mergeOne, hon, hpar, hpre2, if_true, hdrop2]
      rw [hmkF]
      dsimp only
      rw [hfinal_eq, hnex]
      simp only [Bool.false_eq_true, if_false, List.length_cons]
      rw [if_neg (by
        have hl := congrArg List.length hcons
        rw [fragsUpTo_length, List.length_cons] at hl
        omega)]
      rw [← hcons, hgen]
    obtain ⟨hA, hB, hC, hD, hE⟩ := hF_props
      (((List.range (m + 1)).map (fun i => content i k)).flatten)
    refine ⟨_, hmerge, ?_, ?_, ?_, ?_, ?_⟩
    · exact hA
    · exact hB
    · exact hC
    · exact hD
    · exact hE

theorem chainElem_not_under (destRoot : FPath) {r p : FPath}
    (hhead : r.headD "" ≠ TMP_DIR_NAME) (hpz : p ≠ []) (hp : p <+: relParentOf r) :
    (destRoot ++ [TMP_DIR_NAME]).isPrefixOf (destRoot ++ p) = false := by
  have hrpne : relParentOf r ≠ [] := by
    intro hz
    rw [hz, List.prefix_nil] at hp
    exact hpz hp
  refine notUnder_tmp ?_
  rw [ headD_of_prefix hpz hp]
  unfold relParentOf
  rw [headD_dropLast hrpne]
  exact hhead

theorem frag_ne_frag_of_keys {K : List String} {relMap : String → FPath}
    (hP : C1Paths K relMap) {k kk : String} (hk : k ∈ K)
    (hkk : kk ∈ K) (hne : k ≠ kk) {t : FPath} {i j : Nat} :
    fragPath t (relMap k) i ≠ fragPath t (relMap kk) j := fun he =>
  hne (relMap_inj_of_paths hP hk hkk
    (fragPath_inj (hP.hrne k hk) (hP.hrne kk hkk) he).1)

theorem dest_ne_chainElem {destRoot : FPath} {K : List String} {relMap : String → FPath}
    (hP : C1Paths K relMap) {k kk : String} (hk : k ∈ K) (hkk : kk ∈ K)
    (hne : k ≠ kk) {p : FPath} (hp : p <+: relParentOf (relMap kk)) :
    destRoot ++ relMap k ≠ destRoot ++ p := by
  intro he
  have h2 := List.append_cancel_left he
  have h3 : relMap k <+: relMap kk := by
    rw [h2]
    exact hp.trans (List.dropLast_prefix _)
  have h4 := hP.hpf k hk kk hkk hne
  rw [List.isPrefixOf_iff_prefix.mpr h3] at h4
  cases h4


theorem dest_ne_of_keys {destRoot : FPath} {K : List String} {relMap : String → FPath}
    (hP : C1Paths K relMap) {k kk : String} (hk : k ∈ K) (hkk : kk ∈ K)
    (hne : k ≠ kk) : destRoot ++ relMap k ≠ destRoot ++ relMap kk := fun he =>
  hne (relMap_inj_of_paths hP hk hkk (List.append_cancel_left he))

theorem fragsUpTo_under (t r : FPath) (m : Nat) :
    ∀ q ∈ fragsUpTo t r m, t.isPrefixOf q = true := by
  intro q hq
  obtain ⟨i, h1, h2, he⟩ := mem_fragsUpTo.mp hq
  rw [he]
  exact frag_under_tmp _ _ _

theorem mergeLoop_ok (env : Env) (destRoot : FPath) (K : List String)
    (relMap : String → FPath) (content : Nat → String → Bytes) (N : Nat)
    (hP : C1Paths K relMap)
    (hcb : ∀ l, env.copyB l = (1, none))
    (hcw : ∀ b2, env.concatWrite b2 = b2)
    (hN : 1 ≤ N) :
    ∀ (items : List (String × List FPath)) (st : MergeSt),
      (∀ it ∈ items, it.1 ∈ K ∧
        it.2 = fragsUpTo (destRoot ++ [TMP_DIR_NAME]) (relMap it.1) N) →
      ((items.map Prod.fst).Nodup) →
      MInv destRoot K relMap content N (items.map Prod.fst) st.fs →
      ∃ st2, mergePartsGo env destRoot (destRoot ++ [TMP_DIR_NAME]) items st = (st2, none) ∧
        (∀ it ∈ items, st2.fs (destRoot ++ relMap it.1) =
          some (FNode.file (catBytes content N it.1))) ∧
        (∀ q, (∀ it ∈ items,
            q ∉ fragsUpTo (destRoot ++ [TMP_DIR_NAME]) (relMap it.1) N ∧
            q ≠ destRoot ++ relMap it.1 ∧
            (∀ p, p ≠ [] → p.isPrefixOf (relParentOf (relMap it.1)) = true →
              q ≠ destRoot ++ p)) →
          st2.fs q = st.fs q) := by
  intro items
  induction items with
  | nil =>
    intro st _ _ _
    exact ⟨st, rfl, fun it hit => absurd hit (List.not_mem_nil it), fun q _ => rfl⟩
  | cons it rest ih =>
    obtain ⟨k, l⟩ := it
    intro st hitems hnd inv
    obtain ⟨hk, hl⟩ := hitems (k, l) (List.mem_cons_self _ _)
    dsimp only at hk hl
    subst hl
    rw [List.map_cons, List.nodup_cons] at hnd
    obtain ⟨hknotin, hnd2⟩ := hnd
    have hkhead : k ∈ ((k, fragsUpTo (destRoot ++ [TMP_DIR_NAME]) (relMap k) N) :: rest).map
        Prod.fst := by
      rw [List.map_cons]
      exact List.mem_cons_self _ _
    obtain ⟨st1, hone, hA, hB, hC, hD, hE⟩ :=
      mergeOne_ok env destRoot K relMap content N hP k hk hcb hcw hN st
        (fun i h1 h2 => inv.frags k hkhead i h1 h2)
        (fun p hp => inv.tdirs k hkhead p hp)
        (inv.dest0 k hkhead)
        (inv.tmpm0 k hkhead)
        (fun p hpz hp => inv.chain k hkhead p hpz hp)
        inv.rootdirs
    have hmemR : ∀ kk ∈ rest.map Prod.fst,
        kk ∈ ((k, fragsUpTo (destRoot ++ [TMP_DIR_NAME]) (relMap k) N) :: rest).map
          Prod.fst := by
      intro kk hkk
      rw [List.map_cons]
      exact List.mem_cons_of_mem _ hkk
    have hkkK : ∀ kk ∈ rest.map Prod.fst, kk ∈ K :=
      fun kk hkk => inv.sub kk (hmemR kk hkk)
    have hkkne : ∀ kk ∈ rest.map Prod.fst, kk ≠ k := by
      intro kk hkk he
      exact hknotin (he ▸ hkk)
    have hinv2 : MInv destRoot K relMap content N (rest.map Prod.fst) st1.fs := by
      refine ⟨hkkK, ?_, ?_, ?_, ?_, ?_, ?_⟩
      · intro kk hkk i h1 h2
        rw [hB _ (frag_under_tmp _ _ _) (by
          intro hm
          obtain ⟨j, hj1, hj2, hje⟩ := mem_fragsUpTo.mp hm
          exact frag_ne_frag_of_keys hP (hkkK kk hkk) hk (hkkne kk hkk) hje)]
        exact inv.frags kk (hmemR kk hkk) i h1 h2
      · intro kk hkk p hp
        exact hD _ (inv.tdirs kk (hmemR kk hkk) p hp)
      · intro kk hkk
        rw [hC _ (notUnder_tmp (hP.hnotmp kk (hkkK kk hkk)))
          (dest_ne_of_keys hP (hkkK kk hkk) hk (hkkne kk hkk))
          (fun p hpz hp => dest_ne_chainElem hP (hkkK kk hkk) hk (hkkne kk hkk)
            (List.isPrefixOf_iff_prefix.mp hp))]
        exact inv.dest0 kk (hmemR kk hkk)
      · intro kk hkk
        rw [hB _ (by
            refine List.isPrefixOf_iff_prefix.mpr ⟨relParentOf (relMap kk) ++
              [relNameOf (relMap kk) ++ ".__merge_tmp"], ?_⟩
            simp [List.append_assoc])
          (by
            intro hm
            obtain ⟨j, hj1, hj2, hje⟩ := mem_fragsUpTo.mp hm
            exact tmpMerge_ne_frag hje)]
        exact inv.tmpm0 kk (hmemR kk hkk)
      · intro kk hkk p hpz hp
        by_cases hin : ∃ p2, p2 ≠ [] ∧ p2.isPrefixOf (relParentOf (relMap k)) = true ∧
            destRoot ++ p = destRoot ++ p2
        · obtain ⟨p2, hp2z, hp2, he2⟩ := hin
          rw [he2]
          exact Or.inr (hE p2 hp2z hp2)
        · push_neg at hin
          rw [hC _ (chainElem_not_under destRoot (hP.hnotmp kk (hkkK kk hkk)) hpz
              (List.isPrefixOf_iff_prefix.mp hp))
            (Ne.symm (dest_ne_chainElem hP hk (hkkK kk hkk)
              (fun he => hkkne kk hkk he.symm) (List.isPrefixOf_iff_prefix.mp hp)))
            (fun p2 hp2z hp2 => hin p2 hp2z hp2)]
          exact inv.chain kk (hmemR kk hkk) p hpz hp
      · intro p hpz hp
        exact hD _ (inv.rootdirs p hpz hp)
    obtain ⟨st2, hloop, hdests, hframe⟩ := ih st1
      (fun it2 hit2 => hitems it2 (List.mem_cons_of_mem _ hit2))
      hnd2 hinv2
    have hheadcond : ∀ it2 ∈ rest,
        destRoot ++ relMap k ∉
          fragsUpTo (destRoot ++ [TMP_DIR_NAME]) (relMap it2.1) N ∧
        destRoot ++ relMap k ≠ destRoot ++ relMap it2.1 ∧
        (∀ p, p ≠ [] → p.isPrefixOf (relParentOf (relMap it2.1)) = true →
          destRoot ++ relMap k ≠ destRoot ++ p) := by
      intro it2 hit2
      have hk2K : it2.1 ∈ K := hkkK it2.1 (List.mem_map.mpr ⟨it2, hit2, rfl⟩)
      have hk2ne : k ≠ it2.1 := by
        intro he
        exact hknotin (he ▸ List.mem_map.mpr ⟨it2, hit2, rfl⟩)
      refine ⟨?_, dest_ne_of_keys hP hk hk2K hk2ne, ?_⟩
      · intro hm
        have := fragsUpTo_under _ _ _ _ hm
        rw [notUnder_tmp (hP.hnotmp k hk)] at this
        cases this
      · intro p hpz hp
        exact dest_ne_chainElem hP hk hk2K hk2ne (List.isPrefixOf_iff_prefix.mp hp)
    refine ⟨st2, ?_, ?_, ?_⟩
    · rw [mergePartsGo_step env destRoot (destRoot ++ [TMP_DIR_NAME]) st st1 _ rest hone]
      exact hloop
    · intro it2 hit2
      rcases List.mem_cons.mp hit2 with he | hit3
      · subst he
        dsimp only
        rw [hframe _ hheadcond]
        exact hA
      · exact hdests it2 hit3
    · intro q hq
      obtain ⟨hq1, hq2, hq3⟩ := hq (k, fragsUpTo (destRoot ++ [TMP_DIR_NAME]) (relMap k) N)
        (List.mem_cons_self _ _)
      rw [hframe q (fun it2 hit2 => hq it2 (List.mem_cons_of_mem _ hit2))]
      cases hu : (destRoot ++ [TMP_DIR_NAME]).isPrefixOf q with
      | true => exact hB q hu hq1
      | false => exact hC q hu hq2 hq3

theorem pmLookup_mem {pm : PartsMap} {k : String} {l : List FPath}
    (h : pmLookup pm k = some l) : (k, l) ∈ pm := by
  induction pm with
  | nil => cases h
  | cons hd t ih =>
    obtain ⟨k0, l0⟩ := hd
    simp only [pmLookup] at h
    by_cases he : k0 = k
    · subst he
      rw [if_pos rfl] at h
      injection h with h2
      rw [← h2]
      exact List.mem_cons_self _ _
    · rw [if_neg he] at h
      exact List.mem_cons_of_mem _ (ih h)

/-- C1 (corrected): under the amended premises — each of `N ≥ 1` archives
holds exactly one entry per LogicalFile, nothing pre-exists at any
destination or under the staging directory, no I/O failure occurs, and
(the amendment) no entry's decoded path starts inside the staging
directory — staging followed by merging succeeds and writes, for every
LogicalFile, a destination file whose bytes are the exact concatenation of
that LogicalFile's entry bytes in ascending archive order, whatever the
entry order inside each archive. -/
theorem claim_C1_theorem (env : Env) (fs0 : FS) (destRoot : FPath) (zips : List ZipFile)
    (K : List String) (relMap : String → FPath) (content : Nat → String → Bytes)
    (log0 : SummaryLog)
    (S : C1Setup env fs0 destRoot zips K relMap content) :
    ∃ st mst, stageExtract env zips destRoot fs0 log0 = (st, none) ∧
      mergeParts env st.pm destRoot st.fs st.log = (mst, none) ∧
      ∀ k ∈ K, mst.fs (destRoot ++ relMap k) =
        some (FNode.file (catBytes content zips.length k)) := by
  obtain ⟨st, hstage, inv⟩ := stageExtract_ok env fs0 destRoot zips K relMap content S log0
  have hN : 1 ≤ zips.length := List.length_pos.mpr S.hzne
  have hitems : ∀ it ∈ st.pm, it.1 ∈ K ∧
      it.2 = fragsUpTo (destRoot ++ [TMP_DIR_NAME]) (relMap it.1) zips.length := by
    intro it hit
    obtain ⟨k, l⟩ := it
    have hlk : pmLookup st.pm k = some l := pmLookup_of_mem_nodup inv.pmnd hit
    by_cases hk : k ∈ K
    · refine ⟨hk, ?_⟩
      have h2 := inv.pm1 k hk
        (by show 1 ≤ if k ∈ K then zips.length else 0; rw [if_pos hk]; exact hN)
      simp only [if_pos hk] at h2
      rw [hlk] at h2
      exact Option.some_inj.mp h2
    · exfalso
      have h0 := inv.pm0 k (Or.inl hk)
      rw [hlk] at h0
      cases h0
  have hmemK : ∀ k ∈ K,
      (k, fragsUpTo (destRoot ++ [TMP_DIR_NAME]) (relMap k) zips.length) ∈ st.pm := by
    intro k hk
    have h2 := inv.pm1 k hk
      (by show 1 ≤ if k ∈ K then zips.length else 0; rw [if_pos hk]; exact hN)
    simp only [if_pos hk] at h2
    exact pmLookup_mem h2
  have minv : MInv destRoot K relMap content zips.length (st.pm.map Prod.fst) st.fs := by
    refine ⟨?_, ?_, ?_, ?_, ?_, ?_, ?_⟩
    · intro k hkR
      obtain ⟨it, hit, rfl⟩ := List.mem_map.mp hkR
      exact (hitems it hit).1
    · intro k hkR i h1 h2
      obtain ⟨it, hit, rfl⟩ := List.mem_map.mp hkR
      have hkK := (hitems it hit).1
      exact inv.frags it.1 hkK i h1
        (by show i ≤ if it.1 ∈ K then zips.length else 0; rw [if_pos hkK]; exact h2)
    · intro k hkR p hp
      obtain ⟨it, hit, rfl⟩ := List.mem_map.mp hkR
      have hkK := (hitems it hit).1
      exact inv.kdirs it.1 hkK
        (by show 1 ≤ if it.1 ∈ K then zips.length else 0; rw [if_pos hkK]; exact hN) p hp
    · intro k hkR
      obtain ⟨it, hit, rfl⟩ := List.mem_map.mp hkR
      have hkK := (hitems it hit).1
      rw [inv.frame _ (notUnder_tmp (S.paths.hnotmp it.1 hkK))]
      exact S.h0dest it.1 hkK
    · intro k hkR
      obtain ⟨it, hit, rfl⟩ := List.mem_map.mp hkR
      have hunder : (destRoot ++ [TMP_DIR_NAME]).isPrefixOf
          ((destRoot ++ [TMP_DIR_NAME]) ++ relParentOf (relMap it.1) ++
            [relNameOf (relMap it.1) ++ ".__merge_tmp"]) = true := by
        refine List.isPrefixOf_iff_prefix.mpr ⟨relParentOf (relMap it.1) ++
          [relNameOf (relMap it.1) ++ ".__merge_tmp"], ?_⟩
        simp [List.append_assoc]
      cases hq : st.fs ((destRoot ++ [TMP_DIR_NAME]) ++ relParentOf (relMap it.1) ++
          [relNameOf (relMap it.1) ++ ".__merge_tmp"]) with
      | none => rfl
      | some node =>
        exfalso
        cases node with
        | file b =>
          obtain ⟨k2, hk2, i, h1i, h2i, heq⟩ := inv.filesOnly _ b hunder hq
          exact tmpMerge_ne_frag heq
        | dir =>
          rcases inv.dirsOnly _ hunder hq with he | ⟨k2, hk2, hc2, p, hpz, hpfx, he⟩
          · have h2 : (relParentOf (relMap it.1) ++
                [relNameOf (relMap it.1) ++ ".__merge_tmp"] : FPath) = [] := by
              have h3 : (destRoot ++ [TMP_DIR_NAME]) ++ (relParentOf (relMap it.1) ++
                  [relNameOf (relMap it.1) ++ ".__merge_tmp"]) =
                  (destRoot ++ [TMP_DIR_NAME]) ++ [] := by
                rw [← List.append_assoc, he, List.append_nil]
              exact List.append_cancel_left h3
            exact absurd h2 (by simp)
          · exact tmpMerge_ne_tmp_chain S.paths hk2 hpfx he
    · intro k hkR p hpz hp
      obtain ⟨it, hit, rfl⟩ := List.mem_map.mp hkR
      have hkK := (hitems it hit).1
      rw [inv.frame _ (chainElem_not_under destRoot (S.paths.hnotmp it.1 hkK) hpz
        (List.isPrefixOf_iff_prefix.mp hp))]
      exact S.h0chain it.1 hkK p hpz hp
    · intro p hpz hp
      rw [inv.frame _ (isPrefixOf_false_of_lt (by
        have := (List.isPrefixOf_iff_prefix.mp hp).length_le
        simp only [List.length_append, List.length_cons, List.length_nil]
        omega))]
      exact S.h0root p hpz hp
  obtain ⟨mst, hloop, hdests, -⟩ :=
    mergeLoop_ok env destRoot K relMap content zips.length S.paths S.hcb S.hcw hN
      st.pm ⟨st.fs, st.log⟩ hitems inv.pmnd minv
  refine ⟨st, mst, hstage, hloop, ?_⟩
  intro k hk
  exact hdests (k, fragsUpTo (destRoot ++ [TMP_DIR_NAME]) (relMap k) zips.length)
    (hmemK k hk)

/-- Witness for C1: two archives, one LogicalFile `docs/report.txt`, bytes
`AAAA` then `BBBB`; the run stages, merges, and leaves the concatenation at
the destination. -/
theorem claim_C1_witness :
    ∃ st mst, stageExtract wEnv [wZip1, wZip2] ["root"] c1WFS0 wLog0 = (st, none) ∧
      mergeParts wEnv st.pm ["root"] st.fs st.log = (mst, none) ∧
      ∀ k ∈ c1K, mst.fs (["root"] ++ c1Rel k) =
        some (FNode.file (catBytes c1Content ([wZip1, wZip2] : List ZipFile).length k)) := by
  refine claim_C1_theorem wEnv c1WFS0 ["root"] [wZip1, wZip2] c1K c1Rel c1Content wLog0
    ⟨⟨?_, ?_, ?_, ?_, ?_, ?_⟩, ?_, ?_, ?_, ?_, ?_, ?_, ?_, ?_, ?_, ?_, ?_⟩
  · decide
  · decide
  · decide
  · decide
  · decide
  · decide
  · intro l
    rfl
  · intro b
    rfl
  · exact List.cons_ne_nil _ _
  · intro i z h
    cases i with
    | zero =>
      have h0 : ([wZip1, wZip2] : List ZipFile)[0]? = some wZip1 := rfl
      rw [h0] at h
      injection h with h2
      subst h2
      have he : wZip1.entries.map (fun e => entryKey wEnv e) = c1K := rfl
      rw [he]
    | succ n =>
      cases n with
      | zero =>
        have h0 : ([wZip1, wZip2] : List ZipFile)[1]? = some wZip2 := rfl
        rw [h0] at h
        injection h with h2
        subst h2
        have he : wZip2.entries.map (fun e => entryKey wEnv e) = c1K := rfl
        rw [he]
      | succ m =>
        have h0 : ([wZip1, wZip2] : List ZipFile)[m + 2]? = none := rfl
        rw [h0] at h
        cases h
  · decide
  · intro i z h
    cases i with
    | zero =>
      have h0 : ([wZip1, wZip2] : List ZipFile)[0]? = some wZip1 := rfl
      rw [h0] at h
      injection h with h2
      subst h2
      decide
    | succ n =>
      cases n with
      | zero =>
        have h0 : ([wZip1, wZip2] : List ZipFile)[1]? = some wZip2 := rfl
        rw [h0] at h
        injection h with h2
        subst h2
        decide
      | succ m =>
        have h0 : ([wZip1, wZip2] : List ZipFile)[m + 2]? = none := rfl
        rw [h0] at h
        cases h
  · decide
  · intro p hne hp
    have h2 : p <+: (([] : FPath) ++ ["root"]) := List.isPrefixOf_iff_prefix.mp hp
    rcases prefix_concat_cases h2 with h1 | h1
    · rw [List.prefix_nil] at h1
      exact absurd h1 hne
    · rw [h1]
      rfl
  · intro q hq
    obtain ⟨t, ht⟩ := List.isPrefixOf_iff_prefix.mp hq
    have hb : (("root" :: ".winbak_tmp" :: t : FPath) == ["root"]) = false :=
      beq_eq_false_iff_ne.mpr (by simp)
    rw [← ht]
    show List.lookup ("root" :: ".winbak_tmp" :: t) [(["root"], FNode.dir)] = none
    simp only [List.lookup, hb]
  · intro k hk
    have h1 := List.mem_singleton.mp hk
    subst h1
    rfl
  · intro k hk p hpz hp
    have h2 : p <+: (([] : FPath) ++ ["docs"]) := List.isPrefixOf_iff_prefix.mp hp
    rcases prefix_concat_cases h2 with h1 | h1
    · rw [List.prefix_nil] at h1
      exact absurd h1 hpz
    · rw [h1]
      exact Or.inl rfl
